/-
A verification development for the asynchronous job pipeline of a
feedback-analysis backend: the Postgres-backed job queue
(`services/queue_service.rs`), the worker loop (`services/worker.rs`),
the report extraction and normalization (`models/report.rs`,
`controllers/ticket.rs`), and the analysis client
(`services/gemini_service.rs`).

The embedding is shallow: SQL statements acting on the `analysis_jobs`
table become pure functions on an explicit queue state; each SQL
statement is atomic in Postgres, so a concurrent execution of several
statements is equivalent to some sequential interleaving of these
atomic state transformers.  Text is modelled as `List Char`; where the
Rust code uses byte indices into UTF-8 strings, the model works with
char positions and byte offsets are computed from UTF-8 encoded
lengths where the distinction matters.
-/
import Mathlib

namespace OrTrace

/-- Text: Rust `String` / `&str`, modelled as a list of chars. -/
abbrev Str := List Char

/-! ## Job queue model (`src/backend/src/models/job.rs`,
`src/backend/src/services/queue_service.rs`) -/

/-- `JobStatus` enum from `models/job.rs`. -/
inductive JobStatus where
  | pending
  | processing
  | completed
  | failed
deriving DecidableEq, Repr

/-- `AnalysisJob` row of the `analysis_jobs` table (`models/job.rs`).
UUIDs are modelled as `Nat`, timestamps as `Nat` clock readings. -/
structure AnalysisJob where
  id : Nat
  userId : Option Nat
  recordingId : Option Nat
  status : JobStatus
  videoStoragePath : Str
  videoSizeBytes : Int
  prompt : Option Str
  analysisResult : Option Str
  errorMessage : Option Str
  retryCount : Int
  createdAt : Nat
  startedAt : Option Nat
  completedAt : Option Nat
  updatedAt : Nat
deriving DecidableEq, Repr

/-- `CreateJobRequest` from `models/job.rs`. -/
structure CreateJobRequest where
  videoStoragePath : Str
  videoSizeBytes : Int
  prompt : Option Str
  userId : Option Nat
  recordingId : Option Nat
deriving DecidableEq, Repr

/-- The state of the `analysis_jobs` table plus the database clock
(`now()` / `Utc::now()`) and the id generator for fresh UUIDs. -/
structure QueueState where
  jobs : List AnalysisJob
  now : Nat
  nextId : Nat
deriving DecidableEq, Repr

namespace QueueService

/-- The row INSERTed by `QueueService::enqueue` for a request, given
the fresh id and the database clock. -/
def mkJob (request : CreateJobRequest) (idv t : Nat) : AnalysisJob :=
  { id := idv
    userId := request.userId
    recordingId := request.recordingId
    status := .pending
    videoStoragePath := request.videoStoragePath
    videoSizeBytes := request.videoSizeBytes
    prompt := request.prompt
    analysisResult := none
    errorMessage := none
    retryCount := 0
    createdAt := t
    startedAt := none
    completedAt := none
    updatedAt := t }

/-- `QueueService::enqueue`: INSERT a new row with status Pending;
`created_at` is stamped by the database at insert time, the fresh UUID
is returned. -/
def enqueue (request : CreateJobRequest) (s : QueueState) : Nat × QueueState :=
  (s.nextId, { s with jobs := s.jobs ++ [mkJob request s.nextId s.now], nextId := s.nextId + 1 })

/-- The Pending rows, in table order. -/
def pendingJobs (jobs : List AnalysisJob) : List AnalysisJob :=
  jobs.filter (fun j => j.status == .pending)

/-- `SELECT id FROM analysis_jobs WHERE status = 'pending' ORDER BY
created_at ASC LIMIT 1 FOR UPDATE SKIP LOCKED`: the oldest Pending row
(first row in table order among those of minimal `created_at`; SQL
leaves ties unspecified, this is one admissible choice). -/
def selectOldestPending (jobs : List AnalysisJob) : Option AnalysisJob :=
  (pendingJobs jobs).foldl
    (fun acc j =>
      match acc with
      | none => some j
      | some b => if j.createdAt < b.createdAt then some j else some b)
    none

/-- The `SET status = 'processing', started_at = $2` update applied to
the claimed row. -/
def claimJob (j : AnalysisJob) (t : Nat) : AnalysisJob :=
  { j with status := .processing, startedAt := some t }

/-- `QueueService::dequeue`: the single atomic UPDATE that selects the
oldest Pending row, sets it to Processing, stamps `started_at`, and
returns the updated row (`RETURNING *`); `None` when no Pending row
exists.  `FOR UPDATE SKIP LOCKED` makes the whole statement one atomic
claim, which is why a concurrent execution of dequeues is modelled as a
sequence of applications of this function. -/
def dequeue (s : QueueState) : Option AnalysisJob × QueueState :=
  match selectOldestPending s.jobs with
  | none => (none, s)
  | some j =>
    (some (claimJob j s.now),
      { s with jobs := s.jobs.map (fun r => if r.id = j.id then claimJob r s.now else r) })

/-- `QueueService::complete_job`: UPDATE by id, unconditionally sets
Completed, stores the result, stamps `completed_at`. -/
def complete_job (jobId : Nat) (result : Str) (s : QueueState) : QueueState :=
  { s with
    jobs := s.jobs.map (fun r =>
      if r.id = jobId then
        { r with status := .completed, analysisResult := some result, completedAt := some s.now }
      else r) }

/-- `QueueService::fail_job`: UPDATE by id, unconditionally sets
Failed, stores the error, stamps `completed_at`, increments
`retry_count`. -/
def fail_job (jobId : Nat) (error : Str) (s : QueueState) : QueueState :=
  { s with
    jobs := s.jobs.map (fun r =>
      if r.id = jobId then
        { r with
          status := .failed
          errorMessage := some error
          completedAt := some s.now
          retryCount := r.retryCount + 1 }
      else r) }

/-- `QueueService::retry_job`: UPDATE by id guarded by
`AND status = 'failed'`; resets to Pending, clears `error_message` and
`started_at`. -/
def retry_job (jobId : Nat) (s : QueueState) : QueueState :=
  { s with
    jobs := s.jobs.map (fun r =>
      if r.id = jobId ∧ r.status = .failed then
        { r with status := .pending, errorMessage := none, startedAt := none }
      else r) }

/-- `n` dequeue calls, one after the other (each call is one atomic SQL
statement, so any concurrent schedule is equivalent to such a
sequence); returns the list of per-call results. -/
def dequeueRuns (s : QueueState) : Nat → List (Option AnalysisJob)
  | 0 => []
  | n + 1 =>
    let (r, s') := dequeue s
    r :: dequeueRuns s' n

/-- Enqueue a list of requests one at a time, advancing the database
clock between inserts (sequential enqueues without contention get
strictly increasing `created_at` stamps). -/
def enqueueAll (reqs : List CreateJobRequest) (s : QueueState) : QueueState :=
  match reqs with
  | [] => s
  | r :: rest => enqueueAll rest { ((enqueue r s).2) with now := s.now + 1 }

/-- The rows `enqueueAll` inserts, from a first id and clock value. -/
def mkJobs (reqs : List CreateJobRequest) (idv t : Nat) : List AnalysisJob :=
  match reqs with
  | [] => []
  | r :: rest => mkJob r idv t :: mkJobs rest (idv + 1) (t + 1)

/-- The state after `n` sequential dequeue calls. -/
def dequeueState (s : QueueState) : Nat → QueueState
  | 0 => s
  | n + 1 => dequeueState (dequeue s).2 n

/-- A sample Pending job used to instantiate queue theorems. -/
def sampleJob : AnalysisJob :=
  mkJob ⟨"v.webm".toList, 100, none, none, some 7⟩ 0 5

/-- A sample one-job queue state. -/
def sampleState : QueueState :=
  ⟨[sampleJob], 10, 1⟩

/-- A queue state holding one Completed job. -/
def sampleCompletedState : QueueState :=
  ⟨[{ sampleJob with status := .completed }], 10, 1⟩

/-- A queue state holding one Processing job. -/
def sampleProcessingState : QueueState :=
  ⟨[{ sampleJob with status := .processing }], 10, 1⟩

/-- A sample Failed job. -/
def sampleFailedJob : AnalysisJob :=
  { sampleJob with
    status := .failed
    errorMessage := some ("e".toList)
    startedAt := some 6
    retryCount := 2 }

/-- A queue state holding one Failed job. -/
def sampleFailedState : QueueState :=
  ⟨[sampleFailedJob], 10, 1⟩

/-- The forward status moves along Pending → Processing →
{Completed, Failed} (reflexivity included for untouched rows). -/
def ForwardStep (a b : JobStatus) : Prop :=
  a = b ∨ (a = .pending ∧ b = .processing) ∨
    (a = .processing ∧ (b = .completed ∨ b = .failed))

/-- Status moves `retry_job` may make: unchanged, or the explicit
Failed → Pending reset. -/
def RetryStep (a b : JobStatus) : Prop :=
  a = b ∨ (a = .failed ∧ b = .pending)

end QueueService

/-! ## JSON values (`serde_json::Value`)

Numbers keep their literal token: `serde_json` stores a number as
`i64`/`u64` when the literal is plain-integer syntax and as `f64`
otherwise, and `as_i64` answers `Some` only in the integer case, which
is exactly recoverable from the token. -/

/-- `serde_json::Value`. -/
inductive Json where
  | null
  | bool (b : Bool)
  | num (tok : Str)
  | str (s : Str)
  | arr (xs : List Json)
  | obj (kvs : List (Str × Json))
deriving BEq, Repr

/-- `Value::get(key)` for objects (`None` on other variants). -/
def Json.get (v : Json) (key : Str) : Option Json :=
  match v with
  | .obj kvs => (kvs.find? (fun kv => kv.1 == key)).map (fun kv => kv.2)
  | _ => none

/-- `Value::as_str`. -/
def Json.asStr : Json → Option Str
  | .str s => some s
  | _ => none

/-- `Value::as_array`. -/
def Json.asArray : Json → Option (List Json)
  | .arr xs => some xs
  | _ => none

/-- Whether a numeric literal token has plain-integer syntax (no `.`,
`e`, `E`), i.e. `serde_json` stores it as `i64`/`u64`, not `f64`. -/
def intTok (tok : Str) : Bool :=
  tok.all (fun c => c.isDigit || c = '-')

/-- Numeric value of the digits of an integer token. -/
def digitsVal (ds : Str) : Int :=
  ds.foldl (fun acc c => acc * 10 + (c.toNat - 48)) 0

/-- Signed value of an integer token. -/
def numVal (tok : Str) : Int :=
  match tok with
  | c :: ds => if c = '-' then - digitsVal ds else digitsVal tok
  | [] => 0

/-- `Value::as_i64`: `Some` for integer-syntax numbers within `i64`
range (larger integers live as `u64`/`f64` where `as_i64` is `None`),
`None` otherwise. -/
def Json.asI64 : Json → Option Int
  | .num tok =>
    if intTok tok ∧ -(2 ^ 63) ≤ numVal tok ∧ numVal tok < 2 ^ 63 then some (numVal tok)
    else none
  | _ => none

/-- Rust `v as i32` on an `i64` value: two's-complement truncation. -/
def i64AsI32 (n : Int) : Int :=
  (n + 2 ^ 31) % 2 ^ 32 - 2 ^ 31

/-! ## Report domain model (`src/backend/src/models/report.rs`) -/

/-- `ReportOutcome` (constructor `partialOutcome` stands for the
source's `Partial`; `partial` is a Lean keyword). -/
inductive ReportOutcome where
  | success
  | partialOutcome
  | failed
deriving DecidableEq, Repr

/-- `IssueSeverity`. -/
inductive IssueSeverity where
  | critical
  | high
  | medium
  | low
deriving DecidableEq, Repr

/-- `QuestionAnalysis` item. -/
structure QuestionAnalysis where
  question : Str
  answer : Str
  observations : List Str
  confidence : Int
  timestamp : Option Str
deriving BEq, Repr

/-- `Evidence` item (`type` field is `evidence_type`). -/
structure Evidence where
  evidenceType : Str
  value : Str
  description : Option Str
deriving BEq, Repr

/-- `serde` deserialization of `Vec<String>`: the value must be an
array all of whose elements are strings. -/
def Json.asStrList : Json → Option (List Str)
  | .arr xs => xs.mapM Json.asStr
  | _ => none

/-- `serde` deserialization of `i32`: an integer-syntax number within
`i32` range. -/
def Json.asI32 : Json → Option Int
  | .num tok =>
    if intTok tok ∧ -(2 ^ 31) ≤ numVal tok ∧ numVal tok < 2 ^ 31 then some (numVal tok)
    else none
  | _ => none

/-- `serde` deserialization of an `Option<String>` struct field:
missing or `null` gives `None`, a string gives `Some`, anything else
is an error. -/
def optStrField (v : Json) (key : Str) : Option (Option Str) :=
  match v.get key with
  | none => some none
  | some .null => some none
  | some (.str s) => some (some s)
  | some _ => none

/-- `serde_json::from_value::<QuestionAnalysis>` (derive semantics:
`question`, `answer`, `observations`, `confidence` required;
`timestamp` is `Option` hence defaults to `None`; unknown fields
ignored). -/
def fromValueQuestionAnalysis (v : Json) : Option QuestionAnalysis :=
  match v with
  | .obj _ => do
    let q ← (v.get ("question".toList)).bind Json.asStr
    let a ← (v.get ("answer".toList)).bind Json.asStr
    let obs ← (v.get ("observations".toList)).bind Json.asStrList
    let conf ← (v.get ("confidence".toList)).bind Json.asI32
    let ts ← optStrField v ("timestamp".toList)
    some ⟨q, a, obs, conf, ts⟩
  | _ => none

/-- `serde_json::from_value::<Evidence>` (`type` and `value` required
strings, `description` optional). -/
def fromValueEvidence (v : Json) : Option Evidence :=
  match v with
  | .obj _ => do
    let t ← (v.get ("type".toList)).bind Json.asStr
    let val ← (v.get ("value".toList)).bind Json.asStr
    let d ← optStrField v ("description".toList)
    some ⟨t, val, d⟩
  | _ => none

/-- `question_analysis_from_value` from `models/report.rs`: an array
keeps the elements that deserialize (`if let Ok(q) … push`); a bare
string becomes one entry with empty question and the string as the
answer; anything else gives the empty list. -/
def question_analysis_from_value (value : Json) : List QuestionAnalysis :=
  match value with
  | .arr xs => xs.filterMap fromValueQuestionAnalysis
  | .str s => [⟨[], s, [], 0, none⟩]
  | _ => []

/-- `evidence_from_value` from `models/report.rs`: an array keeps the
elements that deserialize; a bare string becomes a single synthetic
`observation` evidence item carrying the string. -/
def evidence_from_value (value : Json) : List Evidence :=
  match value with
  | .arr xs => xs.filterMap fromValueEvidence
  | .str s => [⟨"observation".toList, s, none⟩]
  | _ => []

/-- `string_array_from_value` from `models/report.rs`: an array is
filtered to its string elements; a bare string becomes a singleton
list; anything else gives the empty list. -/
def string_array_from_value (value : Json) : List Str :=
  match value with
  | .arr xs => xs.filterMap Json.asStr
  | .str s => [s]
  | _ => []

/-- `Report` database model. -/
structure Report where
  id : Nat
  recordingId : Nat
  outcome : Option ReportOutcome
  confidence : Option Int
  overview : Option Str
  taskCompletionRate : Option Int
  totalHesitationTime : Option Int
  retriesCount : Option Int
  abandonmentPoint : Option Str
  questionAnalysis : Json
  suggestedActions : List Str
  possibleSolutions : Json
  rawAnalysis : Option Str
deriving BEq, Repr

/-- `Issue` database model. -/
structure Issue where
  id : Nat
  reportId : Nat
  title : Str
  severity : IssueSeverity
  tags : Json
  observedBehavior : Option Str
  expectedBehavior : Option Str
  evidence : Json
  screenshots : Json
  impact : Json
  reproductionSteps : Json
  confidence : Option Int
  externalTicketUrl : Option Str
deriving BEq, Repr

/-- A `Report` row as produced for a report created from `{}`: all
optional analysis fields NULL. -/
def emptyReport : Report :=
  { id := 0
    recordingId := 0
    outcome := none
    confidence := none
    overview := none
    taskCompletionRate := none
    totalHesitationTime := none
    retriesCount := none
    abandonmentPoint := none
    questionAnalysis := .arr []
    suggestedActions := []
    possibleSolutions := .arr []
    rawAnalysis := none }

/-! ## Report rows written by the worker
(`Worker::create_report_from_analysis` insert bindings) -/

/-- The `reports` row inserted by `create_report_from_analysis`:
every binding mirrors the source's
`parsed.get(..).and_then(as_str/as_i64)` chain; missing or wrongly
typed fields bind SQL NULL (`none`), JSON fields default to the empty
array. -/
structure ReportRow where
  recordingId : Nat
  outcome : Option Str
  confidence : Option Int
  overview : Option Str
  taskCompletionRate : Option Int
  totalHesitationTime : Option Int
  retriesCount : Option Int
  abandonmentPoint : Option Str
  questionAnalysis : Json
  suggestedActions : Json
  possibleSolutions : Json
  rawAnalysis : Str
deriving BEq, Repr

/-- The `issues` row inserted per element of `parsed["issues"]`. -/
structure IssueRow where
  title : Str
  severity : Str
  tags : Json
  observedBehavior : Option Str
  expectedBehavior : Option Str
  evidence : Json
  screenshots : Json
  impact : Json
  reproductionSteps : Json
  confidence : Option Int
deriving BEq, Repr

/-- The metrics sub-object accessor used by the report bindings. -/
def metricsField (parsed : Json) (key : Str) : Option Json :=
  (parsed.get ("metrics".toList)).bind (fun m => m.get key)

/-- The `reports` insert bindings of `create_report_from_analysis`. -/
def create_report_row (recordingId : Nat) (analysis : Str) (parsed : Json) : ReportRow :=
  { recordingId := recordingId
    outcome := (parsed.get ("outcome".toList)).bind Json.asStr
    confidence := ((parsed.get ("confidence".toList)).bind Json.asI64).map i64AsI32
    overview := (parsed.get ("overview".toList)).bind Json.asStr
    taskCompletionRate := ((metricsField parsed ("task_completion_rate".toList)).bind Json.asI64).map i64AsI32
    totalHesitationTime := ((metricsField parsed ("total_hesitation_time".toList)).bind Json.asI64).map i64AsI32
    retriesCount := ((metricsField parsed ("retries_count".toList)).bind Json.asI64).map i64AsI32
    abandonmentPoint := (metricsField parsed ("abandonment_point".toList)).bind Json.asStr
    questionAnalysis := (parsed.get ("question_analysis".toList)).getD (.arr [])
    suggestedActions := (parsed.get ("suggested_actions".toList)).getD (.arr [])
    possibleSolutions := (parsed.get ("possible_solutions".toList)).getD (.arr [])
    rawAnalysis := analysis }

/-- The `issues` insert bindings of `create_report_from_analysis`. -/
def create_issue_row (issue : Json) : IssueRow :=
  { title := ((issue.get ("title".toList)).bind Json.asStr).getD ("Unknown Issue".toList)
    severity := ((issue.get ("severity".toList)).bind Json.asStr).getD ("medium".toList)
    tags := (issue.get ("tags".toList)).getD (.arr [])
    observedBehavior := (issue.get ("observed_behavior".toList)).bind Json.asStr
    expectedBehavior := (issue.get ("expected_behavior".toList)).bind Json.asStr
    evidence := (issue.get ("evidence".toList)).getD (.arr [])
    screenshots := (issue.get ("screenshots".toList)).getD (.arr [])
    impact := (issue.get ("impact".toList)).getD (.arr [])
    reproductionSteps := (issue.get ("reproduction_steps".toList)).getD (.arr [])
    confidence := ((issue.get ("confidence".toList)).bind Json.asI64).map i64AsI32 }

/-- The issue rows inserted for `parsed["issues"]`
(`if let Some(issues) = parsed.get("issues").and_then(as_array)`). -/
def create_issue_rows (parsed : Json) : List IssueRow :=
  match (parsed.get ("issues".toList)).bind Json.asArray with
  | some issues => issues.map create_issue_row
  | none => []

/-! ## Report read path (`controllers/ticket.rs::build_report_response`) -/

/-- DTO `ExecutiveSummary`. -/
structure ExecutiveSummary where
  outcome : ReportOutcome
  confidence : Int
  overview : Str
deriving BEq, Repr

/-- DTO `ReportMetrics`. -/
structure ReportMetrics where
  taskCompletionRate : Int
  totalHesitationTime : Int
  retriesCount : Int
  abandonmentPoint : Option Str
deriving BEq, Repr

/-- DTO `IssueResponse`. -/
structure IssueResponse where
  id : Nat
  title : Str
  severity : IssueSeverity
  tags : List Str
  observedBehavior : Option Str
  expectedBehavior : Option Str
  evidence : List Evidence
  screenshots : List Str
  impact : List Str
  reproductionSteps : List Str
  confidence : Option Int
  externalTicketUrl : Option Str
deriving BEq, Repr

/-- DTO `ReportResponse`. -/
structure ReportResponse where
  id : Nat
  recordingId : Nat
  executiveSummary : ExecutiveSummary
  metrics : ReportMetrics
  issues : List IssueResponse
  questionAnalysis : List QuestionAnalysis
  suggestedActions : List Str
  possibleSolutions : List Str
deriving BEq, Repr

/-- `build_report_response` from `controllers/ticket.rs`: read-time
defaults (`unwrap_or(Partial)`, `unwrap_or(0)`, `unwrap_or_default`)
and read-time normalization of the raw JSON fields. -/
def build_report_response (report : Report) (issues : List Issue) : ReportResponse :=
  { id := report.id
    recordingId := report.recordingId
    executiveSummary :=
      { outcome := report.outcome.getD .partialOutcome
        confidence := report.confidence.getD 0
        overview := report.overview.getD [] }
    metrics :=
      { taskCompletionRate := report.taskCompletionRate.getD 0
        totalHesitationTime := report.totalHesitationTime.getD 0
        retriesCount := report.retriesCount.getD 0
        abandonmentPoint := report.abandonmentPoint }
    issues := issues.map (fun i =>
      { id := i.id
        title := i.title
        severity := i.severity
        tags := string_array_from_value i.tags
        observedBehavior := i.observedBehavior
        expectedBehavior := i.expectedBehavior
        evidence := evidence_from_value i.evidence
        screenshots := string_array_from_value i.screenshots
        impact := string_array_from_value i.impact
        reproductionSteps := string_array_from_value i.reproductionSteps
        confidence := i.confidence
        externalTicketUrl := i.externalTicketUrl })
    questionAnalysis := question_analysis_from_value report.questionAnalysis
    suggestedActions := report.suggestedActions
    possibleSolutions := string_array_from_value report.possibleSolutions }

/-! ## Analysis client (`src/backend/src/services/gemini_service.rs`) -/

/-- Base64 alphabet character for a 6-bit value. -/
def b64Char (n : Nat) : Char :=
  if n < 26 then Char.ofNat (65 + n)
  else if n < 52 then Char.ofNat (97 + (n - 26))
  else if n < 62 then Char.ofNat (48 + (n - 52))
  else if n = 62 then '+'
  else Char.ofNat 47

/-- Standard base64 encoding with padding (`base64::encode`). -/
def base64Encode : List Nat → Str
  | b1 :: b2 :: b3 :: rest =>
    let n := b1 * 65536 + b2 * 256 + b3
    b64Char (n / 262144) :: b64Char (n / 4096 % 64) :: b64Char (n / 64 % 64) :: b64Char (n % 64) ::
      base64Encode rest
  | [b1, b2] =>
    let n := b1 * 1024 + b2 * 4
    [b64Char (n / 4096), b64Char (n / 64 % 64), b64Char (n % 64), '=']
  | [b1] =>
    let n := b1 * 16
    [b64Char (n / 64), b64Char (n % 64), '=', '=']
  | [] => []

/-- A `Part` of the upstream response envelope. -/
structure RespPart where
  text : Option Str
deriving BEq, Repr

/-- A `Content` of the upstream response envelope. -/
structure RespContent where
  parts : List RespPart
deriving BEq, Repr

/-- A `Candidate` of the upstream response envelope. -/
structure RespCandidate where
  content : RespContent
deriving BEq, Repr

/-- The upstream `Response` envelope. -/
structure GeminiResponse where
  candidates : List RespCandidate
deriving BEq, Repr

/-- One observed HTTP exchange with the upstream API: whether the
status was a success, the raw body text, and the body parsed as the
response envelope when that deserialization succeeds. -/
structure HttpResp where
  statusSuccess : Bool
  bodyText : Str
  envelope : Option GeminiResponse
deriving BEq, Repr

/-- The outbound request `call_api` builds (only the fields the claims
observe; the network call itself is the event of this record being
emitted). -/
structure ApiRequest where
  mimeType : Str
  data : Str
  prompt : Str
deriving BEq, Repr

/-- `MAX_SIZE_MB` is `20.0`; `size_mb = len as f64 / (1024.0*1024.0)`
and `size_mb > 20.0` are exact in `f64` for any realistic length
(`len` below `2^53`, division by a power of two), so the check is
equivalently `len > 20 * 1024 * 1024` bytes. -/
def maxSizeBytes : Nat := 20 * 1024 * 1024

/-- `GeminiService::call_api`: emits exactly one outbound request and
interprets the stubbed response as the source does: non-success status
fails with the body (`API error`), an undeserializable envelope fails
with `Parse error`, an envelope without a first-candidate first-part
text fails with `No response text`. -/
def call_api (resp : HttpResp) (data mime prompt : Str) :
    Except Str Str × List ApiRequest :=
  let req : ApiRequest := { mimeType := mime, data := data, prompt := prompt }
  if !resp.statusSuccess then
    (.error (("API error: ".toList) ++ resp.bodyText), [req])
  else
    match resp.envelope with
    | none => (.error ("Parse error".toList), [req])
    | some env =>
      match (env.candidates.head?).bind (fun c => c.content.parts.head?) with
      | none => (.error ("No response text".toList), [req])
      | some p =>
        match p.text with
        | none => (.error ("No response text".toList), [req])
        | some t => (.ok t, [req])

/-- `GeminiService::mime_type`: MIME type from the file extension,
defaulting to `video/mp4`. -/
def mime_type (ext : Option Str) : Str :=
  if ext == some ("mp4".toList) then "video/mp4".toList
  else if ext == some ("mov".toList) then "video/quicktime".toList
  else if ext == some ("avi".toList) then "video/x-msvideo".toList
  else if ext == some ("webm".toList) then "video/webm".toList
  else if ext == some ("mkv".toList) then "video/x-matroska".toList
  else "video/mp4".toList

/-- `GeminiService::analyze`: read the file (`reader` stands for
`fs::read` on the job's temp path), reject oversized payloads before
any call, else base64-encode and call the API.  The source formats the
size into the error with `f64` formatting; the model keeps the
message's fixed prefix. -/
def analyze (reader : Except Str (List Nat)) (ext : Option Str) (resp : HttpResp)
    (prompt : Str) : Except Str Str × List ApiRequest :=
  match reader with
  | .error e => (.error (("Failed to read: ".toList) ++ e), [])
  | .ok bytes =>
    if maxSizeBytes < bytes.length then
      (.error ("Video too large".toList), [])
    else
      call_api resp (base64Encode bytes) (mime_type ext) prompt

/-- `GeminiService::analyze_bytes`: same size gate over bytes given
directly, with the caller-supplied MIME type. -/
def analyze_bytes (bytes : List Nat) (mimeType : Str) (resp : HttpResp)
    (prompt : Str) : Except Str Str × List ApiRequest :=
  if maxSizeBytes < bytes.length then
    (.error ("Video too large".toList), [])
  else
    call_api resp (base64Encode bytes) mimeType prompt

/-! ## Rust string utilities

`char::is_whitespace` is the Unicode `White_Space` property; the JSON
grammar's whitespace is the four ASCII characters.  Rust's `find`
returns byte indices; an ASCII pattern in valid UTF-8 only occurs at
character boundaries, so occurrences correspond one-to-one and in
order to char-position occurrences, which the model uses. -/

/-- The double quote character. -/
def dquote : Char := Char.ofNat 34

/-- The single quote character. -/
def squote : Char := Char.ofNat 39

/-- The backslash character. -/
def bslash : Char := Char.ofNat 92

/-- The backtick character. -/
def btick : Char := Char.ofNat 96

/-- Unicode `White_Space` (Rust `char::is_whitespace`). -/
def rustWsChar (c : Char) : Bool :=
  let n := c.toNat
  (9 ≤ n && n ≤ 13) || n = 32 || n = 133 || n = 160 || n = 5760 ||
    (8192 ≤ n && n ≤ 8202) || n = 8232 || n = 8233 || n = 8239 || n = 8287 || n = 12288

/-- `str::trim_start` under `char::is_whitespace`. -/
def rustTrimStart : Str → Str
  | [] => []
  | c :: r => if rustWsChar c then rustTrimStart r else c :: r

/-- `str::trim_end`. -/
def rustTrimEnd (l : Str) : Str :=
  (rustTrimStart l.reverse).reverse

/-- `str::trim`. -/
def rustTrim (l : Str) : Str :=
  rustTrimEnd (rustTrimStart l)

/-- `str::find` for a substring pattern: position (in chars, see the
section comment) of the first occurrence. -/
def findSub : Str → Str → Option Nat
  | [], pat => if pat.isEmpty then some 0 else none
  | c :: r, pat =>
    if pat.isPrefixOf (c :: r) then some 0 else (findSub r pat).map (· + 1)

/-- UTF-8 encoded length of a char (`char::len_utf8`). -/
def utf8Len (c : Char) : Nat :=
  if c.toNat < 128 then 1
  else if c.toNat < 2048 then 2
  else if c.toNat < 65536 then 3
  else 4

/-- UTF-8 encoded length of a string. -/
def byteLen (l : Str) : Nat :=
  (l.map utf8Len).sum

/-- `str::char_indices` (byte offset of each char), from a base
offset. -/
def charIndicesFrom (base : Nat) : Str → List (Nat × Char)
  | [] => []
  | c :: r => (base, c) :: charIndicesFrom (base + utf8Len c) r

/-- `str::get(..n)` for a byte count `n`: the prefix of that encoded
length when `n` is a character boundary, otherwise `none`. -/
def takeBytes : Str → Nat → Option Str
  | _, 0 => some []
  | [], _ + 1 => none
  | c :: r, n + 1 =>
    if utf8Len c ≤ n + 1 then (takeBytes r (n + 1 - utf8Len c)).map (c :: ·)
    else none

/-! ## `serde_json::from_str` (standard JSON grammar)

Fuel-based recursive descent; the fuel only bounds the recursion and
is instantiated at more than the input length.  The recursion-depth
limit (128 nested containers) mirrors `serde_json`'s default.  Objects
are built with last-duplicate-wins insertion like the `BTreeMap`
behind `serde_json::Map` (the map's key ordering is not observed by
any claim). -/

/-- JSON whitespace (space, tab, newline, carriage return). -/
def jsonWsChar (c : Char) : Bool :=
  c = ' ' || c = Char.ofNat 9 || c = '\n' || c = Char.ofNat 13

/-- Skip JSON whitespace. -/
def skipWs : Str → Str
  | [] => []
  | c :: r => if jsonWsChar c then skipWs r else c :: r

/-- Hex digit test. -/
def hexDigit (c : Char) : Bool :=
  c.isDigit || ("a".toList.all (fun a => a ≤ c) && c ≤ 'f') || ('A' ≤ c && c ≤ 'F')

/-- Hex digit value. -/
def hexVal (c : Char) : Nat :=
  if c.isDigit then c.toNat - 48
  else if 'a' ≤ c then c.toNat - 87
  else c.toNat - 55

/-- Decoded char of a single-character escape (`\" \\ \/ \b \f \n \r
\t`). -/
def escDecode (c : Char) : Option Char :=
  if c = dquote then some dquote
  else if c = bslash then some bslash
  else if c = '/' then some '/'
  else if c = 'b' then some (Char.ofNat 8)
  else if c = 'f' then some (Char.ofNat 12)
  else if c = 'n' then some '\n'
  else if c = 'r' then some (Char.ofNat 13)
  else if c = 't' then some (Char.ofNat 9)
  else none

/-- Code point of four hex digits. -/
def hex4 (h1 h2 h3 h4 : Char) : Nat :=
  ((hexVal h1 * 16 + hexVal h2) * 16 + hexVal h3) * 16 + hexVal h4

/-- The low-surrogate half of a `\uXXXX\uYYYY` pair, after a high
surrogate with value `n`: the combined code point and the rest. -/
def parseUEscPair (n : Nat) : Str → Option (Char × Str)
  | e2 :: u2 :: g1 :: g2 :: g3 :: g4 :: r4 =>
    if e2 = bslash && u2 = 'u' && hexDigit g1 && hexDigit g2 && hexDigit g3 && hexDigit g4 then
      if 56320 ≤ hex4 g1 g2 g3 g4 ∧ hex4 g1 g2 g3 g4 < 57344 then
        some (Char.ofNat (65536 + (n - 55296) * 1024 + (hex4 g1 g2 g3 g4 - 56320)), r4)
      else none
    else none
  | _ => none

/-- A `\u` escape after the `\u`: four hex digits, with a high
surrogate requiring an immediately following low-surrogate escape, as
in `serde_json`.  Returns the decoded character and the rest. -/
def parseUEsc : Str → Option (Char × Str)
  | h1 :: h2 :: h3 :: h4 :: r3 =>
    if hexDigit h1 && hexDigit h2 && hexDigit h3 && hexDigit h4 then
      if 55296 ≤ hex4 h1 h2 h3 h4 ∧ hex4 h1 h2 h3 h4 < 56320 then
        parseUEscPair (hex4 h1 h2 h3 h4) r3
      else if 56320 ≤ hex4 h1 h2 h3 h4 ∧ hex4 h1 h2 h3 h4 < 57344 then none
      else some (Char.ofNat (hex4 h1 h2 h3 h4), r3)
    else none
  | _ => none

/-- String body after the opening quote, on fuel (one unit per
decoded character; the list length always suffices): decoded content
and the rest after the closing quote.  Unescaped control characters
and invalid or lone-surrogate escapes are errors, as in
`serde_json`. -/
def parseStringBodyF : Nat → Str → Option (Str × Str)
  | 0, _ => none
  | _ + 1, [] => none
  | fuel + 1, c :: r =>
    if c = dquote then some ([], r)
    else if c = bslash then
      match r with
      | [] => none
      | e :: r2 =>
        if e = 'u' then
          match parseUEsc r2 with
          | some (ch, r3) => (parseStringBodyF fuel r3).map (fun p => (ch :: p.1, p.2))
          | none => none
        else
          match escDecode e with
          | some d => (parseStringBodyF fuel r2).map (fun p => (d :: p.1, p.2))
          | none => none
    else if c.toNat < 32 then none
    else (parseStringBodyF fuel r).map (fun p => (c :: p.1, p.2))

/-- String body parsing at its sufficient fuel. -/
def parseStringBody (l : Str) : Option (Str × Str) :=
  parseStringBodyF l.length l

/-- Longest digit prefix. -/
def takeDigits : Str → Str × Str
  | [] => ([], [])
  | c :: r =>
    if c.isDigit then
      let p := takeDigits r
      (c :: p.1, p.2)
    else ([], c :: r)

/-- Optional fraction part of a number token. -/
def fracPart (acc : Str) (l : Str) : Option (Str × Str) :=
  match l with
  | c :: r =>
    if c = '.' then
      match takeDigits r with
      | ([], _) => none
      | (d, rest) => some (acc ++ '.' :: d, rest)
    else some (acc, l)
  | [] => some (acc, l)

/-- Optional exponent part of a number token. -/
def expPart (acc : Str) (l : Str) : Option (Str × Str) :=
  match l with
  | c :: r =>
    if c = 'e' ∨ c = 'E' then
      match r with
      | s :: r2 =>
        if s = '+' ∨ s = '-' then
          match takeDigits r2 with
          | ([], _) => none
          | (d, rest) => some (acc ++ c :: s :: d, rest)
        else
          match takeDigits r with
          | ([], _) => none
          | (d, rest) => some (acc ++ c :: d, rest)
      | [] => none
    else some (acc, l)
  | [] => some (acc, l)

/-- A number token (`-? (0 | [1-9][0-9]*) frac? exp?`), returning the
token text and the rest. -/
def parseNumber (l : Str) : Option (Str × Str) :=
  let sl : Str × Str :=
    match l with
    | c :: r => if c = '-' then ([c], r) else ([], l)
    | [] => ([], l)
  match sl.2 with
  | [] => none
  | c :: r =>
    if c = '0' then
      (fracPart (sl.1 ++ [c]) r).bind (fun p => expPart p.1 p.2)
    else if c.isDigit then
      let d := takeDigits r
      (fracPart (sl.1 ++ c :: d.1) d.2).bind (fun p => expPart p.1 p.2)
    else none

/-- `BTreeMap` insertion: replace the value of an existing key, append
a fresh key. -/
def insertKV (kvs : List (Str × Json)) (k : Str) (v : Json) : List (Str × Json) :=
  match kvs with
  | [] => [(k, v)]
  | (k', v') :: rest => if k' == k then (k', v) :: rest else (k', v') :: insertKV rest k v

/-- Keyword tail check (`true`/`false`/`null` after their first
character), as `serde_json`\'s `parse_ident`. -/
def parseKw (tail : Str) (v : Json) (r : Str) : Option (Json × Str) :=
  if tail.isPrefixOf r then some (v, r.drop tail.length) else none

/-- The object branch after `{`: recursion-limit check, empty object,
or the member loop on the decremented limit. -/
def objCase (inner : Nat → Str → Option (Json × Str)) : Nat → Str → Option (Json × Str)
  | 0, _ => none
  | d + 1, c2 :: r2 => if c2 = '}' then some (Json.obj [], r2) else inner d (c2 :: r2)
  | _ + 1, [] => none

/-- The array branch after `[`: recursion-limit check, empty array,
or the element loop on the decremented limit. -/
def arrCase (inner : Nat → Str → Option (Json × Str)) : Nat → Str → Option (Json × Str)
  | 0, _ => none
  | d + 1, c2 :: r2 => if c2 = ']' then some (Json.arr [], r2) else inner d (c2 :: r2)
  | _ + 1, [] => none

/-- After an object key: a colon, then the value. -/
def membColon (pv : Str → Option (Json × Str))
    (next : Json → Str → Option (Json × Str)) : Str → Option (Json × Str)
  | c2 :: r2 =>
    if c2 = ':' then
      (pv (skipWs r2)).bind (fun pr => next pr.1 (skipWs pr.2))
    else none
  | [] => none

/-- After an object member\'s value: comma to continue or closing
brace. -/
def membComma (pm : Str → List (Str × Json) → Option (Json × Str))
    (acc : List (Str × Json)) (key : Str) (v : Json) : Str → Option (Json × Str)
  | c3 :: r4 =>
    if c3 = ',' then pm (skipWs r4) (insertKV acc key v)
    else if c3 = '}' then some (Json.obj (insertKV acc key v), r4)
    else none
  | [] => none

/-- After an array element: comma to continue or closing bracket. -/
def elemComma (pe : Str → List Json → Option (Json × Str)) (acc : List Json) (v : Json) :
    Str → Option (Json × Str)
  | c :: r2 =>
    if c = ',' then pe (skipWs r2) (acc ++ [v])
    else if c = ']' then some (Json.arr (acc ++ [v]), r2)
    else none
  | [] => none

mutual

/-- Parse one JSON value at the head of `l` (whitespace already
skipped), returning it and the unconsumed rest. -/
def parseValue : Nat → Nat → Str → Option (Json × Str)
  | 0, _, _ => none
  | f + 1, depth, l =>
    match l with
    | [] => none
    | c :: r =>
      if c = dquote then (parseStringBody r).map (fun p => (Json.str p.1, p.2))
      else if c = '{' then objCase (fun d l2 => parseMembers f d l2 []) depth (skipWs r)
      else if c = '[' then arrCase (fun d l2 => parseElements f d l2 []) depth (skipWs r)
      else if c = 't' then parseKw ("rue".toList) (Json.bool true) r
      else if c = 'f' then parseKw ("alse".toList) (Json.bool false) r
      else if c = 'n' then parseKw ("ull".toList) Json.null r
      else if c.isDigit || c = '-' then (parseNumber l).map (fun p => (Json.num p.1, p.2))
      else none

/-- Parse the members of an object from the first key (whitespace
skipped), through the closing brace. -/
def parseMembers : Nat → Nat → Str → List (Str × Json) → Option (Json × Str)
  | 0, _, _, _ => none
  | f + 1, depth, l, acc =>
    match l with
    | [] => none
    | c :: r =>
      if c = dquote then
        (parseStringBody r).bind (fun pk =>
          membColon (parseValue f depth)
            (membComma (fun l2 a2 => parseMembers f depth l2 a2) acc pk.1)
            (skipWs pk.2))
      else none

/-- Parse the elements of an array from the first element (whitespace
skipped), through the closing bracket. -/
def parseElements : Nat → Nat → Str → List Json → Option (Json × Str)
  | 0, _, _, _ => none
  | f + 1, depth, l, acc =>
    (parseValue f depth l).bind (fun pr =>
      elemComma (fun l2 a2 => parseElements f depth l2 a2) acc pr.1 (skipWs pr.2))

end

/-- `serde_json::from_str::<Value>`: leading whitespace, one complete
value, trailing whitespace only.  The default recursion limit is
128. -/
def jsonFromStr (l : Str) : Option Json :=
  match parseValue (l.length + 1) 128 (skipWs l) with
  | some (v, rest) => if (skipWs rest).isEmpty then some v else none
  | none => none

/-! ## `Worker::extract_analysis_json` (`services/worker.rs`) -/

/-- The lowercase fence marker. -/
def markerLower : Str := "```json".toList

/-- The uppercase fence marker. -/
def markerUpper : Str := "```JSON".toList

/-- One iteration of the marker loop: if the marker occurs, slice from
after it to the closing fence (`\n\x60\x60\x60`, else `\x60\x60\x60`,
else the end), trim, and try to parse. -/
def tryMarker (trimmed marker : Str) : Option Json :=
  match findSub trimmed marker with
  | none => none
  | some start =>
    let afterStart := rustTrimStart (trimmed.drop (start + marker.length))
    let jsonStr :=
      match findSub afterStart ("\n```".toList) with
      | some e => rustTrim (afterStart.take e)
      | none =>
        match findSub afterStart ("```".toList) with
        | some e => rustTrim (afterStart.take e)
        | none => rustTrim afterStart
    jsonFromStr jsonStr

/-- The marker loop over `["```json", "```JSON"]`: a found-but-unparsable
occurrence falls through to the next marker. -/
def tryMarkers (trimmed : Str) : Option Json :=
  match tryMarker trimmed markerLower with
  | some v => some v
  | none => tryMarker trimmed markerUpper

/-- The state of the stage-3 scanner (source locals `depth`,
`in_string`, `escape`, `quote`). -/
structure ScanSt where
  depth : Int
  inString : Bool
  escape : Bool
  quote : Char
deriving DecidableEq, Repr

/-- The initial scanner state. -/
def initScan : ScanSt :=
  ⟨0, false, false, Char.ofNat 0⟩

/-- One non-breaking step of the stage-3 scanner, exactly the source's
loop body. -/
def scanStep (st : ScanSt) (c : Char) : ScanSt :=
  if st.escape then { st with escape := false }
  else if st.inString then
    if c = st.quote then { st with inString := false }
    else if c = bslash then { st with escape := true }
    else st
  else if c = dquote ∨ c = squote then { st with inString := true, quote := c }
  else if c = '{' then { st with depth := st.depth + 1 }
  else if c = '}' then { st with depth := st.depth - 1 }
  else st

/-- The stage-3 loop over `char_indices`: returns the final depth and
`end_byte` (`0` unless the loop broke at a closing brace that brought
the depth to zero, in which case the byte offset past that brace). -/
def braceScanLoop (st : ScanSt) : List (Nat × Char) → Int × Nat
  | [] => (st.depth, 0)
  | (i, c) :: rest =>
    if !st.escape ∧ !st.inString ∧ c = '}' ∧ st.depth - 1 = 0 then (0, i + utf8Len c)
    else braceScanLoop (scanStep st c) rest

/-- Stage 3: find the first `{`, brace-match forward respecting
string quoting and escapes, and parse the matched slice. -/
def braceFallback (trimmed : Str) : Option Json :=
  match findSub trimmed ("\x7b".toList) with
  | none => none
  | some k =>
    let rest := trimmed.drop k
    let scanned := braceScanLoop initScan (charIndicesFrom 0 rest)
    if scanned.1 = 0 ∧ 0 < scanned.2 then
      match takeBytes rest scanned.2 with
      | some jsonStr => jsonFromStr jsonStr
      | none => none
    else none

/-- `Worker::extract_analysis_json`: raw JSON, else a fenced
```` ```json ````/```` ```JSON ```` block, else the first brace-matched
`{...}`. -/
def extract_analysis_json (analysis : Str) : Option Json :=
  let trimmed := rustTrim analysis
  match jsonFromStr trimmed with
  | some v => some v
  | none =>
    match tryMarkers trimmed with
    | some v => some v
    | none => braceFallback trimmed

/-! ## Worker loop effects (`Worker::process_next_job`)

The worker's externally observable actions on the queue, ticket store
and report store, in program order.  Storage download and the analysis
call are the two fallible collaborators, given as `Except` inputs. -/

/-- One observable effect of a worker iteration. -/
inductive WorkerEffect where
  | failJob (id : Nat) (error : Str)
  | markTicketFailed (ticketId : Nat)
  | completeJob (id : Nat) (result : Str)
  | markAnalyzed (ticketId : Nat)
  | insertReport (row : ReportRow)
  | insertIssue (row : IssueRow)
deriving BEq, Repr

/-- Effects of `create_report_from_analysis`: nothing when extraction
fails (the worker only logs a warning), otherwise the report insert
followed by one insert per issue. -/
def create_report_effects (recordingId : Nat) (analysis : Str) : List WorkerEffect :=
  match extract_analysis_json analysis with
  | none => []
  | some parsed =>
    .insertReport (create_report_row recordingId analysis parsed) ::
      (create_issue_rows parsed).map .insertIssue

/-- Effects of one `process_next_job` iteration on an already dequeued
job: download failure fails job and ticket; analysis failure fails job
and ticket; success completes the job, marks the ticket analyzed, and
then attempts report creation. -/
def process_next_job_effects (job : AnalysisJob) (download : Except Str Unit)
    (analysis : Except Str Str) : List WorkerEffect :=
  match download with
  | .error e =>
    .failJob job.id (("Download failed: ".toList) ++ e) ::
      (match job.recordingId with
       | some rid => [.markTicketFailed rid]
       | none => [])
  | .ok _ =>
    match analysis with
    | .error e =>
      .failJob job.id (("Analysis failed: ".toList) ++ e) ::
        (match job.recordingId with
         | some rid => [.markTicketFailed rid]
         | none => [])
    | .ok result =>
      .completeJob job.id result ::
        (match job.recordingId with
         | some rid => .markAnalyzed rid :: create_report_effects rid result
         | none => [])

/-! ## Fence wrapping and the token view of parsed JSON text

For the fenced-extraction claim, successful parses are related to a
flat token decomposition of the consumed text: whitespace runs,
punctuation, number/keyword literals, and string tokens.  Everything
the fence analysis needs — backticks and quotes live only inside
string bodies, string bodies contain no control characters, braces
outside strings nest — is proved over this decomposition. -/

/-- Whether a JSON value is an object. -/
def Json.isObjJson : Json → Bool
  | .obj _ => true
  | _ => false

/-- The closing fence. -/
def fence3 : Str := "```".toList

/-- Wrap a text in a fenced code block under a given marker casing. -/
def fenceWrap (m s : Str) : Str :=
  m ++ '\n' :: (s ++ '\n' :: fence3)

/-- The 16 casings of the ```` ```json ```` marker. -/
def jsonMarkerCasings : List Str :=
  ["```json", "```jsoN", "```jsOn", "```jsON", "```jSon", "```jSoN", "```jSOn", "```jSON",
   "```Json", "```JsoN", "```JsOn", "```JsON", "```JSon", "```JSoN", "```JSOn",
   "```JSON"].map String.toList

/-- A flat token of JSON text. -/
inductive JTok where
  | ws (cs : Str)
  | punc (c : Char)
  | lit (cs : Str)
  | strTok (body : Str)
deriving Repr

/-- The characters of a token (string tokens include their quotes). -/
def JTok.chars : JTok → Str
  | .ws cs => cs
  | .punc c => [c]
  | .lit cs => cs
  | .strTok b => dquote :: b ++ [dquote]

/-- Flatten a token list to text. -/
def flatToks (ts : List JTok) : Str :=
  (ts.map JTok.chars).join

/-- JSON punctuation characters. -/
def puncChar (c : Char) : Bool :=
  c = '{' || c = '}' || c = '[' || c = ']' || c = ',' || c = ':'

/-- Characters of number and keyword literals. -/
def litChar (c : Char) : Bool :=
  c.isAlphanum || c = '-' || c = '+' || c = '.'

/-- Single-character escapes. -/
def escChar (c : Char) : Bool :=
  (escDecode c).isSome

/-- A plain (unescaped) string-body character: not the quote, not the
backslash, not a control character. -/
def plainStrChar (c : Char) : Bool :=
  !(c = dquote) && !(c = bslash) && 32 ≤ c.toNat

/-- Well-formed string bodies, as consumed by `parseStringBody`:
plain characters, single-character escapes, and hex escapes. -/
inductive BodyOK : Str → Prop where
  | nil : BodyOK []
  | plain (c : Char) (r : Str) : plainStrChar c = true → BodyOK r → BodyOK (c :: r)
  | esc (c : Char) (r : Str) : escChar c = true → BodyOK r → BodyOK (bslash :: c :: r)
  | escU (h1 h2 h3 h4 : Char) (r : Str) :
      hexDigit h1 = true → hexDigit h2 = true → hexDigit h3 = true → hexDigit h4 = true →
      BodyOK r → BodyOK (bslash :: 'u' :: h1 :: h2 :: h3 :: h4 :: r)

/-- Well-formed tokens. -/
inductive TokOK : JTok → Prop where
  | ws (cs : Str) : cs ≠ [] → (∀ c ∈ cs, jsonWsChar c = true) → TokOK (.ws cs)
  | punc (c : Char) : puncChar c = true → TokOK (.punc c)
  | lit (cs : Str) : cs ≠ [] → (∀ c ∈ cs, litChar c = true) → TokOK (.lit cs)
  | strTok (b : Str) : BodyOK b → TokOK (.strTok b)

/-- Every token of a list is well formed. -/
def TokListOK (ts : List JTok) : Prop :=
  ∀ t ∈ ts, TokOK t

/-- The whitespace tokens of a (possibly empty) whitespace run. -/
def wsToks (w : Str) : List JTok :=
  if w = [] then [] else [.ws w]

/-- A clean scanner state: outside strings, no pending escape. -/
def cleanSt (d : Int) (q : Char) : ScanSt :=
  ⟨d, false, false, q⟩

/-- Run the stage-3 scanner over a string (no break). -/
def scanAll (st : ScanSt) (l : Str) : ScanSt :=
  l.foldl scanStep st

/-- The minimum depth along a scan (initial state included). -/
def scanMin (st : ScanSt) : Str → Int
  | [] => st.depth
  | c :: r => min st.depth (scanMin (scanStep st c) r)

/-- Depth-neutral text: scanned from any clean state it returns to a
clean state at the same depth and never dips below it. -/
def Neutral (P : Str) : Prop :=
  ∀ d q, (∃ q', scanAll (cleanSt d q) P = cleanSt d q') ∧ d ≤ scanMin (cleanSt d q) P

/-- The token-decomposition facts of a consumed JSON value. -/
def ValOK (l : Str) (v : Json) (rest : Str) : Prop :=
  ∃ ts, l = flatToks ts ++ rest ∧ TokListOK ts ∧ flatToks ts ≠ [] ∧ Neutral (flatToks ts) ∧
    (v.isObjJson = true → ∃ I, flatToks ts = '{' :: I ++ ['}'] ∧ Neutral I)

/-- The token-decomposition facts of a consumed member list (through
the closing brace). -/
def MembOK (l rest : Str) : Prop :=
  ∃ ts Q, l = flatToks ts ++ rest ∧ TokListOK ts ∧ flatToks ts = Q ++ ['}'] ∧ Neutral Q

/-- The token-decomposition facts of a consumed element list (through
the closing bracket). -/
def ElemOK (l rest : Str) : Prop :=
  ∃ ts, l = flatToks ts ++ rest ∧ TokListOK ts ∧ Neutral (flatToks ts)

/-- Unescaped-quote counting: fold state is the parity of the current
trailing backslash run, the count is of quotes behind an even run. -/
def oqFold : Bool → Str → Nat × Bool
  | e, [] => (0, e)
  | e, c :: r =>
    if c = bslash then oqFold (!e) r
    else if c = dquote then
      let p := oqFold false r
      (if e then p.1 else p.1 + 1, p.2)
    else oqFold false r

/-- No fence start: the two-character sequence newline-backtick does
not occur. -/
def noFence (l : Str) : Prop :=
  ∀ X Y : Str, l ≠ X ++ '\n' :: btick :: Y

/-! ## Queue lemmas -/

namespace QueueService

/-- The fold step used by `selectOldestPending`. -/
def selStep (acc : Option AnalysisJob) (j : AnalysisJob) : Option AnalysisJob :=
  match acc with
  | none => some j
  | some b => if j.createdAt < b.createdAt then some j else some b

theorem selectOldestPending_eq_fold (jobs : List AnalysisJob) :
    selectOldestPending jobs = (pendingJobs jobs).foldl selStep none := rfl

theorem selStep_keep (l : List AnalysisJob) (b : AnalysisJob)
    (h : ∀ x ∈ l, ¬ x.createdAt < b.createdAt) :
    l.foldl selStep (some b) = some b := by
  induction l with
  | nil => rfl
  | cons x xs ih =>
    have hx : ¬ x.createdAt < b.createdAt := h x (List.mem_cons_self x xs)
    simp only [List.foldl_cons, selStep, hx, if_neg hx]
    exact ih (fun y hy => h y (List.mem_cons_of_mem x hy))

/-- When the Pending rows are `j :: P` with `j` strictly oldest, the
selection picks `j`. -/
theorem selectOldestPending_head (jobs : List AnalysisJob) (j : AnalysisJob)
    (P : List AnalysisJob) (hp : pendingJobs jobs = j :: P)
    (hlt : ∀ x ∈ P, ¬ x.createdAt < j.createdAt) :
    selectOldestPending jobs = some j := by
  rw [selectOldestPending_eq_fold, hp]
  simpa [selStep] using selStep_keep P j hlt

/-- With no Pending row, `dequeue` returns `None` and leaves the state
unchanged (not an error). -/
theorem dequeue_empty (s : QueueState) (h : pendingJobs s.jobs = []) :
    dequeue s = (none, s) := by
  have : selectOldestPending s.jobs = none := by
    rw [selectOldestPending_eq_fold, h]; rfl
  simp [dequeue, this]

theorem dequeueRuns_empty (s : QueueState) (h : pendingJobs s.jobs = []) :
    ∀ n, dequeueRuns s n = List.replicate n none := by
  intro n
  induction n with
  | zero => rfl
  | succ m ih =>
    simp only [dequeueRuns, dequeue_empty s h, List.replicate_succ]
    exact congrArg (none :: ·) ih

/-- Membership in `pendingJobs` characterized. -/
theorem mem_pendingJobs {jobs : List AnalysisJob} {r : AnalysisJob}
    (hr : r ∈ jobs) (hs : r.status = .pending) : r ∈ pendingJobs jobs := by
  refine List.mem_filter.mpr ⟨hr, ?_⟩
  simp [hs]

/-- After claiming the unique Pending row, no Pending row remains. -/
theorem pendingJobs_after_unique_claim (s : QueueState) (j : AnalysisJob)
    (hp : pendingJobs s.jobs = [j]) :
    pendingJobs ((dequeue s).2.jobs) = [] := by
  have hsel : selectOldestPending s.jobs = some j :=
    selectOldestPending_head s.jobs j [] hp (by intro x hx; cases hx)
  have hjobs : (dequeue s).2.jobs =
      s.jobs.map (fun r => if r.id = j.id then claimJob r s.now else r) := by
    simp [dequeue, hsel]
  rw [hjobs]
  rw [pendingJobs, List.filter_eq_nil_iff]
  intro a ha
  rcases List.mem_map.mp ha with ⟨r, hr, hupd⟩
  by_cases hid : r.id = j.id
  · subst hupd
    simp [hid, claimJob]
  · subst hupd
    simp only [hid, if_false]
    intro hpend
    have : r ∈ pendingJobs s.jobs := by
      refine mem_pendingJobs hr ?_
      simpa using hpend
    rw [hp] at this
    exact hid (by rw [List.mem_singleton.mp this])

/-- C1: a queue with exactly one Pending job gives that job (claimed to
Processing) to exactly one of any number of dequeue calls; since each
dequeue is one atomic SQL statement, an arbitrary concurrent schedule
of `n` calls is a sequence of `n` applications, and in every such
sequence exactly one call receives the (claimed) job and all others
receive `None` — no two claimants ever receive the same job. -/
theorem c1_single_pending_exactly_one_claim (s : QueueState) (j : AnalysisJob)
    (hp : pendingJobs s.jobs = [j]) :
    ∀ n, 1 ≤ n → (dequeueRuns s n).reduceOption = [claimJob j s.now] := by
  intro n hn
  obtain ⟨m, rfl⟩ : ∃ m, n = m + 1 := ⟨n - 1, by omega⟩
  have hsel : selectOldestPending s.jobs = some j :=
    selectOldestPending_head s.jobs j [] hp (by intro x hx; cases hx)
  have hfst : (dequeue s).1 = some (claimJob j s.now) := by simp [dequeue, hsel]
  have hnow : (dequeue s).2.now = s.now := by simp [dequeue, hsel]
  have hrest : dequeueRuns (dequeue s).2 m = List.replicate m none :=
    dequeueRuns_empty _ (pendingJobs_after_unique_claim s j hp) m
  show ((dequeue s).1 :: dequeueRuns (dequeue s).2 m).reduceOption = _
  rw [hfst, hrest]
  simp [List.reduceOption]

/-- Witness for C1 at a concrete one-Pending-job state and three
concurrent callers. -/
theorem c1_single_pending_exactly_one_claim_witness :
    pendingJobs sampleState.jobs = [sampleJob] ∧
      (dequeueRuns sampleState 3).reduceOption = [claimJob sampleJob 10] :=
  ⟨rfl, c1_single_pending_exactly_one_claim sampleState sampleJob rfl 3 (by decide)⟩

theorem dequeueRuns_add (s : QueueState) (n m : Nat) :
    dequeueRuns s (n + m) = dequeueRuns s n ++ dequeueRuns (dequeueState s n) m := by
  induction n generalizing s with
  | zero => simp [dequeueRuns, dequeueState]
  | succ k ih =>
    have : k + 1 + m = (k + m) + 1 := by omega
    rw [this]
    show (dequeue s).1 :: dequeueRuns (dequeue s).2 (k + m) = _
    rw [ih (dequeue s).2]
    rfl

theorem mkJobs_status (reqs : List CreateJobRequest) (idv t : Nat) :
    ∀ r ∈ mkJobs reqs idv t, r.status = .pending := by
  induction reqs generalizing idv t with
  | nil => intro r hr; cases hr
  | cons q rest ih =>
    intro r hr
    rcases List.mem_cons.mp hr with h | h
    · rw [h]; rfl
    · exact ih _ _ r h

theorem mkJobs_createdAt_ge (reqs : List CreateJobRequest) (idv t : Nat) :
    ∀ r ∈ mkJobs reqs idv t, t ≤ r.createdAt := by
  induction reqs generalizing idv t with
  | nil => intro r hr; cases hr
  | cons q rest ih =>
    intro r hr
    rcases List.mem_cons.mp hr with h | h
    · rw [h]; exact le_refl t
    · exact Nat.le_of_succ_le (ih (idv + 1) (t + 1) r h)

theorem mkJobs_id_ge (reqs : List CreateJobRequest) (idv t : Nat) :
    ∀ r ∈ mkJobs reqs idv t, idv ≤ r.id := by
  induction reqs generalizing idv t with
  | nil => intro r hr; cases hr
  | cons q rest ih =>
    intro r hr
    rcases List.mem_cons.mp hr with h | h
    · rw [h]; exact le_refl idv
    · exact Nat.le_of_succ_le (ih (idv + 1) (t + 1) r h)

theorem mkJobs_chain (reqs : List CreateJobRequest) (idv t : Nat) :
    (mkJobs reqs idv t).Pairwise (fun a b => a.createdAt < b.createdAt) := by
  induction reqs generalizing idv t with
  | nil => exact List.Pairwise.nil
  | cons q rest ih =>
    refine List.Pairwise.cons ?_ (ih (idv + 1) (t + 1))
    intro b hb
    have := mkJobs_createdAt_ge rest (idv + 1) (t + 1) b hb
    simp only [mkJob]
    omega

theorem mkJobs_ids (reqs : List CreateJobRequest) (idv t : Nat) :
    (mkJobs reqs idv t).Pairwise (fun a b => a.id ≠ b.id) := by
  induction reqs generalizing idv t with
  | nil => exact List.Pairwise.nil
  | cons q rest ih =>
    refine List.Pairwise.cons ?_ (ih (idv + 1) (t + 1))
    intro b hb
    have := mkJobs_id_ge rest (idv + 1) (t + 1) b hb
    simp only [mkJob]
    omega

theorem enqueueAll_state (reqs : List CreateJobRequest) (s : QueueState) :
    enqueueAll reqs s =
      ⟨s.jobs ++ mkJobs reqs s.nextId s.now, s.now + reqs.length, s.nextId + reqs.length⟩ := by
  induction reqs generalizing s with
  | nil => simp [enqueueAll, mkJobs]
  | cons q rest ih =>
    show enqueueAll rest _ = _
    rw [ih]
    simp [enqueue, mkJobs, List.length_cons]
    refine ⟨by omega, by omega⟩

/-- Sequentially dequeuing a queue whose rows are non-Pending rows
followed by Pending rows with strictly increasing `created_at` and
pairwise distinct ids returns the Pending rows in order, claimed, and
ends in a fully claimed state. -/
theorem dequeueRuns_fifo (pend : List AnalysisJob) :
    ∀ (proc : List AnalysisJob) (now nid : Nat),
      (∀ r ∈ proc, r.status ≠ .pending) →
      (∀ r ∈ pend, r.status = .pending) →
      pend.Pairwise (fun a b => a.createdAt < b.createdAt) →
      ((proc ++ pend).Pairwise (fun a b => a.id ≠ b.id)) →
      dequeueRuns ⟨proc ++ pend, now, nid⟩ pend.length =
          pend.map (fun j => some (claimJob j now)) ∧
        dequeueState ⟨proc ++ pend, now, nid⟩ pend.length =
          ⟨proc ++ pend.map (fun j => claimJob j now), now, nid⟩ := by
  induction pend with
  | nil =>
    intro proc now nid _ _ _ _
    constructor
    · rfl
    · simp [dequeueState]
  | cons j P ih =>
    intro proc now nid hproc hpend hchain hids
    have hpendjobs : pendingJobs (proc ++ j :: P) = j :: P := by
      rw [pendingJobs, List.filter_append]
      have h1 : (proc.filter fun r => r.status == JobStatus.pending) = [] := by
        rw [List.filter_eq_nil_iff]
        intro a ha
        simpa using hproc a ha
      have h2 : ((j :: P).filter fun r => r.status == JobStatus.pending) = j :: P := by
        rw [List.filter_eq_self]
        intro a ha
        simpa using hpend a ha
      rw [h1, h2, List.nil_append]
    have hlt : ∀ x ∈ P, ¬ x.createdAt < j.createdAt := by
      intro x hx
      have := (List.pairwise_cons.mp hchain).1 x hx
      omega
    have hsel : selectOldestPending (proc ++ j :: P) = some j :=
      selectOldestPending_head _ j P hpendjobs hlt
    have hidsplit := List.pairwise_append.mp hids
    have hjid_proc : ∀ a ∈ proc, a.id ≠ j.id :=
      fun a ha => hidsplit.2.2 a ha j (List.mem_cons_self j P)
    have hjid_P : ∀ a ∈ P, j.id ≠ a.id :=
      fun a ha => (List.pairwise_cons.mp hidsplit.2.1).1 a ha
    have hmap : (proc ++ j :: P).map
        (fun r => if r.id = j.id then claimJob r now else r) =
        proc ++ claimJob j now :: P := by
      rw [List.map_append, List.map_cons]
      congr 1
      · have hcongr : proc.map (fun r => if r.id = j.id then claimJob r now else r) =
            proc.map (fun r => r) :=
          List.map_congr_left (fun a ha => by simp [hjid_proc a ha])
        rw [hcongr, List.map_id']
      · congr 1
        · simp
        · have hcongr : P.map (fun r => if r.id = j.id then claimJob r now else r) =
              P.map (fun r => r) := by
            refine List.map_congr_left ?_
            intro a ha
            have hne : a.id ≠ j.id := fun h => hjid_P a ha h.symm
            simp [hne]
          rw [hcongr, List.map_id']
    have hdq : dequeue ⟨proc ++ j :: P, now, nid⟩ =
        (some (claimJob j now), ⟨proc ++ claimJob j now :: P, now, nid⟩) := by
      simp only [dequeue, hsel, hmap]
    have hstep : proc ++ claimJob j now :: P = (proc ++ [claimJob j now]) ++ P := by
      simp
    have hproc' : ∀ r ∈ proc ++ [claimJob j now], r.status ≠ .pending := by
      intro r hr
      rcases List.mem_append.mp hr with h | h
      · exact hproc r h
      · rw [List.mem_singleton.mp h]; simp [claimJob]
    have hids' : (((proc ++ [claimJob j now]) ++ P)).Pairwise (fun a b => a.id ≠ b.id) := by
      have hperm : proc ++ claimJob j now :: P =
          (proc ++ [claimJob j now]) ++ P := hstep
      rw [← hperm]
      have base : (proc ++ j :: P).Pairwise (fun a b => a.id ≠ b.id) := hids
      have : proc ++ claimJob j now :: P =
          (proc ++ j :: P).map (fun r => if r.id = j.id then claimJob r now else r) := hmap.symm
      rw [this]
      rw [List.pairwise_map]
      refine base.imp ?_
      intro a b hab
      have hfa : ∀ r : AnalysisJob, (if r.id = j.id then claimJob r now else r).id = r.id := by
        intro r
        by_cases h : r.id = j.id <;> simp [h, claimJob]
      show (if a.id = j.id then claimJob a now else a).id ≠
        (if b.id = j.id then claimJob b now else b).id
      rw [hfa a, hfa b]
      exact hab
    obtain ⟨ihr, ihs⟩ := ih (proc ++ [claimJob j now]) now nid hproc'
      (fun r hr => hpend r (List.mem_cons_of_mem j hr)) (List.pairwise_cons.mp hchain).2 hids'
    constructor
    · show (dequeue _).1 :: dequeueRuns (dequeue _).2 P.length = _
      rw [hdq]
      simp only [List.map_cons]
      congr 1
      rw [hstep]
      exact ihr
    · show dequeueState (dequeue _).2 P.length = _
      rw [hdq]
      simp only
      rw [hstep]
      rw [ihs]
      simp

/-- C2: enqueueing `N` jobs without contention and then dequeuing one
at a time returns the jobs in creation order (strict oldest-first FIFO),
each claimed to Processing, and the extra dequeue after the queue is
drained returns `None` rather than an error. -/
theorem c2_fifo_order (reqs : List CreateJobRequest) (now0 id0 : Nat) :
    dequeueRuns (enqueueAll reqs ⟨[], now0, id0⟩) (reqs.length + 1) =
      (mkJobs reqs id0 now0).map (fun j => some (claimJob j (now0 + reqs.length))) ++ [none] := by
  have hs : enqueueAll reqs ⟨[], now0, id0⟩ =
      ⟨[] ++ mkJobs reqs id0 now0, now0 + reqs.length, id0 + reqs.length⟩ :=
    enqueueAll_state reqs ⟨[], now0, id0⟩
  have hlen : (mkJobs reqs id0 now0).length = reqs.length := by
    clear hs
    induction reqs generalizing id0 now0 with
    | nil => rfl
    | cons q rest ih => simp [mkJobs, ih]
  obtain ⟨hruns, hstate⟩ := dequeueRuns_fifo (mkJobs reqs id0 now0) [] (now0 + reqs.length)
    (id0 + reqs.length) (by intro r hr; cases hr)
    (mkJobs_status reqs id0 now0)
    (mkJobs_chain reqs id0 now0)
    (by simpa using mkJobs_ids reqs id0 now0)
  rw [hs]
  have hsplit := dequeueRuns_add
    ⟨[] ++ mkJobs reqs id0 now0, now0 + reqs.length, id0 + reqs.length⟩
    (mkJobs reqs id0 now0).length 1
  have h1 : reqs.length + 1 = (mkJobs reqs id0 now0).length + 1 := by rw [hlen]
  rw [h1, hsplit, hruns, hstate]
  congr 1
  have hempty : pendingJobs
      (QueueState.mk ([] ++ (mkJobs reqs id0 now0).map
        (fun j => claimJob j (now0 + reqs.length))) (now0 + reqs.length)
        (id0 + reqs.length)).jobs = [] := by
    rw [pendingJobs, List.filter_eq_nil_iff]
    intro a ha
    simp only [List.nil_append] at ha
    rcases List.mem_map.mp ha with ⟨r, _, hr⟩
    rw [← hr]
    simp [claimJob]
  rw [dequeueRuns_empty _ hempty 1]
  rfl

theorem foldl_selStep_mem (l : List AnalysisJob) :
    ∀ (acc : Option AnalysisJob) (j : AnalysisJob),
      l.foldl selStep acc = some j → acc = some j ∨ j ∈ l := by
  induction l with
  | nil => exact fun acc j h => Or.inl h
  | cons x xs ih =>
    intro acc j h
    rcases ih (selStep acc x) j h with hacc | hxs
    · cases acc with
      | none =>
        have hx : x = j := Option.some_inj.mp hacc
        exact Or.inr (by rw [← hx]; exact List.mem_cons_self x xs)
      | some b =>
        by_cases hlt : x.createdAt < b.createdAt
        · have hx : x = j := Option.some_inj.mp (by simpa [selStep, hlt] using hacc)
          exact Or.inr (by rw [← hx]; exact List.mem_cons_self x xs)
        · exact Or.inl (by simpa [selStep, hlt] using hacc)
    · exact Or.inr (List.mem_cons_of_mem x hxs)

/-- The selected row is one of the Pending rows. -/
theorem selectOldestPending_mem {jobs : List AnalysisJob} {j : AnalysisJob}
    (h : selectOldestPending jobs = some j) : j ∈ pendingJobs jobs := by
  rw [selectOldestPending_eq_fold] at h
  rcases foldl_selStep_mem (pendingJobs jobs) none j h with h' | h'
  · cases h'
  · exact h'

/-- C3 counterexample: `fail_job` updates unconditionally by id, so on
a queue whose only job is Completed it moves that job to Failed —
refuting, at this concrete state, that no queue operation moves a
Completed job to another status. -/
theorem c3_counterexample_fail_moves_completed :
    (fail_job 0 ("boom".toList) sampleCompletedState).jobs.map (fun r => r.status) =
        [JobStatus.failed] ∧
      JobStatus.failed ≠ JobStatus.completed ∧
      sampleCompletedState.jobs.map (fun r => r.status) = [JobStatus.completed] :=
  ⟨rfl, by decide, rfl⟩

/-- C3 (amended): `enqueue` leaves existing rows untouched, `dequeue`
moves a row only Pending → Processing, `retry_job` moves a row only
Failed → Pending, and `complete_job`/`fail_job` — which update
unconditionally by id — move a row forward provided the targeted row
is currently Processing (the worker's calling discipline); without
that proviso `fail_job` can move a Completed row to Failed. -/
theorem c3_amended_forward_transitions (s : QueueState) (jobId : Nat) (res err : Str)
    (req : CreateJobRequest) (i : Nat)
    (hnodup : (s.jobs.map (fun r => r.id)).Nodup) :
    (∀ r r', s.jobs.get? i = some r → (enqueue req s).2.jobs.get? i = some r' → r' = r) ∧
    (∀ r r', s.jobs.get? i = some r → (dequeue s).2.jobs.get? i = some r' →
      ForwardStep r.status r'.status) ∧
    (∀ r r', s.jobs.get? i = some r → (complete_job jobId res s).jobs.get? i = some r' →
      (r.id = jobId → r.status = .processing) → ForwardStep r.status r'.status) ∧
    (∀ r r', s.jobs.get? i = some r → (fail_job jobId err s).jobs.get? i = some r' →
      (r.id = jobId → r.status = .processing) → ForwardStep r.status r'.status) ∧
    (∀ r r', s.jobs.get? i = some r → (retry_job jobId s).jobs.get? i = some r' →
      RetryStep r.status r'.status) := by
  refine ⟨?_, ?_, ?_, ?_, ?_⟩
  · intro r r' hr hr'
    have hlen : i < s.jobs.length := (List.get?_eq_some.mp hr).1
    have : (enqueue req s).2.jobs.get? i = s.jobs.get? i := by
      show (s.jobs ++ [mkJob req s.nextId s.now]).get? i = s.jobs.get? i
      exact List.get?_append hlen
    rw [this, hr] at hr'
    exact (Option.some_inj.mp hr').symm
  · intro r r' hr hr'
    cases hsel : selectOldestPending s.jobs with
    | none =>
      simp only [dequeue, hsel] at hr'
      rw [hr] at hr'
      exact Option.some_inj.mp hr' ▸ Or.inl rfl
    | some j =>
      have hjmem := selectOldestPending_mem hsel
      have hjin : j ∈ s.jobs := (List.mem_filter.mp hjmem).1
      have hjpend : j.status = .pending := by
        have := (List.mem_filter.mp hjmem).2
        simpa using this
      simp only [dequeue, hsel] at hr'
      rw [List.get?_map, hr] at hr'
      simp only [Option.map_some'] at hr'
      have hr'' : r' = if r.id = j.id then claimJob r s.now else r :=
        (Option.some_inj.mp hr').symm
      by_cases hid : r.id = j.id
      · have hrin : r ∈ s.jobs := List.get?_mem hr
        have : r = j := List.inj_on_of_nodup_map hnodup hrin hjin hid
        rw [hr'', if_pos hid]
        right; left
        exact ⟨this ▸ hjpend, rfl⟩
      · rw [hr'', if_neg hid]
        exact Or.inl rfl
  · intro r r' hr hr' hproc
    simp only [complete_job] at hr'
    rw [List.get?_map, hr] at hr'
    simp only [Option.map_some'] at hr'
    have hr'' : r' = if r.id = jobId then { r with status := .completed, analysisResult := some res, completedAt := some s.now } else r :=
      (Option.some_inj.mp hr').symm
    by_cases hid : r.id = jobId
    · rw [hr'', if_pos hid]
      right; right
      exact ⟨hproc hid, Or.inl rfl⟩
    · rw [hr'', if_neg hid]
      exact Or.inl rfl
  · intro r r' hr hr' hproc
    simp only [fail_job] at hr'
    rw [List.get?_map, hr] at hr'
    simp only [Option.map_some'] at hr'
    have hr'' : r' = if r.id = jobId then { r with status := .failed, errorMessage := some err, completedAt := some s.now, retryCount := r.retryCount + 1 } else r :=
      (Option.some_inj.mp hr').symm
    by_cases hid : r.id = jobId
    · rw [hr'', if_pos hid]
      right; right
      exact ⟨hproc hid, Or.inr rfl⟩
    · rw [hr'', if_neg hid]
      exact Or.inl rfl
  · intro r r' hr hr'
    simp only [retry_job] at hr'
    rw [List.get?_map, hr] at hr'
    simp only [Option.map_some'] at hr'
    have hr'' : r' = if r.id = jobId ∧ r.status = .failed then { r with status := .pending, errorMessage := none, startedAt := none } else r :=
      (Option.some_inj.mp hr').symm
    by_cases hc : r.id = jobId ∧ r.status = .failed
    · rw [hr'', if_pos hc]
      exact Or.inr ⟨hc.2, rfl⟩
    · rw [hr'', if_neg hc]
      exact Or.inl rfl

/-- Witness for the amended C3 at a one-Processing-job state:
`complete_job` moves Processing forward to Completed. -/
theorem c3_amended_forward_transitions_witness :
    ForwardStep JobStatus.processing JobStatus.completed :=
  (c3_amended_forward_transitions sampleProcessingState 0 ("ok".toList) ("e".toList)
      ⟨[], 0, none, none, none⟩ 0 (by decide)).2.2.1
    { sampleJob with status := .processing }
    { sampleJob with status := .completed, analysisResult := some ("ok".toList), completedAt := some 10 }
    rfl rfl (fun _ => rfl)

/-- C4: `fail(id, error)` then `retry(id)` leaves the job Pending with
its error text cleared, its started-at cleared, and its retry count
exactly one greater than before the failure (the completed-at stamp of
the failure remains); `retry` on a job not currently Failed changes
nothing. -/
theorem c4_fail_then_retry (s : QueueState) (j : AnalysisJob) (err : Str) (i : Nat)
    (hnodup : (s.jobs.map (fun r => r.id)).Nodup)
    (hi : s.jobs.get? i = some j) :
    (retry_job j.id (fail_job j.id err s)).jobs.get? i =
        some { j with status := .pending, errorMessage := none, startedAt := none, completedAt := some s.now, retryCount := j.retryCount + 1 } ∧
      (j.status ≠ .failed → retry_job j.id s = s) := by
  constructor
  · have h1 : (fail_job j.id err s).jobs.get? i =
        some { j with status := .failed, errorMessage := some err, completedAt := some s.now, retryCount := j.retryCount + 1 } := by
      simp only [fail_job]
      rw [List.get?_map, hi]
      simp
    have hnow : (fail_job j.id err s).now = s.now := rfl
    simp only [retry_job]
    rw [List.get?_map, h1]
    simp
  · intro hne
    have hjin : j ∈ s.jobs := List.get?_mem hi
    have hmap : s.jobs.map (fun r =>
        if r.id = j.id ∧ r.status = .failed then
          { r with status := .pending, errorMessage := none, startedAt := none }
        else r) = s.jobs.map (fun r => r) := by
      refine List.map_congr_left ?_
      intro a ha
      have hc : ¬ (a.id = j.id ∧ a.status = .failed) := by
        rintro ⟨hid, hfail⟩
        have : a = j := List.inj_on_of_nodup_map hnodup ha hjin hid
        exact hne (this ▸ hfail)
      simp [hc]
    show QueueState.mk _ s.now s.nextId = s
    rw [hmap, List.map_id']

/-- Witness for C4 at a concrete one-Pending-job queue. -/
theorem c4_fail_then_retry_witness :
    (retry_job 0 (fail_job 0 ("oops".toList) sampleState)).jobs.get? 0 =
        some { sampleJob with status := .pending, errorMessage := none, startedAt := none, completedAt := some 10, retryCount := 1 } ∧
      (sampleJob.status ≠ .failed → retry_job 0 sampleState = sampleState) :=
  c4_fail_then_retry sampleState sampleJob ("oops".toList) 0 (by decide) rfl

end QueueService

/-! ## Report extraction / normalization claims -/

/-- C7: the read-time normalizers map a JSON array to its string
elements (non-string elements filtered out) and a bare string `s` to
`[s]`; a bare-string evidence value becomes one synthetic
`observation` evidence item carrying the string; a bare-string
`question_analysis` value becomes one entry with empty question and
the string as the answer.  The last conjunct is the end-to-end
round-trip of the spec: the issue row extracted from
`{"outcome":"success","issues":[{"tags":"ux"}]}` has its bare-string
`tags` normalized to `["ux"]`. -/
theorem c7_read_time_normalizers :
    (∀ xs : List Json, string_array_from_value (.arr xs) = xs.filterMap Json.asStr) ∧
    (∀ s : Str, string_array_from_value (.str s) = [s]) ∧
    (∀ s : Str, evidence_from_value (.str s) = [⟨"observation".toList, s, none⟩]) ∧
    (∀ s : Str, question_analysis_from_value (.str s) = [⟨[], s, [], 0, none⟩]) ∧
    (extract_analysis_json ("\x7b\"outcome\":\"success\",\"issues\":[\x7b\"tags\":\"ux\"\x7d]\x7d".toList)).map
        (fun parsed => (create_issue_rows parsed).map
          (fun row => string_array_from_value row.tags)) =
      some [[("ux".toList)]] :=
  ⟨fun _ => rfl, fun _ => rfl, fun _ => rfl, fun _ => rfl, by rfl⟩

/-- C8 counterexample: report creation from `{}` binds NULL (`none`),
not `0`, for the missing numeric fields and NULL for the missing
`outcome` — refuting that creation defaults missing numerics to 0 and
missing enums to an explicit value. -/
theorem c8_counterexample_creation_binds_null :
    (create_report_row 1 ("{}".toList) (Json.obj [])).confidence = none ∧
      (create_report_row 1 ("{}".toList) (Json.obj [])).taskCompletionRate = none ∧
      (create_report_row 1 ("{}".toList) (Json.obj [])).outcome = none ∧
      (none : Option Int) ≠ some 0 :=
  ⟨rfl, rfl, rfl, by decide⟩

/-- C8 (amended): creation never crashes but stores NULL for missing
numeric fields and for a missing `outcome`; an issue's missing
`severity` defaults to `"medium"` and missing `title` to
`"Unknown Issue"` at creation; the read path (`build_report_response`)
is where missing numerics become `0` and a missing outcome becomes
`Partial`. -/
theorem c8_amended_defaults (parsed : Json) (analysis : Str) (rid : Nat)
    (issue : Json) (report : Report) :
    (parsed.get ("confidence".toList) = none →
      (create_report_row rid analysis parsed).confidence = none) ∧
    (metricsField parsed ("task_completion_rate".toList) = none →
      (create_report_row rid analysis parsed).taskCompletionRate = none) ∧
    (metricsField parsed ("total_hesitation_time".toList) = none →
      (create_report_row rid analysis parsed).totalHesitationTime = none) ∧
    (metricsField parsed ("retries_count".toList) = none →
      (create_report_row rid analysis parsed).retriesCount = none) ∧
    (parsed.get ("outcome".toList) = none →
      (create_report_row rid analysis parsed).outcome = none) ∧
    (issue.get ("severity".toList) = none →
      (create_issue_row issue).severity = ("medium".toList)) ∧
    (issue.get ("title".toList) = none →
      (create_issue_row issue).title = ("Unknown Issue".toList)) ∧
    (report.confidence = none →
      (build_report_response report []).executiveSummary.confidence = 0) ∧
    (report.taskCompletionRate = none →
      (build_report_response report []).metrics.taskCompletionRate = 0) ∧
    (report.totalHesitationTime = none →
      (build_report_response report []).metrics.totalHesitationTime = 0) ∧
    (report.retriesCount = none →
      (build_report_response report []).metrics.retriesCount = 0) ∧
    (report.outcome = none →
      (build_report_response report []).executiveSummary.outcome = .partialOutcome) := by
  refine ⟨?_, ?_, ?_, ?_, ?_, ?_, ?_, ?_, ?_, ?_, ?_, ?_⟩ <;> intro h
  · simp only [create_report_row]
    rw [h]
    rfl
  · simp only [create_report_row]
    rw [h]
    rfl
  · simp only [create_report_row]
    rw [h]
    rfl
  · simp only [create_report_row]
    rw [h]
    rfl
  · simp only [create_report_row]
    rw [h]
    rfl
  · simp only [create_issue_row]
    rw [h]
    rfl
  · simp only [create_issue_row]
    rw [h]
    rfl
  · simp [build_report_response, h]
  · simp [build_report_response, h]
  · simp [build_report_response, h]
  · simp [build_report_response, h]
  · simp [build_report_response, h]

/-- Witness for the amended C8 at `{}` and an all-NULL report row. -/
theorem c8_amended_defaults_witness :
    (create_report_row 1 ("{}".toList) (Json.obj [])).confidence = none ∧
      (create_issue_row (Json.obj [])).severity = ("medium".toList) ∧
      (build_report_response emptyReport []).executiveSummary.confidence = 0 ∧
      (build_report_response emptyReport []).executiveSummary.outcome = .partialOutcome :=
  ⟨(c8_amended_defaults (Json.obj []) ("{}".toList) 1 (Json.obj []) emptyReport).1 rfl,
    (c8_amended_defaults (Json.obj []) ("{}".toList) 1 (Json.obj []) emptyReport).2.2.2.2.2.1 rfl,
    (c8_amended_defaults (Json.obj []) ("{}".toList) 1 (Json.obj []) emptyReport).2.2.2.2.2.2.2.1 rfl,
    (c8_amended_defaults (Json.obj []) ("{}".toList) 1 (Json.obj [])
        emptyReport).2.2.2.2.2.2.2.2.2.2.2 rfl⟩

/-! ## Analysis client claim -/

/-- C9: an analyze input whose payload exceeds the fixed 20 MB ceiling
fails with the size-exceeded error before any outbound request is made
(the emitted request list is empty), for both `analyze` and
`analyze_bytes`. -/
theorem c9_oversize_fails_before_network (bytes : List Nat) (ext : Option Str)
    (resp : HttpResp) (prompt mime : Str) (h : maxSizeBytes < bytes.length) :
    analyze (.ok bytes) ext resp prompt = (.error ("Video too large".toList), []) ∧
      analyze_bytes bytes mime resp prompt = (.error ("Video too large".toList), []) := by
  constructor
  · simp [analyze, h]
  · simp [analyze_bytes, h]

/-- Witness for C9 with a 21 MB payload. -/
theorem c9_oversize_fails_before_network_witness :
    maxSizeBytes < (List.replicate (21 * 1024 * 1024) (0 : Nat)).length ∧
      analyze (.ok (List.replicate (21 * 1024 * 1024) (0 : Nat))) none
          ⟨true, [], none⟩ ("p".toList) =
        (.error ("Video too large".toList), []) :=
  ⟨by norm_num [maxSizeBytes],
    (c9_oversize_fails_before_network (List.replicate (21 * 1024 * 1024) (0 : Nat)) none
      ⟨true, [], none⟩ ("p".toList) ("m".toList) (by norm_num [maxSizeBytes])).1⟩

/-! ## Worker loop claim -/

/-- C5: when extraction fails on the analysis text, the iteration's
effects are exactly completing the job (not failing it) followed by
marking the ticket Analyzed — no report row is created and the failure
is only logged; and for every analysis text, completing the job and
marking the ticket Analyzed precede every report-extraction effect, so
the ticket is Analyzed before extraction is attempted. -/
theorem c5_extraction_failure_job_completed (job : AnalysisJob) (rid : Nat) (result : Str)
    (hrid : job.recordingId = some rid)
    (hext : extract_analysis_json result = none) :
    process_next_job_effects job (.ok ()) (.ok result) =
        [.completeJob job.id result, .markAnalyzed rid] ∧
      (∀ result' : Str, process_next_job_effects job (.ok ()) (.ok result') =
        .completeJob job.id result' :: .markAnalyzed rid :: create_report_effects rid result') := by
  constructor
  · simp [process_next_job_effects, hrid, create_report_effects, hext]
  · intro result'
    simp [process_next_job_effects, hrid]

/-- Witness for C5: a job referencing ticket 7 whose analysis came
back as prose that is not JSON. -/
theorem c5_extraction_failure_job_completed_witness :
    QueueService.sampleJob.recordingId = some 7 ∧
      extract_analysis_json ("The video could not be analyzed.".toList) = none ∧
      process_next_job_effects QueueService.sampleJob (.ok ())
          (.ok ("The video could not be analyzed.".toList)) =
        [.completeJob 0 ("The video could not be analyzed.".toList), .markAnalyzed 7] :=
  ⟨rfl, rfl,
    (c5_extraction_failure_job_completed QueueService.sampleJob 7
      ("The video could not be analyzed.".toList) rfl rfl).1⟩

/-! ## Extractor safety claim -/

theorem utf8Len_pos (c : Char) : 1 ≤ utf8Len c := by
  simp only [utf8Len]
  split_ifs <;> omega

theorem byteLen_cons (c : Char) (l : Str) : byteLen (c :: l) = utf8Len c + byteLen l := by
  simp [byteLen]

theorem byteLen_take_le (l : Str) (k : Nat) : byteLen (l.take k) ≤ byteLen l := by
  conv_rhs => rw [← List.take_append_drop k l]
  simp only [byteLen, List.map_append, List.sum_append]
  exact Nat.le_add_right _ _

/-- The `end_byte` produced by the stage-3 scanner is `0` or the
encoded length of a nonempty char prefix of the scanned slice. -/
theorem braceScanLoop_endByte (l : Str) :
    ∀ (st : ScanSt) (base : Nat),
      (braceScanLoop st (charIndicesFrom base l)).2 = 0 ∨
        ∃ k, k < l.length ∧
          (braceScanLoop st (charIndicesFrom base l)).2 = base + byteLen (l.take (k + 1)) := by
  induction l with
  | nil =>
    intro st base
    left
    rfl
  | cons c r ih =>
    intro st base
    show (braceScanLoop st ((base, c) :: charIndicesFrom (base + utf8Len c) r)).2 = 0 ∨ _
    by_cases hbr : (!st.escape ∧ !st.inString ∧ c = '}' ∧ st.depth - 1 = 0)
    · right
      refine ⟨0, by simp, ?_⟩
      show (if (!st.escape ∧ !st.inString ∧ c = '}' ∧ st.depth - 1 = 0) then (0, base + utf8Len c) else braceScanLoop (scanStep st c) (charIndicesFrom (base + utf8Len c) r)).2 = base + byteLen ((c :: r).take (0 + 1))
      rw [if_pos hbr]
      simp [byteLen]
    · have hstep : braceScanLoop st ((base, c) :: charIndicesFrom (base + utf8Len c) r) =
          braceScanLoop (scanStep st c) (charIndicesFrom (base + utf8Len c) r) := by
        show (if (!st.escape ∧ !st.inString ∧ c = '}' ∧ st.depth - 1 = 0) then (0, base + utf8Len c) else braceScanLoop (scanStep st c) (charIndicesFrom (base + utf8Len c) r)) = _
        rw [if_neg hbr]
      rcases ih (scanStep st c) (base + utf8Len c) with h0 | ⟨k, hk, he⟩
      · left
        show (braceScanLoop st ((base, c) :: charIndicesFrom (base + utf8Len c) r)).2 = 0
        rw [hstep]
        exact h0
      · right
        refine ⟨k + 1, by simpa using Nat.succ_lt_succ hk, ?_⟩
        show (braceScanLoop st ((base, c) :: charIndicesFrom (base + utf8Len c) r)).2 = base + byteLen ((c :: r).take (k + 1 + 1))
        rw [hstep, he, List.take_succ_cons, byteLen_cons]
        omega

/-- `str::get(..n)` succeeds at the encoded length of any char
prefix. -/
theorem takeBytes_boundary (l : Str) :
    ∀ k, takeBytes l (byteLen (l.take k)) = some (l.take k) := by
  induction l with
  | nil =>
    intro k
    simp [byteLen, takeBytes]
  | cons c r ih =>
    intro k
    cases k with
    | zero => simp [byteLen, takeBytes]
    | succ k =>
      rw [List.take_succ_cons, byteLen_cons]
      have hpos := utf8Len_pos c
      obtain ⟨m, hm⟩ : ∃ m, utf8Len c + byteLen (r.take k) = m + 1 :=
        ⟨utf8Len c + byteLen (r.take k) - 1, by omega⟩
      rw [hm]
      show (if utf8Len c ≤ m + 1 then (takeBytes r (m + 1 - utf8Len c)).map (c :: ·) else none) =
        some (c :: r.take k)
      have hle : utf8Len c ≤ m + 1 := by omega
      rw [if_pos hle]
      have : m + 1 - utf8Len c = byteLen (r.take k) := by omega
      rw [this, ih k]
      rfl

/-- C10: `extract_analysis_json` is total — it returns `none` or a
parsed value for every input — and the brace-matching scan is bounded
by the input length and only produces byte offsets on character
boundaries, so the slice `rest.get(..end_byte)` it takes always
succeeds. -/
theorem c10_extract_total_scan_bounded (s rest : Str) :
    (extract_analysis_json s = none ∨ ∃ v, extract_analysis_json s = some v) ∧
      (braceScanLoop initScan (charIndicesFrom 0 rest)).2 ≤ byteLen rest ∧
      (∃ k, byteLen (rest.take k) = (braceScanLoop initScan (charIndicesFrom 0 rest)).2) ∧
      (takeBytes rest (braceScanLoop initScan (charIndicesFrom 0 rest)).2).isSome := by
  refine ⟨?_, ?_⟩
  · cases h : extract_analysis_json s with
    | none => exact Or.inl rfl
    | some v => exact Or.inr ⟨v, rfl⟩
  · rcases braceScanLoop_endByte rest initScan 0 with h0 | ⟨k, _, he⟩
    · refine ⟨by rw [h0]; exact Nat.zero_le _, ⟨0, by rw [h0]; simp [byteLen]⟩, ?_⟩
      rw [h0]
      cases rest <;> rfl
    · have hb : (braceScanLoop initScan (charIndicesFrom 0 rest)).2 =
          byteLen (rest.take (k + 1)) := by
        rw [he]
        omega
      refine ⟨?_, ⟨k + 1, hb.symm⟩, ?_⟩
      · rw [hb]
        exact byteLen_take_le rest (k + 1)
      · rw [hb, takeBytes_boundary rest (k + 1)]
        rfl

/-! ## Scanner neutrality lemmas -/

theorem scanAll_nil (st : ScanSt) : scanAll st [] = st := rfl

theorem scanAll_cons (st : ScanSt) (c : Char) (l : Str) :
    scanAll st (c :: l) = scanAll (scanStep st c) l := rfl

theorem scanAll_append (st : ScanSt) (A B : Str) :
    scanAll st (A ++ B) = scanAll (scanAll st A) B := by
  simp [scanAll, List.foldl_append]

theorem scanMin_le_depth (st : ScanSt) (l : Str) : scanMin st l ≤ st.depth := by
  cases l with
  | nil => exact le_refl _
  | cons c r => exact min_le_left _ _

theorem scanMin_append (st : ScanSt) (A B : Str) :
    scanMin st (A ++ B) = min (scanMin st A) (scanMin (scanAll st A) B) := by
  induction A generalizing st with
  | nil =>
    simp only [List.nil_append, scanMin, scanAll_nil]
    exact (min_eq_right (scanMin_le_depth st B)).symm
  | cons c A' ih =>
    show min st.depth (scanMin (scanStep st c) (A' ++ B)) = _
    rw [ih (scanStep st c)]
    show _ = min (min st.depth (scanMin (scanStep st c) A')) (scanMin (scanAll (scanStep st c) A') B)
    omega

/-- A character that the scanner ignores in a clean state. -/
theorem scanStep_clean_id (d : Int) (q c : Char) (h1 : c ≠ dquote) (h2 : c ≠ squote)
    (h3 : c ≠ '{') (h4 : c ≠ '}') : scanStep (cleanSt d q) c = cleanSt d q := by
  simp [scanStep, cleanSt, h1, h2, h3, h4]

theorem scanStep_clean_open (d : Int) (q : Char) :
    scanStep (cleanSt d q) '{' = cleanSt (d + 1) q := by
  have h1 : ¬((('{' : Char) = dquote) ∨ (('{' : Char) = squote)) := by decide
  simp [scanStep, cleanSt, h1]

theorem scanStep_clean_close (d : Int) (q : Char) :
    scanStep (cleanSt d q) '}' = cleanSt (d - 1) q := by
  have h1 : ¬((('}' : Char) = dquote) ∨ (('}' : Char) = squote)) := by decide
  have h2 : ¬(('}' : Char) = '{') := by decide
  simp [scanStep, cleanSt, h1, h2]

theorem scanStep_clean_quote (d : Int) (q : Char) :
    scanStep (cleanSt d q) dquote = ⟨d, true, false, dquote⟩ := by
  have h1 : ((dquote = dquote) ∨ (dquote = squote)) := Or.inl rfl
  simp [scanStep, cleanSt, h1]

/-- The character classes whose members the clean scanner ignores. -/
def ScanInert (c : Char) : Prop :=
  c ≠ dquote ∧ c ≠ squote ∧ c ≠ '{' ∧ c ≠ '}'

theorem jsonWsChar_inert (c : Char) (h : jsonWsChar c = true) : ScanInert c := by
  refine ⟨?_, ?_, ?_, ?_⟩ <;> intro hc <;> rw [hc] at h <;> exact absurd h (by decide)

theorem litChar_inert (c : Char) (h : litChar c = true) : ScanInert c := by
  refine ⟨?_, ?_, ?_, ?_⟩ <;> intro hc <;> rw [hc] at h <;> exact absurd h (by decide)

theorem neutral_nil : Neutral [] := by
  intro d q
  exact ⟨⟨q, rfl⟩, le_refl _⟩

theorem neutral_of_inert (l : Str) (h : ∀ c ∈ l, ScanInert c) : Neutral l := by
  induction l with
  | nil => exact neutral_nil
  | cons c r ih =>
    intro d q
    obtain ⟨h1, h2, h3, h4⟩ := h c (List.mem_cons_self c r)
    have hstep := scanStep_clean_id d q c h1 h2 h3 h4
    have ihr := ih (fun x hx => h x (List.mem_cons_of_mem c hx)) d q
    constructor
    · obtain ⟨q', hq'⟩ := ihr.1
      exact ⟨q', by rw [scanAll_cons, hstep, hq']⟩
    · show d ≤ min (cleanSt d q).depth (scanMin (scanStep (cleanSt d q) c) r)
      rw [hstep]
      have := ihr.2
      simp only [cleanSt] at *
      omega

theorem neutral_append (A B : Str) (hA : Neutral A) (hB : Neutral B) : Neutral (A ++ B) := by
  intro d q
  obtain ⟨⟨q', hq'⟩, hminA⟩ := hA d q
  obtain ⟨⟨q'', hq''⟩, hminB⟩ := hB d q'
  constructor
  · exact ⟨q'', by rw [scanAll_append, hq', hq'']⟩
  · rw [scanMin_append, hq']
    omega

/-- Scanning the remainder of a string token (body then closing
quote) from the in-string state returns to a clean state at the same
depth. -/
theorem scan_body (b : Str) (hb : BodyOK b) (d : Int) :
    scanAll ⟨d, true, false, dquote⟩ (b ++ [dquote]) = cleanSt d dquote ∧
      d ≤ scanMin ⟨d, true, false, dquote⟩ (b ++ [dquote]) := by
  induction hb with
  | nil =>
    constructor
    · show scanAll (scanStep ⟨d, true, false, dquote⟩ dquote) [] = _
      simp [scanStep, scanAll, cleanSt]
    · show d ≤ min d (scanMin (scanStep ⟨d, true, false, dquote⟩ dquote) [])
      simp [scanStep, scanMin]
  | plain c r hc _ ih =>
    have hcq : ¬ c = dquote := by
      simp only [plainStrChar, Bool.and_eq_true, Bool.not_eq_true', decide_eq_false_iff_not] at hc
      exact hc.1.1
    have hcb : ¬ c = bslash := by
      simp only [plainStrChar, Bool.and_eq_true, Bool.not_eq_true', decide_eq_false_iff_not] at hc
      exact hc.1.2
    have hstep : scanStep ⟨d, true, false, dquote⟩ c = ⟨d, true, false, dquote⟩ := by
      simp [scanStep, hcq, hcb]
    constructor
    · show scanAll (scanStep ⟨d, true, false, dquote⟩ c) (r ++ [dquote]) = _
      rw [hstep]
      exact ih.1
    · show d ≤ min d (scanMin (scanStep ⟨d, true, false, dquote⟩ c) (r ++ [dquote]))
      rw [hstep]
      have := ih.2
      omega
  | esc c r _ _ ih =>
    have hstep1 : scanStep ⟨d, true, false, dquote⟩ bslash = ⟨d, true, true, dquote⟩ := by
      simp [scanStep]
      decide
    have hstep2 : scanStep ⟨d, true, true, dquote⟩ c = ⟨d, true, false, dquote⟩ := by
      simp [scanStep]
    constructor
    · show scanAll (scanStep ⟨d, true, false, dquote⟩ bslash) (c :: (r ++ [dquote])) = _
      rw [hstep1, scanAll_cons, hstep2]
      exact ih.1
    · show d ≤ min d (scanMin (scanStep ⟨d, true, false, dquote⟩ bslash) (c :: (r ++ [dquote])))
      rw [hstep1]
      show d ≤ min d (min d (scanMin (scanStep ⟨d, true, true, dquote⟩ c) (r ++ [dquote])))
      rw [hstep2]
      have := ih.2
      omega
  | escU h1 h2 h3 h4 r hh1 hh2 hh3 hh4 _ ih =>
    have hstep1 : scanStep ⟨d, true, false, dquote⟩ bslash = ⟨d, true, true, dquote⟩ := by
      simp [scanStep]
      decide
    have hstep2 : scanStep ⟨d, true, true, dquote⟩ 'u' = ⟨d, true, false, dquote⟩ := by
      simp [scanStep]
    have hhex : ∀ c : Char, hexDigit c = true →
        scanStep ⟨d, true, false, dquote⟩ c = ⟨d, true, false, dquote⟩ := by
      intro c hc
      have hcq : ¬ c = dquote := by
        intro he
        subst he
        revert hc
        decide
      have hcb : ¬ c = bslash := by
        intro he
        subst he
        revert hc
        decide
      simp [scanStep, hcq, hcb]
    constructor
    · show scanAll (scanStep ⟨d, true, false, dquote⟩ bslash)
        ('u' :: h1 :: h2 :: h3 :: h4 :: (r ++ [dquote])) = _
      rw [hstep1, scanAll_cons, hstep2, scanAll_cons, hhex h1 hh1, scanAll_cons, hhex h2 hh2,
        scanAll_cons, hhex h3 hh3, scanAll_cons, hhex h4 hh4]
      exact ih.1
    · show d ≤ min d (scanMin (scanStep ⟨d, true, false, dquote⟩ bslash)
        ('u' :: h1 :: h2 :: h3 :: h4 :: (r ++ [dquote])))
      rw [hstep1]
      show d ≤ min d (min d (scanMin (scanStep ⟨d, true, true, dquote⟩ 'u')
        (h1 :: h2 :: h3 :: h4 :: (r ++ [dquote]))))
      rw [hstep2]
      show d ≤ min d (min d (min d (scanMin (scanStep ⟨d, true, false, dquote⟩ h1)
        (h2 :: h3 :: h4 :: (r ++ [dquote])))))
      rw [hhex h1 hh1]
      show d ≤ min d (min d (min d (min d (scanMin (scanStep ⟨d, true, false, dquote⟩ h2)
        (h3 :: h4 :: (r ++ [dquote]))))))
      rw [hhex h2 hh2]
      show d ≤ min d (min d (min d (min d (min d (scanMin (scanStep ⟨d, true, false, dquote⟩ h3)
        (h4 :: (r ++ [dquote])))))))
      rw [hhex h3 hh3]
      show d ≤ min d (min d (min d (min d (min d (min d
        (scanMin (scanStep ⟨d, true, false, dquote⟩ h4) (r ++ [dquote])))))))
      rw [hhex h4 hh4]
      have := ih.2
      omega

/-- A complete string token is depth neutral. -/
theorem neutral_strTok (b : Str) (hb : BodyOK b) : Neutral (dquote :: b ++ [dquote]) := by
  intro d q
  have hq := scanStep_clean_quote d q
  obtain ⟨hall, hmin⟩ := scan_body b hb d
  constructor
  · refine ⟨dquote, ?_⟩
    show scanAll (scanStep (cleanSt d q) dquote) (b ++ [dquote]) = _
    rw [hq, hall]
  · show d ≤ min (cleanSt d q).depth (scanMin (scanStep (cleanSt d q) dquote) (b ++ [dquote]))
    rw [hq]
    simp only [cleanSt]
    omega

/-! ## Token character facts, fences and quote parity -/

theorem flatToks_nil : flatToks [] = [] := rfl

theorem flatToks_cons (t : JTok) (ts : List JTok) :
    flatToks (t :: ts) = t.chars ++ flatToks ts := by
  simp [flatToks]

theorem flatToks_append (ts1 ts2 : List JTok) :
    flatToks (ts1 ++ ts2) = flatToks ts1 ++ flatToks ts2 := by
  simp [flatToks]

theorem tok_chars_ne_nil (t : JTok) (h : TokOK t) : t.chars ≠ [] := by
  cases h with
  | ws cs hne _ => simpa [JTok.chars] using hne
  | punc c _ => simp [JTok.chars]
  | lit cs hne _ => simpa [JTok.chars] using hne
  | strTok b _ => simp [JTok.chars]

theorem bodyOK_chars (b : Str) (hb : BodyOK b) :
    ∀ c ∈ b, ¬ c = '\n' ∧ 0 < c.toNat := by
  induction hb with
  | nil => intro c hc; cases hc
  | plain c' r hc' _ ih =>
    intro c hc
    rcases List.mem_cons.mp hc with h | h
    · subst h
      constructor
      · intro he
        rw [he] at hc'
        exact absurd hc' (by decide)
      · have : (32 : Nat) ≤ c.toNat := by
          have := hc'
          simp only [plainStrChar, Bool.and_eq_true, decide_eq_true_eq] at this
          exact this.2
        omega
    · exact ih c h
  | esc c' r hc' _ ih =>
    intro c hc
    rcases List.mem_cons.mp hc with h | h
    · subst h
      exact ⟨by decide, by decide⟩
    · rcases List.mem_cons.mp h with h2 | h2
      · subst h2
        constructor
        · intro he
          rw [he] at hc'
          exact absurd hc' (by decide)
        · by_contra hz
          have : c.toNat = 0 := by omega
          have : c = Char.ofNat 0 := by
            have := Char.ofNat_toNat c
            rw [‹c.toNat = 0›] at this
            exact this.symm
          rw [this] at hc'
          exact absurd hc' (by decide)
      · exact ih c h2
  | escU h1 h2 h3 h4 r hh1 hh2 hh3 hh4 _ ih =>
    intro c hc
    have hhex : ∀ x : Char, hexDigit x = true → ¬ x = '\n' ∧ 0 < x.toNat := by
      intro x hx
      constructor
      · intro he
        rw [he] at hx
        exact absurd hx (by decide)
      · by_contra hz
        have hx0 : x.toNat = 0 := by omega
        have : x = Char.ofNat 0 := by
          have := Char.ofNat_toNat x
          rw [hx0] at this
          exact this.symm
        rw [this] at hx
        exact absurd hx (by decide)
    rcases List.mem_cons.mp hc with h | h
    · subst h; exact ⟨by decide, by decide⟩
    rcases List.mem_cons.mp h with h | h
    · subst h; exact ⟨by decide, by decide⟩
    rcases List.mem_cons.mp h with h | h
    · subst h; exact hhex _ hh1
    rcases List.mem_cons.mp h with h | h
    · subst h; exact hhex _ hh2
    rcases List.mem_cons.mp h with h | h
    · subst h; exact hhex _ hh3
    rcases List.mem_cons.mp h with h | h
    · subst h; exact hhex _ hh4
    · exact ih c h

theorem noFence_of_no_tick (l : Str) (h : ∀ c ∈ l, ¬ c = btick) : noFence l := by
  intro X Y heq
  have : btick ∈ l := by
    rw [heq]
    exact List.mem_append.mpr (Or.inr (List.mem_cons_of_mem _ (List.mem_cons_self _ _)))
  exact h btick this rfl

theorem noFence_of_no_newline (l : Str) (h : ∀ c ∈ l, ¬ c = '\n') : noFence l := by
  intro X Y heq
  have : '\n' ∈ l := by
    rw [heq]
    exact List.mem_append.mpr (Or.inr (List.mem_cons_self _ _))
  exact h '\n' this rfl

theorem noFence_tail (c : Char) (l : Str) (h : noFence (c :: l)) : noFence l := by
  intro X Y heq
  exact h (c :: X) Y (by rw [heq]; rfl)

theorem noFence_append (A B : Str) (hA : noFence A) (hB : noFence B)
    (hhead : ∀ c, B.head? = some c → ¬ c = btick) : noFence (A ++ B) := by
  induction A with
  | nil => simpa using hB
  | cons a A' ih =>
    intro X Y heq
    cases X with
    | nil =>
      simp only [List.nil_append, List.cons_append, List.cons.injEq] at heq
      obtain ⟨ha, htail⟩ := heq
      cases A' with
      | nil =>
        cases B with
        | nil => simp at htail
        | cons b B' =>
          simp only [List.nil_append, List.cons.injEq] at htail
          exact hhead b rfl htail.1
      | cons a2 A'' =>
        simp only [List.cons_append, List.cons.injEq] at htail
        exact hA [] A'' (by rw [ha, htail.1]; rfl)
    | cons x X' =>
      simp only [List.cons_append, List.cons.injEq] at heq
      exact ih (noFence_tail a A' hA) X' Y heq.2

theorem noFence_short (l : Str) (h : l.length ≤ 1) : noFence l := by
  intro X Y heq
  have hlen := congrArg List.length heq
  simp only [List.length_append, List.length_cons] at hlen
  omega

theorem ws_chars_class (c : Char) (h : jsonWsChar c = true) :
    ¬ c = btick ∧ ¬ c = bslash ∧ ¬ c = dquote := by
  refine ⟨?_, ?_, ?_⟩ <;> intro hc <;> rw [hc] at h <;> exact absurd h (by decide)

theorem lit_chars_class (c : Char) (h : litChar c = true) :
    ¬ c = btick ∧ ¬ c = bslash ∧ ¬ c = dquote := by
  refine ⟨?_, ?_, ?_⟩ <;> intro hc <;> rw [hc] at h <;> exact absurd h (by decide)

theorem punc_chars_class (c : Char) (h : puncChar c = true) :
    ¬ c = btick ∧ ¬ c = bslash ∧ ¬ c = dquote := by
  refine ⟨?_, ?_, ?_⟩ <;> intro hc <;> rw [hc] at h <;> exact absurd h (by decide)

theorem tok_noFence (t : JTok) (h : TokOK t) : noFence t.chars := by
  cases h with
  | ws cs _ hws =>
    exact noFence_of_no_tick cs (fun c hc => (ws_chars_class c (hws c hc)).1)
  | punc c _ => exact noFence_short [c] (by simp)
  | lit cs _ hlit =>
    exact noFence_of_no_tick cs (fun c hc => (lit_chars_class c (hlit c hc)).1)
  | strTok b hb =>
    refine noFence_of_no_newline _ ?_
    intro c hc
    show ¬ c = '\n'
    simp only [JTok.chars] at hc
    rcases List.mem_cons.mp hc with h | h
    · subst h; decide
    · rcases List.mem_append.mp h with h2 | h2
      · exact (bodyOK_chars b hb c h2).1
      · rw [List.mem_singleton.mp h2]; decide

theorem tok_head_not_tick (t : JTok) (h : TokOK t) :
    ∀ c, t.chars.head? = some c → ¬ c = btick := by
  cases h with
  | ws cs hne hws =>
    intro c hc
    have : c ∈ cs := by
      cases cs with
      | nil => exact absurd rfl hne
      | cons a r =>
        simp only [JTok.chars, List.head?] at hc
        rw [← Option.some_inj.mp hc]
        exact List.mem_cons_self a r
    exact (ws_chars_class c (hws c this)).1
  | punc c hp =>
    intro x hx
    simp only [JTok.chars, List.head?] at hx
    rw [← Option.some_inj.mp hx]
    exact (punc_chars_class c hp).1
  | lit cs hne hlit =>
    intro c hc
    have : c ∈ cs := by
      cases cs with
      | nil => exact absurd rfl hne
      | cons a r =>
        simp only [JTok.chars, List.head?] at hc
        rw [← Option.some_inj.mp hc]
        exact List.mem_cons_self a r
    exact (lit_chars_class c (hlit c this)).1
  | strTok b _ =>
    intro c hc
    simp only [JTok.chars, List.head?] at hc
    rw [← Option.some_inj.mp hc]
    decide

theorem flatToks_noFence (ts : List JTok) (h : TokListOK ts) :
    noFence (flatToks ts) ∧ ∀ c, (flatToks ts).head? = some c → ¬ c = btick := by
  induction ts with
  | nil =>
    constructor
    · exact noFence_short [] (by simp)
    · intro c hc; cases hc
  | cons t ts' ih =>
    have ht : TokOK t := h t (List.mem_cons_self t ts')
    have hts' : TokListOK ts' := fun x hx => h x (List.mem_cons_of_mem t hx)
    obtain ⟨ihf, ihh⟩ := ih hts'
    rw [flatToks_cons]
    constructor
    · exact noFence_append t.chars (flatToks ts') (tok_noFence t ht) ihf ihh
    · intro c hc
      have hne := tok_chars_ne_nil t ht
      cases hch : t.chars with
      | nil => exact absurd hch hne
      | cons a r =>
        rw [hch] at hc
        simp only [List.cons_append, List.head?] at hc
        refine tok_head_not_tick t ht c ?_
        rw [hch]
        simpa using hc

/-! ## Quote parity -/

theorem oqFold_cons_bslash (e : Bool) (r : Str) :
    oqFold e (bslash :: r) = oqFold (!e) r := by
  simp [oqFold]

theorem oqFold_cons_dquote (e : Bool) (r : Str) :
    oqFold e (dquote :: r) =
      (if e then (oqFold false r).1 else (oqFold false r).1 + 1, (oqFold false r).2) := by
  have hne : ¬(dquote = bslash) := by decide
  simp [oqFold, hne]

theorem oqFold_cons_other (e : Bool) (c : Char) (r : Str) (hb : ¬ c = bslash)
    (hq : ¬ c = dquote) : oqFold e (c :: r) = oqFold false r := by
  simp [oqFold, hb, hq]

theorem oqFold_append (A : Str) :
    ∀ (e : Bool) (B : Str),
      oqFold e (A ++ B) =
        ((oqFold e A).1 + (oqFold (oqFold e A).2 B).1, (oqFold (oqFold e A).2 B).2) := by
  induction A with
  | nil => intro e B; simp [oqFold]
  | cons c A' ih =>
    intro e B
    by_cases hb : c = bslash
    · subst hb
      show oqFold e (bslash :: (A' ++ B)) = _
      rw [oqFold_cons_bslash, oqFold_cons_bslash, ih]
    · by_cases hq : c = dquote
      · subst hq
        show oqFold e (dquote :: (A' ++ B)) = _
        rw [oqFold_cons_dquote, oqFold_cons_dquote, ih false B]
        by_cases he : e <;> simp [he] <;> omega
      · show oqFold e (c :: (A' ++ B)) = _
        rw [oqFold_cons_other e c _ hb hq, oqFold_cons_other e c _ hb hq, ih false B]

theorem oqFold_inert (l : Str) (h : ∀ c ∈ l, ¬ c = bslash ∧ ¬ c = dquote) :
    oqFold false l = (0, false) := by
  induction l with
  | nil => rfl
  | cons c r ih =>
    obtain ⟨hb, hq⟩ := h c (List.mem_cons_self c r)
    rw [oqFold_cons_other false c r hb hq]
    exact ih (fun x hx => h x (List.mem_cons_of_mem c hx))

theorem oqFold_body (b : Str) (hb : BodyOK b) : oqFold false b = (0, false) := by
  induction hb with
  | nil => rfl
  | plain c r hc _ ih =>
    have hcq : ¬ c = dquote := by
      simp only [plainStrChar, Bool.and_eq_true, Bool.not_eq_true', decide_eq_false_iff_not] at hc
      exact hc.1.1
    have hcb : ¬ c = bslash := by
      simp only [plainStrChar, Bool.and_eq_true, Bool.not_eq_true', decide_eq_false_iff_not] at hc
      exact hc.1.2
    rw [oqFold_cons_other false c r hcb hcq]
    exact ih
  | esc c r hc _ ih =>
    show oqFold false (bslash :: c :: r) = (0, false)
    rw [oqFold_cons_bslash]
    show oqFold true (c :: r) = (0, false)
    by_cases hcb : c = bslash
    · subst hcb
      rw [oqFold_cons_bslash]
      exact ih
    · by_cases hcq : c = dquote
      · subst hcq
        rw [oqFold_cons_dquote, ih]
        rfl
      · rw [oqFold_cons_other true c r hcb hcq]
        exact ih
  | escU h1 h2 h3 h4 r hh1 hh2 hh3 hh4 _ ih =>
    have hhex : ∀ x : Char, hexDigit x = true → ¬ x = bslash ∧ ¬ x = dquote := by
      intro x hx
      refine ⟨?_, ?_⟩ <;> intro he <;> rw [he] at hx <;> exact absurd hx (by decide)
    show oqFold false (bslash :: 'u' :: h1 :: h2 :: h3 :: h4 :: r) = (0, false)
    rw [oqFold_cons_bslash]
    show oqFold true ('u' :: h1 :: h2 :: h3 :: h4 :: r) = (0, false)
    rw [oqFold_cons_other true 'u' _ (by decide) (by decide),
      oqFold_cons_other false h1 _ (hhex h1 hh1).1 (hhex h1 hh1).2,
      oqFold_cons_other false h2 _ (hhex h2 hh2).1 (hhex h2 hh2).2,
      oqFold_cons_other false h3 _ (hhex h3 hh3).1 (hhex h3 hh3).2,
      oqFold_cons_other false h4 _ (hhex h4 hh4).1 (hhex h4 hh4).2]
    exact ih

theorem oqFold_strTok (b : Str) (hb : BodyOK b) :
    oqFold false (dquote :: b ++ [dquote]) = (2, false) := by
  show oqFold false (dquote :: (b ++ [dquote])) = (2, false)
  have hX : oqFold false (b ++ [dquote]) = (1, false) := by
    rw [oqFold_append b false [dquote], oqFold_body b hb]
    rfl
  rw [oqFold_cons_dquote, hX]
  rfl

theorem oqFold_tok (t : JTok) (h : TokOK t) : ∃ n, oqFold false t.chars = (2 * n, false) := by
  cases h with
  | ws cs _ hws =>
    exact ⟨0, oqFold_inert cs (fun c hc => ⟨(ws_chars_class c (hws c hc)).2.1,
      (ws_chars_class c (hws c hc)).2.2⟩)⟩
  | punc c hp =>
    refine ⟨0, oqFold_inert [c] ?_⟩
    intro x hx
    rw [List.mem_singleton.mp hx]
    exact ⟨(punc_chars_class c hp).2.1, (punc_chars_class c hp).2.2⟩
  | lit cs _ hlit =>
    exact ⟨0, oqFold_inert cs (fun c hc => ⟨(lit_chars_class c (hlit c hc)).2.1,
      (lit_chars_class c (hlit c hc)).2.2⟩)⟩
  | strTok b hb => exact ⟨1, oqFold_strTok b hb⟩

theorem oqFold_flatToks (ts : List JTok) (h : TokListOK ts) :
    ∃ n, oqFold false (flatToks ts) = (2 * n, false) := by
  induction ts with
  | nil => exact ⟨0, rfl⟩
  | cons t ts' ih =>
    obtain ⟨n1, h1⟩ := oqFold_tok t (h t (List.mem_cons_self t ts'))
    obtain ⟨n2, h2⟩ := ih (fun x hx => h x (List.mem_cons_of_mem t hx))
    refine ⟨n1 + n2, ?_⟩
    rw [flatToks_cons, oqFold_append t.chars false (flatToks ts'), h1]
    show (2 * n1 + (oqFold false (flatToks ts')).1, (oqFold false (flatToks ts')).2) = _
    rw [h2]
    show (2 * n1 + 2 * n2, false) = _
    have : 2 * n1 + 2 * n2 = 2 * (n1 + n2) := by omega
    rw [this]

/-! ## Body suffixes and trimming -/

theorem bodyOK_tail (c : Char) (r : Str) (hc : ¬ c = bslash) (h : BodyOK (c :: r)) :
    BodyOK r := by
  cases h with
  | plain _ _ _ hr => exact hr
  | esc _ _ _ _ => exact absurd rfl hc
  | escU _ _ _ _ _ _ _ _ _ _ => exact absurd rfl hc

theorem bodyOK_peelList (m : Str) (hm : ∀ c ∈ m, ¬ c = bslash) :
    ∀ r, BodyOK (m ++ r) → BodyOK r := by
  induction m with
  | nil => exact fun r h => h
  | cons c m' ih =>
    intro r h
    exact ih (fun x hx => hm x (List.mem_cons_of_mem c hx)) r
      (bodyOK_tail c (m' ++ r) (hm c (List.mem_cons_self c m')) h)

theorem bodyOK_suffix_tick (b : Str) (hb : BodyOK b) :
    ∀ bx rest, b = bx ++ btick :: rest → BodyOK (btick :: rest) := by
  induction hb with
  | nil =>
    intro bx rest h
    exact absurd (congrArg List.length h) (by simp; omega)
  | plain c r hc hr ih =>
    intro bx rest h
    cases bx with
    | nil =>
      simp only [List.nil_append] at h
      rw [← h]
      exact BodyOK.plain c r hc hr
    | cons x bx' =>
      simp only [List.cons_append, List.cons.injEq] at h
      exact ih bx' rest h.2
  | esc c r hc hr ih =>
    intro bx rest h
    cases bx with
    | nil =>
      simp only [List.nil_append, List.cons.injEq] at h
      exact absurd h.1 (by decide)
    | cons x bx' =>
      cases bx' with
      | nil =>
        simp only [List.cons_append, List.nil_append, List.cons.injEq] at h
        rw [h.2.1] at hc
        exact absurd hc (by decide)
      | cons y bx'' =>
        simp only [List.cons_append, List.cons.injEq] at h
        exact ih bx'' rest h.2.2
  | escU h1 h2 h3 h4 r hh1 hh2 hh3 hh4 hr ih =>
    intro bx rest h
    have hhex : ∀ x : Char, hexDigit x = true → ¬ x = btick := by
      intro x hx he
      rw [he] at hx
      exact absurd hx (by decide)
    cases bx with
    | nil =>
      simp only [List.nil_append, List.cons.injEq] at h
      exact absurd h.1 (by decide)
    | cons x1 bx1 =>
      cases bx1 with
      | nil =>
        simp only [List.cons_append, List.nil_append, List.cons.injEq] at h
        exact absurd h.2.1 (by decide)
      | cons x2 bx2 =>
        cases bx2 with
        | nil =>
          simp only [List.cons_append, List.nil_append, List.cons.injEq] at h
          exact absurd h.2.2.1.symm (fun he => hhex h1 hh1 he.symm)
        | cons x3 bx3 =>
          cases bx3 with
          | nil =>
            simp only [List.cons_append, List.nil_append, List.cons.injEq] at h
            exact absurd h.2.2.2.1.symm (fun he => hhex h2 hh2 he.symm)
          | cons x4 bx4 =>
            cases bx4 with
            | nil =>
              simp only [List.cons_append, List.nil_append, List.cons.injEq] at h
              exact absurd h.2.2.2.2.1.symm (fun he => hhex h3 hh3 he.symm)
            | cons x5 bx5 =>
              cases bx5 with
              | nil =>
                simp only [List.cons_append, List.nil_append, List.cons.injEq] at h
                exact absurd h.2.2.2.2.2.1.symm (fun he => hhex h4 hh4 he.symm)
              | cons x6 bx6 =>
                simp only [List.cons_append, List.cons.injEq] at h
                exact ih bx6 rest h.2.2.2.2.2.2

theorem rustTrimStart_decomp (l : Str) :
    ∃ w, l = w ++ rustTrimStart l ∧ ∀ c ∈ w, rustWsChar c = true := by
  induction l with
  | nil => exact ⟨[], rfl, fun c hc => absurd hc (List.not_mem_nil c)⟩
  | cons c r ih =>
    by_cases hc : rustWsChar c = true
    · obtain ⟨w, hw, hws⟩ := ih
      refine ⟨c :: w, ?_, ?_⟩
      · have hstep : rustTrimStart (c :: r) = rustTrimStart r := by simp [rustTrimStart, hc]
        rw [hstep]
        show c :: r = c :: (w ++ rustTrimStart r)
        rw [← hw]
      · intro x hx
        rcases List.mem_cons.mp hx with h | h
        · rw [h]; exact hc
        · exact hws x h
    · refine ⟨[], ?_, fun x hx => absurd hx (List.not_mem_nil x)⟩
      show c :: r = [] ++ rustTrimStart (c :: r)
      simp [rustTrimStart, hc]

theorem rustTrimStart_head (l : Str) :
    ∀ c, (rustTrimStart l).head? = some c → rustWsChar c = false := by
  induction l with
  | nil => intro c hc; cases hc
  | cons x r ih =>
    intro c hc
    by_cases hx : rustWsChar x = true
    · rw [show rustTrimStart (x :: r) = rustTrimStart r by simp [rustTrimStart, hx]] at hc
      exact ih c hc
    · rw [show rustTrimStart (x :: r) = x :: r by simp [rustTrimStart, hx]] at hc
      simp only [List.head?] at hc
      rw [← Option.some_inj.mp hc]
      exact Bool.not_eq_true _ ▸ (by simpa using hx)

theorem rustTrimStart_of_head (l : Str) (c : Char) (h : l.head? = some c)
    (hc : rustWsChar c = false) : rustTrimStart l = l := by
  cases l with
  | nil => cases h
  | cons x r =>
    simp only [List.head?] at h
    rw [← Option.some_inj.mp h] at hc
    simp [rustTrimStart, hc]

theorem rustTrimStart_append_ws (w l : Str) (hw : ∀ c ∈ w, rustWsChar c = true) :
    rustTrimStart (w ++ l) = rustTrimStart l := by
  induction w with
  | nil => rfl
  | cons c w' ih =>
    show rustTrimStart (c :: (w' ++ l)) = _
    rw [show rustTrimStart (c :: (w' ++ l)) = rustTrimStart (w' ++ l) by
      simp [rustTrimStart, hw c (List.mem_cons_self c w')]]
    exact ih (fun x hx => hw x (List.mem_cons_of_mem c hx))

theorem rustTrimStart_append_head (A B : Str)
    (hB : ∀ c, B.head? = some c → rustWsChar c = false) :
    rustTrimStart (A ++ B) = rustTrimStart A ++ B := by
  induction A with
  | nil =>
    show rustTrimStart B = rustTrimStart [] ++ B
    cases B with
    | nil => rfl
    | cons b B' => exact rustTrimStart_of_head (b :: B') b rfl (hB b rfl)
  | cons c A' ih =>
    by_cases hc : rustWsChar c = true
    · show rustTrimStart (c :: (A' ++ B)) = _
      rw [show rustTrimStart (c :: (A' ++ B)) = rustTrimStart (A' ++ B) by
        simp [rustTrimStart, hc]]
      rw [show rustTrimStart (c :: A') = rustTrimStart A' by simp [rustTrimStart, hc]]
      exact ih
    · show rustTrimStart (c :: (A' ++ B)) = _
      rw [show rustTrimStart (c :: (A' ++ B)) = c :: (A' ++ B) by simp [rustTrimStart, hc]]
      rw [show rustTrimStart (c :: A') = c :: A' by simp [rustTrimStart, hc]]
      rfl

theorem bodyOK_trimStart (b : Str) (hb : BodyOK b) : BodyOK (rustTrimStart b) := by
  induction hb with
  | nil => exact BodyOK.nil
  | plain c r hc hr ih =>
    by_cases hws : rustWsChar c = true
    · rw [show rustTrimStart (c :: r) = rustTrimStart r by simp [rustTrimStart, hws]]
      exact ih
    · rw [show rustTrimStart (c :: r) = c :: r by simp [rustTrimStart, hws]]
      exact BodyOK.plain c r hc hr
  | esc c r hc hr _ =>
    rw [show rustTrimStart (bslash :: c :: r) = bslash :: c :: r by
      simp [rustTrimStart, show rustWsChar bslash = false by decide]]
    exact BodyOK.esc c r hc hr
  | escU h1 h2 h3 h4 r hh1 hh2 hh3 hh4 hr _ =>
    rw [show rustTrimStart (bslash :: 'u' :: h1 :: h2 :: h3 :: h4 :: r) =
        bslash :: 'u' :: h1 :: h2 :: h3 :: h4 :: r by
      simp [rustTrimStart, show rustWsChar bslash = false by decide]]
    exact BodyOK.escU h1 h2 h3 h4 r hh1 hh2 hh3 hh4 hr

theorem rustTrimEnd_of_last (l : Str) (c : Char) (h : l.getLast? = some c)
    (hc : rustWsChar c = false) : rustTrimEnd l = l := by
  rw [rustTrimEnd]
  rw [rustTrimStart_of_head l.reverse c (by rw [List.head?_reverse]; exact h) hc]
  exact List.reverse_reverse l

theorem rustTrimEnd_append_ws (l w : Str) (hw : ∀ c ∈ w, rustWsChar c = true) :
    rustTrimEnd (l ++ w) = rustTrimEnd l := by
  rw [rustTrimEnd, rustTrimEnd, List.reverse_append]
  rw [rustTrimStart_append_ws w.reverse l.reverse (fun c hc => hw c (List.mem_reverse.mp hc))]

theorem rustTrimEnd_decomp (l : Str) :
    ∃ w, l = rustTrimEnd l ++ w ∧ ∀ c ∈ w, rustWsChar c = true := by
  obtain ⟨w, hw, hws⟩ := rustTrimStart_decomp l.reverse
  refine ⟨w.reverse, ?_, fun c hc => hws c (List.mem_reverse.mp hc)⟩
  rw [rustTrimEnd]
  have := congrArg List.reverse hw
  rw [List.reverse_reverse] at this
  rw [List.reverse_append] at this
  exact this

theorem rustTrim_decomp (s : Str) :
    ∃ wl wr, s = wl ++ rustTrim s ++ wr ∧ (∀ c ∈ wl, rustWsChar c = true) ∧
      ∀ c ∈ wr, rustWsChar c = true := by
  obtain ⟨wl, hwl, hwsl⟩ := rustTrimStart_decomp s
  obtain ⟨wr, hwr, hwsr⟩ := rustTrimEnd_decomp (rustTrimStart s)
  exact ⟨wl, wr, by rw [rustTrim, List.append_assoc, ← hwr, ← hwl], hwsl, hwsr⟩

theorem rustTrim_head (l : Str) :
    ∀ c, (rustTrim l).head? = some c → rustWsChar c = false := by
  intro c hc
  obtain ⟨wr, hwr, _⟩ := rustTrimEnd_decomp (rustTrimStart l)
  apply rustTrimStart_head l c
  rw [hwr]
  have hTrim : rustTrimEnd (rustTrimStart l) = rustTrim l := rfl
  rw [hTrim]
  cases hh : rustTrim l with
  | nil => rw [hh] at hc; cases hc
  | cons x r =>
    rw [hh] at hc
    simpa using hc

theorem rustTrim_last (l : Str) :
    ∀ c, (rustTrim l).getLast? = some c → rustWsChar c = false := by
  intro c hc
  rw [rustTrim, rustTrimEnd, List.getLast?_reverse] at hc
  exact rustTrimStart_head _ c hc

theorem skipWs_decomp (l : Str) :
    ∃ w, l = w ++ skipWs l ∧ ∀ c ∈ w, jsonWsChar c = true := by
  induction l with
  | nil => exact ⟨[], rfl, fun c hc => absurd hc (List.not_mem_nil c)⟩
  | cons c r ih =>
    by_cases hc : jsonWsChar c = true
    · obtain ⟨w, hw, hws⟩ := ih
      refine ⟨c :: w, ?_, ?_⟩
      · have hstep : skipWs (c :: r) = skipWs r := by simp [skipWs, hc]
        rw [hstep]
        show c :: r = c :: (w ++ skipWs r)
        rw [← hw]
      · intro x hx
        rcases List.mem_cons.mp hx with h | h
        · rw [h]; exact hc
        · exact hws x h
    · refine ⟨[], ?_, fun x hx => absurd hx (List.not_mem_nil x)⟩
      show c :: r = [] ++ skipWs (c :: r)
      simp [skipWs, hc]

theorem skipWs_eq_nil_ws (l : Str) (h : skipWs l = []) : ∀ c ∈ l, jsonWsChar c = true := by
  induction l with
  | nil => intro c hc; cases hc
  | cons x r ih =>
    intro c hc
    by_cases hx : jsonWsChar x = true
    · rcases List.mem_cons.mp hc with h2 | h2
      · rw [h2]; exact hx
      · refine ih ?_ c h2
        rw [show skipWs (x :: r) = skipWs r by simp [skipWs, hx]] at h
        exact h
    · rw [show skipWs (x :: r) = x :: r by simp [skipWs, hx]] at h
      cases h

theorem skipWs_of_head (l : Str) (c : Char) (h : l.head? = some c)
    (hc : jsonWsChar c = false) : skipWs l = l := by
  cases l with
  | nil => cases h
  | cons x r =>
    simp only [List.head?] at h
    rw [← Option.some_inj.mp h] at hc
    simp [skipWs, hc]

theorem jsonWs_rustWs (c : Char) (h : jsonWsChar c = true) : rustWsChar c = true := by
  simp only [jsonWsChar, Bool.or_eq_true, decide_eq_true_eq] at h
  rcases h with ((h | h) | h) | h <;> rw [h] <;> decide

/-! ## Parser token decomposition: string bodies -/

theorem psbF_zero (l : Str) : parseStringBodyF 0 l = none := rfl

theorem psbF_nil (fuel : Nat) : parseStringBodyF (fuel + 1) [] = none := rfl

theorem psbF_dquote (fuel : Nat) (r : Str) :
    parseStringBodyF (fuel + 1) (dquote :: r) = some ([], r) := rfl

theorem psbF_bslash_nil (fuel : Nat) : parseStringBodyF (fuel + 1) [bslash] = none := rfl

theorem psbF_u (fuel : Nat) (r2 : Str) :
    parseStringBodyF (fuel + 1) (bslash :: 'u' :: r2) =
      (match parseUEsc r2 with
       | some (ch, r3) => (parseStringBodyF fuel r3).map (fun p => (ch :: p.1, p.2))
       | none => none) := by
  simp only [parseStringBodyF]
  have hbd : ¬ bslash = dquote := by decide
  simp only [if_neg hbd, if_pos rfl, if_true]

theorem psbF_esc (fuel : Nat) (e : Char) (r2 : Str) (hne : ¬ e = 'u') :
    parseStringBodyF (fuel + 1) (bslash :: e :: r2) =
      (match escDecode e with
       | some d => (parseStringBodyF fuel r2).map (fun p => (d :: p.1, p.2))
       | none => none) := by
  simp only [parseStringBodyF]
  have hbd : ¬ bslash = dquote := by decide
  simp only [if_neg hbd, if_pos rfl, if_neg hne, if_true]

theorem psbF_other (fuel : Nat) (c : Char) (r : Str) (hq : ¬ c = dquote) (hb : ¬ c = bslash) :
    parseStringBodyF (fuel + 1) (c :: r) =
      (if c.toNat < 32 then none else (parseStringBodyF fuel r).map (fun p => (c :: p.1, p.2))) := by
  simp only [parseStringBodyF]
  simp only [if_neg hq, if_neg hb]

/-- A successful unicode escape consumes a well-formed escape
segment. -/
theorem parseUEsc_decomp (l : Str) (ch : Char) (r3 : Str) (h : parseUEsc l = some (ch, r3)) :
    ∃ seg, l = seg ++ r3 ∧ ∀ b, BodyOK b → BodyOK (bslash :: 'u' :: (seg ++ b)) := by
  rcases l with _ | ⟨h1, _ | ⟨h2, _ | ⟨h3, _ | ⟨h4, r3'⟩⟩⟩⟩
  · exact absurd (show (none : Option (Char × Str)) = some (ch, r3) from h) (by simp)
  · exact absurd (show (none : Option (Char × Str)) = some (ch, r3) from h) (by simp)
  · exact absurd (show (none : Option (Char × Str)) = some (ch, r3) from h) (by simp)
  · exact absurd (show (none : Option (Char × Str)) = some (ch, r3) from h) (by simp)
  · have h' : (if (hexDigit h1 && hexDigit h2 && hexDigit h3 && hexDigit h4) = true then
        (if 55296 ≤ hex4 h1 h2 h3 h4 ∧ hex4 h1 h2 h3 h4 < 56320 then
          parseUEscPair (hex4 h1 h2 h3 h4) r3'
         else if 56320 ≤ hex4 h1 h2 h3 h4 ∧ hex4 h1 h2 h3 h4 < 57344 then none
         else some (Char.ofNat (hex4 h1 h2 h3 h4), r3'))
      else none) = some (ch, r3) := h
    by_cases hx : (hexDigit h1 && hexDigit h2 && hexDigit h3 && hexDigit h4) = true
    · rw [if_pos hx] at h'
      simp only [Bool.and_eq_true] at hx
      by_cases hs : 55296 ≤ hex4 h1 h2 h3 h4 ∧ hex4 h1 h2 h3 h4 < 56320
      · rw [if_pos hs] at h'
        rcases r3' with _ | ⟨e2, _ | ⟨u2, _ | ⟨g1, _ | ⟨g2, _ | ⟨g3, _ | ⟨g4, r4⟩⟩⟩⟩⟩⟩
        · exact absurd (show (none : Option (Char × Str)) = some (ch, r3) from h') (by simp)
        · exact absurd (show (none : Option (Char × Str)) = some (ch, r3) from h') (by simp)
        · exact absurd (show (none : Option (Char × Str)) = some (ch, r3) from h') (by simp)
        · exact absurd (show (none : Option (Char × Str)) = some (ch, r3) from h') (by simp)
        · exact absurd (show (none : Option (Char × Str)) = some (ch, r3) from h') (by simp)
        · exact absurd (show (none : Option (Char × Str)) = some (ch, r3) from h') (by simp)
        · have h2' : (if (e2 = bslash && u2 = 'u' && hexDigit g1 && hexDigit g2 &&
                hexDigit g3 && hexDigit g4) = true then
              (if 56320 ≤ hex4 g1 g2 g3 g4 ∧ hex4 g1 g2 g3 g4 < 57344 then
                some (Char.ofNat (65536 + (hex4 h1 h2 h3 h4 - 55296) * 1024 +
                  (hex4 g1 g2 g3 g4 - 56320)), r4)
               else none)
            else none) = some (ch, r3) := h'
          by_cases hy : (e2 = bslash && u2 = 'u' && hexDigit g1 && hexDigit g2 &&
              hexDigit g3 && hexDigit g4) = true
          · rw [if_pos hy] at h2'
            simp only [Bool.and_eq_true, decide_eq_true_eq] at hy
            obtain ⟨⟨⟨⟨⟨he2, hu2⟩, hg1⟩, hg2⟩, hg3⟩, hg4⟩ := hy
            subst he2 hu2
            by_cases hz : 56320 ≤ hex4 g1 g2 g3 g4 ∧ hex4 g1 g2 g3 g4 < 57344
            · rw [if_pos hz] at h2'
              simp only [Option.some.injEq, Prod.mk.injEq] at h2'
              refine ⟨h1 :: h2 :: h3 :: h4 :: bslash :: 'u' :: g1 :: g2 :: g3 :: g4 :: [], ?_, ?_⟩
              · rw [h2'.2]
                rfl
              · intro b hb
                exact BodyOK.escU h1 h2 h3 h4 _ hx.1.1.1 hx.1.1.2 hx.1.2 hx.2
                  (BodyOK.escU g1 g2 g3 g4 b hg1 hg2 hg3 hg4 hb)
            · rw [if_neg hz] at h2'
              exact absurd h2' (by simp)
          · rw [if_neg hy] at h2'
            exact absurd h2' (by simp)
      · rw [if_neg hs] at h'
        by_cases hs2 : 56320 ≤ hex4 h1 h2 h3 h4 ∧ hex4 h1 h2 h3 h4 < 57344
        · rw [if_pos hs2] at h'
          exact absurd h' (by simp)
        · rw [if_neg hs2] at h'
          simp only [Option.some.injEq, Prod.mk.injEq] at h'
          refine ⟨[h1, h2, h3, h4], ?_, ?_⟩
          · rw [h'.2]
            rfl
          · intro b hb
            exact BodyOK.escU h1 h2 h3 h4 b hx.1.1.1 hx.1.1.2 hx.1.2 hx.2 hb
    · rw [if_neg hx] at h'
      exact absurd h' (by simp)

/-- A successful string-body parse consumes a well-formed body and
the closing quote. -/
theorem parseStringBodyF_decomp (fuel : Nat) (l : Str) : ∀ s rest,
    parseStringBodyF fuel l = some (s, rest) → ∃ b, l = b ++ dquote :: rest ∧ BodyOK b := by
  induction fuel, l using parseStringBodyF.induct with
  | case1 l =>
    intro s rest h
    rw [psbF_zero] at h
    exact absurd h (by simp)
  | case2 n =>
    intro s rest h
    rw [psbF_nil] at h
    exact absurd h (by simp)
  | case3 fuel r =>
    intro s rest h
    rw [psbF_dquote] at h
    simp only [Option.some.injEq, Prod.mk.injEq] at h
    refine ⟨[], ?_, BodyOK.nil⟩
    rw [← h.2]
    rfl
  | case4 fuel hbd =>
    intro s rest h
    rw [psbF_bslash_nil] at h
    exact absurd h (by simp)
  | case5 fuel r2 ch r3 hu hbd ih =>
    intro s rest h
    rw [psbF_u, hu] at h
    simp only [Option.map_eq_some'] at h
    obtain ⟨⟨s1, r1⟩, hp, hf⟩ := h
    simp only [Prod.mk.injEq] at hf
    obtain ⟨hs1, hr1⟩ := hf
    obtain ⟨b1, hb1, hok1⟩ := ih s1 r1 hp
    rw [hr1] at hb1
    obtain ⟨seg, hseg, hsegOK⟩ := parseUEsc_decomp r2 ch r3 hu
    refine ⟨bslash :: 'u' :: (seg ++ b1), ?_, hsegOK b1 hok1⟩
    rw [hseg, hb1]
    simp
  | case6 fuel r2 hu hbd =>
    intro s rest h
    rw [psbF_u, hu] at h
    exact absurd h (by simp)
  | case7 fuel e r2 hne d hd hbd ih =>
    intro s rest h
    rw [psbF_esc fuel e r2 hne, hd] at h
    simp only [Option.map_eq_some'] at h
    obtain ⟨⟨s1, r1⟩, hp, hf⟩ := h
    simp only [Prod.mk.injEq] at hf
    obtain ⟨hs1, hr1⟩ := hf
    obtain ⟨b1, hb1, hok1⟩ := ih s1 r1 hp
    rw [hr1] at hb1
    refine ⟨bslash :: e :: b1, ?_, ?_⟩
    · rw [hb1]
      rfl
    · exact BodyOK.esc e b1 (by simp [escChar, hd]) hok1
  | case8 fuel e r2 hne hd hbd =>
    intro s rest h
    rw [psbF_esc fuel e r2 hne, hd] at h
    exact absurd h (by simp)
  | case9 fuel c r hq hb hctrl =>
    intro s rest h
    rw [psbF_other fuel c r hq hb, if_pos hctrl] at h
    exact absurd h (by simp)
  | case10 fuel c r hq hb hctrl ih =>
    intro s rest h
    rw [psbF_other fuel c r hq hb, if_neg hctrl] at h
    simp only [Option.map_eq_some'] at h
    obtain ⟨⟨s1, r1⟩, hp, hf⟩ := h
    simp only [Prod.mk.injEq] at hf
    obtain ⟨hs1, hr1⟩ := hf
    obtain ⟨b1, hb1, hok1⟩ := ih s1 r1 hp
    rw [hr1] at hb1
    refine ⟨c :: b1, ?_, ?_⟩
    · rw [hb1]
      rfl
    · refine BodyOK.plain c b1 ?_ hok1
      simp only [plainStrChar, Bool.and_eq_true, Bool.not_eq_true', decide_eq_false_iff_not,
        decide_eq_true_eq]
      exact ⟨⟨hq, hb⟩, by omega⟩

theorem parseStringBody_decomp (l : Str) (s rest : Str) (h : parseStringBody l = some (s, rest)) :
    ∃ b, l = b ++ dquote :: rest ∧ BodyOK b :=
  parseStringBodyF_decomp l.length l s rest h

/-! ## Parser token decomposition: number tokens -/

theorem litChar_of_digit (c : Char) (h : c.isDigit = true) : litChar c = true := by
  simp only [litChar, Char.isAlphanum, h, Bool.or_true, Bool.true_or]

theorem takeDigits_decomp (l : Str) :
    l = (takeDigits l).1 ++ (takeDigits l).2 ∧ ∀ c ∈ (takeDigits l).1, c.isDigit = true := by
  induction l using takeDigits.induct with
  | case1 => exact ⟨rfl, by simp [takeDigits]⟩
  | case2 c r hc ih =>
    have he : takeDigits (c :: r) = (c :: (takeDigits r).1, (takeDigits r).2) := by
      simp [takeDigits, hc]
    rw [he]
    refine ⟨?_, ?_⟩
    · show c :: r = c :: ((takeDigits r).1 ++ (takeDigits r).2)
      rw [← ih.1]
    · intro x hx
      rcases List.mem_cons.mp hx with h | h
      · rw [h]; exact hc
      · exact ih.2 x h
  | case3 c r hc =>
    have he : takeDigits (c :: r) = ([], c :: r) := by simp [takeDigits, hc]
    rw [he]
    exact ⟨rfl, by simp⟩

theorem fracPart_decomp (acc l t rest : Str) (h : fracPart acc l = some (t, rest)) :
    ∃ add, t = acc ++ add ∧ l = add ++ rest ∧ ∀ c ∈ add, litChar c = true := by
  rcases l with _ | ⟨c, r⟩
  · have h' : some (acc, ([] : Str)) = some (t, rest) := h
    simp only [Option.some.injEq, Prod.mk.injEq] at h'
    refine ⟨[], ?_, ?_, by simp⟩
    · rw [List.append_nil]; exact h'.1.symm
    · rw [← h'.2]; rfl
  · by_cases hc : c = '.'
    · subst hc
      rw [fracPart] at h
      rw [if_pos rfl] at h
      rcases htd : takeDigits r with ⟨d0, r0⟩
      rw [htd] at h
      cases d0 with
      | nil => exact absurd h (by simp)
      | cons d1 dr =>
        simp only [Option.some.injEq, Prod.mk.injEq] at h
        obtain ⟨htok, hrest⟩ := h
        have hdec := takeDigits_decomp r
        rw [htd] at hdec
        refine ⟨'.' :: d1 :: dr, htok.symm, ?_, ?_⟩
        · show '.' :: r = '.' :: ((d1 :: dr) ++ rest)
          rw [← hrest, ← hdec.1]
        · intro x hx
          rcases List.mem_cons.mp hx with h | h
          · rw [h]; decide
          · exact litChar_of_digit x (hdec.2 x h)
    · rw [fracPart] at h
      rw [if_neg hc] at h
      simp only [Option.some.injEq, Prod.mk.injEq] at h
      refine ⟨[], ?_, ?_, by simp⟩
      · rw [List.append_nil]; exact h.1.symm
      · rw [← h.2]; rfl

theorem expPart_decomp (acc l t rest : Str) (h : expPart acc l = some (t, rest)) :
    ∃ add, t = acc ++ add ∧ l = add ++ rest ∧ ∀ c ∈ add, litChar c = true := by
  rcases l with _ | ⟨c, r⟩
  · have h' : some (acc, ([] : Str)) = some (t, rest) := h
    simp only [Option.some.injEq, Prod.mk.injEq] at h'
    refine ⟨[], ?_, ?_, by simp⟩
    · rw [List.append_nil]; exact h'.1.symm
    · rw [← h'.2]; rfl
  · by_cases he : c = 'e' ∨ c = 'E'
    · have hlc : litChar c = true := by
        rcases he with he | he
        · rw [he]; decide
        · rw [he]; decide
      rcases r with _ | ⟨s, r2⟩
      · simp only [expPart.eq_def] at h
        rw [if_pos he] at h
        exact absurd h (by simp)
      · by_cases hs : s = '+' ∨ s = '-'
        · have hsc : litChar s = true := by
            rcases hs with hs | hs
            · rw [hs]; decide
            · rw [hs]; decide
          simp only [expPart.eq_def] at h
          rw [if_pos he] at h
          simp only [if_pos hs] at h
          rcases htd : takeDigits r2 with ⟨d0, r0⟩
          rw [htd] at h
          cases d0 with
          | nil => exact absurd h (by simp)
          | cons d1 dr =>
            simp only [Option.some.injEq, Prod.mk.injEq] at h
            obtain ⟨htok, hrest⟩ := h
            have hdec := takeDigits_decomp r2
            rw [htd] at hdec
            refine ⟨c :: s :: d1 :: dr, htok.symm, ?_, ?_⟩
            · show c :: s :: r2 = c :: s :: ((d1 :: dr) ++ rest)
              rw [← hrest, ← hdec.1]
            · intro x hx
              rcases List.mem_cons.mp hx with h | h
              · rw [h]; exact hlc
              rcases List.mem_cons.mp h with h | h
              · rw [h]; exact hsc
              · exact litChar_of_digit x (hdec.2 x h)
        · simp only [expPart.eq_def] at h
          rw [if_pos he] at h
          simp only [if_neg hs] at h
          rcases htd : takeDigits (s :: r2) with ⟨d0, r0⟩
          rw [htd] at h
          cases d0 with
          | nil => exact absurd h (by simp)
          | cons d1 dr =>
            simp only [Option.some.injEq, Prod.mk.injEq] at h
            obtain ⟨htok, hrest⟩ := h
            have hdec := takeDigits_decomp (s :: r2)
            rw [htd] at hdec
            refine ⟨c :: d1 :: dr, htok.symm, ?_, ?_⟩
            · show c :: s :: r2 = c :: ((d1 :: dr) ++ rest)
              rw [← hrest, ← hdec.1]
            · intro x hx
              rcases List.mem_cons.mp hx with h | h
              · rw [h]; exact hlc
              · exact litChar_of_digit x (hdec.2 x h)
    · simp only [expPart.eq_def] at h
      rw [if_neg he] at h
      simp only [Option.some.injEq, Prod.mk.injEq] at h
      refine ⟨[], ?_, ?_, by simp⟩
      · rw [List.append_nil]; exact h.1.symm
      · rw [← h.2]; rfl

theorem fracExp_decomp (acc l tok rest : Str)
    (h : (fracPart acc l).bind (fun p => expPart p.1 p.2) = some (tok, rest)) :
    ∃ add, tok = acc ++ add ∧ l = add ++ rest ∧ ∀ c ∈ add, litChar c = true := by
  rw [Option.bind_eq_some] at h
  obtain ⟨⟨t1, r1⟩, hf, he⟩ := h
  obtain ⟨a1, ha1, hl1, hlc1⟩ := fracPart_decomp acc l t1 r1 hf
  obtain ⟨a2, ha2, hl2, hlc2⟩ := expPart_decomp t1 r1 tok rest he
  refine ⟨a1 ++ a2, ?_, ?_, ?_⟩
  · rw [ha2, ha1, List.append_assoc]
  · rw [hl1, hl2, List.append_assoc]
  · intro c hc
    rcases List.mem_append.mp hc with h | h
    · exact hlc1 c h
    · exact hlc2 c h

/-- A successful number parse consumes a nonempty literal-character
token. -/
theorem parseNumber_decomp (l tok rest : Str) (h : parseNumber l = some (tok, rest)) :
    l = tok ++ rest ∧ tok ≠ [] ∧ ∀ c ∈ tok, litChar c = true := by
  rcases l with _ | ⟨c, r⟩
  · exact absurd (show (none : Option (Str × Str)) = some (tok, rest) from h) (by simp)
  · by_cases hm : c = '-'
    · subst hm
      rcases r with _ | ⟨c2, r2⟩
      · exact absurd (show (none : Option (Str × Str)) = some (tok, rest) from h) (by simp)
      · have h' : (if c2 = '0' then (fracPart ['-', c2] r2).bind (fun p => expPart p.1 p.2)
            else if c2.isDigit then
              (fracPart ('-' :: c2 :: (takeDigits r2).1) (takeDigits r2).2).bind
                (fun p => expPart p.1 p.2)
            else none) = some (tok, rest) := h
        by_cases h0 : c2 = '0'
        · subst h0
          rw [if_pos rfl] at h'
          obtain ⟨add, htok, hl, hlc⟩ := fracExp_decomp ['-', '0'] r2 tok rest h'
          refine ⟨?_, ?_, ?_⟩
          · rw [htok, hl]
            rfl
          · rw [htok]; simp
          · intro x hx
            rw [htok] at hx
            rcases List.mem_append.mp hx with hx | hx
            · rcases List.mem_cons.mp hx with hx | hx
              · rw [hx]; decide
              · simp only [List.mem_singleton] at hx
                rw [hx]; decide
            · exact hlc x hx
        · rw [if_neg h0] at h'
          by_cases hd : c2.isDigit = true
          · rw [if_pos hd] at h'
            obtain ⟨add, htok, hl, hlc⟩ :=
              fracExp_decomp ('-' :: c2 :: (takeDigits r2).1) (takeDigits r2).2 tok rest h'
            have hdec := takeDigits_decomp r2
            refine ⟨?_, ?_, ?_⟩
            · rw [htok]
              show '-' :: c2 :: r2 = ('-' :: c2 :: ((takeDigits r2).1 ++ add)) ++ rest
              rw [List.cons_append, List.cons_append, List.append_assoc, ← hl, ← hdec.1]
            · rw [htok]; simp
            · intro x hx
              rw [htok] at hx
              rcases List.mem_append.mp hx with hx | hx
              · rcases List.mem_cons.mp hx with hx | hx
                · rw [hx]; decide
                rcases List.mem_cons.mp hx with hx | hx
                · rw [hx]; exact litChar_of_digit c2 hd
                · exact litChar_of_digit x (hdec.2 x hx)
              · exact hlc x hx
          · rw [if_neg hd] at h'
            exact absurd h' (by simp)
    · simp only [parseNumber] at h
      simp only [if_neg hm, List.nil_append] at h
      have h' := h
      by_cases h0 : c = '0'
      · subst h0
        rw [if_pos rfl] at h'
        obtain ⟨add, htok, hl, hlc⟩ := fracExp_decomp ['0'] r tok rest h'
        refine ⟨?_, ?_, ?_⟩
        · rw [htok, hl]
          rfl
        · rw [htok]; simp
        · intro x hx
          rw [htok] at hx
          rcases List.mem_append.mp hx with hx | hx
          · simp only [List.mem_singleton] at hx
            rw [hx]; decide
          · exact hlc x hx
      · rw [if_neg h0] at h'
        by_cases hd : c.isDigit = true
        · rw [if_pos hd] at h'
          obtain ⟨add, htok, hl, hlc⟩ :=
            fracExp_decomp (c :: (takeDigits r).1) (takeDigits r).2 tok rest h'
          have hdec := takeDigits_decomp r
          refine ⟨?_, ?_, ?_⟩
          · rw [htok]
            show c :: r = (c :: ((takeDigits r).1 ++ add)) ++ rest
            rw [List.cons_append, List.append_assoc, ← hl, ← hdec.1]
          · rw [htok]; simp
          · intro x hx
            rw [htok] at hx
            rcases List.mem_append.mp hx with hx | hx
            · rcases List.mem_cons.mp hx with hx | hx
              · rw [hx]; exact litChar_of_digit c hd
              · exact litChar_of_digit x (hdec.2 x hx)
            · exact hlc x hx
        · rw [if_neg hd] at h'
          exact absurd h' (by simp)

/-! ## Token-list helpers for the parse decomposition -/

theorem flatToks_wsToks (w : Str) : flatToks (wsToks w) = w := by
  by_cases hw : w = []
  · rw [wsToks, if_pos hw, hw]
    rfl
  · rw [wsToks, if_neg hw]
    show JTok.chars (.ws w) ++ [].join = w
    simp [JTok.chars]

theorem tokListOK_wsToks (w : Str) (h : ∀ c ∈ w, jsonWsChar c = true) : TokListOK (wsToks w) := by
  by_cases hw : w = []
  · rw [wsToks, if_pos hw]
    intro t ht
    cases ht
  · rw [wsToks, if_neg hw]
    intro t ht
    rcases List.mem_singleton.mp ht with rfl
    exact TokOK.ws w hw h

theorem tokListOK_nil : TokListOK [] := by
  intro t ht
  cases ht

theorem tokListOK_cons (t : JTok) (ts : List JTok) (h1 : TokOK t) (h2 : TokListOK ts) :
    TokListOK (t :: ts) := by
  intro x hx
  rcases List.mem_cons.mp hx with h | h
  · rw [h]; exact h1
  · exact h2 x h

theorem tokListOK_append (A B : List JTok) (hA : TokListOK A) (hB : TokListOK B) :
    TokListOK (A ++ B) := by
  intro x hx
  rcases List.mem_append.mp hx with h | h
  · exact hA x h
  · exact hB x h

theorem neutral_ws (w : Str) (h : ∀ c ∈ w, jsonWsChar c = true) : Neutral w :=
  neutral_of_inert w (fun c hc => jsonWsChar_inert c (h c hc))

theorem neutral_lit (cs : Str) (h : ∀ c ∈ cs, litChar c = true) : Neutral cs :=
  neutral_of_inert cs (fun c hc => litChar_inert c (h c hc))

theorem neutral_single (c : Char) (h : ScanInert c) : Neutral [c] := by
  refine neutral_of_inert [c] ?_
  intro x hx
  rcases List.mem_singleton.mp hx with rfl
  exact h

theorem neutral_braces (I : Str) (hI : Neutral I) : Neutral ('{' :: I ++ ['}']) := by
  intro d q
  obtain ⟨⟨q', hq'⟩, hmin⟩ := hI (d + 1) q
  constructor
  · refine ⟨q', ?_⟩
    show scanAll (scanStep (cleanSt d q) '{') (I ++ ['}']) = cleanSt d q'
    rw [scanStep_clean_open, scanAll_append, hq']
    show scanAll (scanStep (cleanSt (d + 1) q') '}') [] = cleanSt d q'
    rw [scanStep_clean_close, scanAll_nil]
    show cleanSt (d + 1 - 1) q' = cleanSt d q'
    congr 1
    omega
  · show d ≤ min (cleanSt d q).depth (scanMin (scanStep (cleanSt d q) '{') (I ++ ['}']))
    rw [scanStep_clean_open, scanMin_append, hq']
    have h1 : scanMin (cleanSt (d + 1) q') ['}'] = min (d + 1) d := by
      show min (cleanSt (d + 1) q').depth (scanMin (scanStep (cleanSt (d + 1) q') '}') []) = _
      rw [scanStep_clean_close]
      show min (d + 1) (cleanSt (d + 1 - 1) q').depth = _
      simp only [cleanSt]
      congr 1
      omega
    rw [h1]
    simp only [cleanSt] at hmin ⊢
    omega

/-! ## Assembly lemmas for consumed-region token decompositions -/

theorem valOK_lit (l tok rest : Str) (v : Json) (hl : l = tok ++ rest) (hne : tok ≠ [])
    (hlc : ∀ c ∈ tok, litChar c = true) (hv : v.isObjJson = false) : ValOK l v rest := by
  refine ⟨[.lit tok], ?_, ?_, ?_, ?_, ?_⟩
  · rw [flatToks_cons, flatToks_nil, List.append_nil]
    show l = JTok.chars (.lit tok) ++ rest
    rw [JTok.chars]
    exact hl
  · exact tokListOK_cons _ _ (TokOK.lit tok hne hlc) tokListOK_nil
  · rw [flatToks_cons, flatToks_nil, List.append_nil]
    show JTok.chars (.lit tok) ≠ []
    rw [JTok.chars]
    exact hne
  · rw [flatToks_cons, flatToks_nil, List.append_nil]
    show Neutral (JTok.chars (.lit tok))
    rw [JTok.chars]
    exact neutral_lit tok hlc
  · intro hobj
    rw [hv] at hobj
    cases hobj

theorem valOK_str (l b rest : Str) (v : Json) (hl : l = dquote :: (b ++ dquote :: rest))
    (hok : BodyOK b) (hv : v.isObjJson = false) : ValOK l v rest := by
  have hchars : JTok.chars (.strTok b) = dquote :: b ++ [dquote] := rfl
  refine ⟨[.strTok b], ?_, ?_, ?_, ?_, ?_⟩
  · rw [flatToks_cons, flatToks_nil, List.append_nil, hchars, hl]
    simp
  · exact tokListOK_cons _ _ (TokOK.strTok b hok) tokListOK_nil
  · rw [flatToks_cons, flatToks_nil, List.append_nil, hchars]
    simp
  · rw [flatToks_cons, flatToks_nil, List.append_nil, hchars]
    exact neutral_strTok b hok
  · intro hobj
    rw [hv] at hobj
    cases hobj

theorem valOK_empty_obj (l w rest : Str) (v : Json) (hl : l = '{' :: (w ++ '}' :: rest))
    (hw : ∀ c ∈ w, jsonWsChar c = true) : ValOK l v rest := by
  refine ⟨.punc '{' :: (wsToks w ++ [.punc '}']), ?_, ?_, ?_, ?_, ?_⟩
  · rw [flatToks_cons, flatToks_append, flatToks_wsToks, flatToks_cons, flatToks_nil,
      List.append_nil, hl]
    show '{' :: (w ++ '}' :: rest) = JTok.chars (.punc '{') ++ (w ++ JTok.chars (.punc '}')) ++ rest
    rw [JTok.chars, JTok.chars]
    simp
  · refine tokListOK_cons _ _ (TokOK.punc '{' (by decide)) ?_
    refine tokListOK_append _ _ (tokListOK_wsToks w hw) ?_
    exact tokListOK_cons _ _ (TokOK.punc '}' (by decide)) tokListOK_nil
  · rw [flatToks_cons]
    show JTok.chars (.punc '{') ++ _ ≠ []
    rw [JTok.chars]
    simp
  · rw [flatToks_cons, flatToks_append, flatToks_wsToks, flatToks_cons, flatToks_nil,
      List.append_nil]
    show Neutral (JTok.chars (.punc '{') ++ (w ++ JTok.chars (.punc '}')))
    rw [JTok.chars, JTok.chars]
    have : ('{' : Char) :: w ++ ['}'] = ['{'] ++ (w ++ ['}']) := by simp
    refine ?_
    show Neutral (['{'] ++ (w ++ ['}']))
    rw [← this]
    exact neutral_braces w (neutral_ws w hw)
  · intro _
    refine ⟨w, ?_, neutral_ws w hw⟩
    rw [flatToks_cons, flatToks_append, flatToks_wsToks, flatToks_cons, flatToks_nil,
      List.append_nil]
    show JTok.chars (.punc '{') ++ (w ++ JTok.chars (.punc '}')) = '{' :: w ++ ['}']
    rw [JTok.chars, JTok.chars]
    simp

theorem valOK_obj (l w Q rest : Str) (ts' : List JTok) (v : Json)
    (hl : l = '{' :: (w ++ (flatToks ts' ++ rest))) (hw : ∀ c ∈ w, jsonWsChar c = true)
    (hts' : TokListOK ts') (hQ : flatToks ts' = Q ++ ['}']) (hQn : Neutral Q) :
    ValOK l v rest := by
  have hflat : flatToks (.punc '{' :: (wsToks w ++ ts')) = '{' :: (w ++ flatToks ts') := by
    rw [flatToks_cons, flatToks_append, flatToks_wsToks]
    show JTok.chars (.punc '{') ++ (w ++ flatToks ts') = _
    rw [JTok.chars]
    rfl
  have hshape : '{' :: (w ++ flatToks ts') = '{' :: (w ++ Q) ++ ['}'] := by
    rw [hQ]
    simp
  refine ⟨.punc '{' :: (wsToks w ++ ts'), ?_, ?_, ?_, ?_, ?_⟩
  · rw [hflat, hl]
    simp
  · refine tokListOK_cons _ _ (TokOK.punc '{' (by decide)) ?_
    exact tokListOK_append _ _ (tokListOK_wsToks w hw) hts'
  · rw [hflat]
    simp
  · rw [hflat, hshape]
    exact neutral_braces (w ++ Q) (neutral_append w Q (neutral_ws w hw) hQn)
  · intro _
    exact ⟨w ++ Q, by rw [hflat, hshape], neutral_append w Q (neutral_ws w hw) hQn⟩

theorem valOK_empty_arr (l w rest : Str) (v : Json) (hl : l = '[' :: (w ++ ']' :: rest))
    (hw : ∀ c ∈ w, jsonWsChar c = true) (hv : v.isObjJson = false) : ValOK l v rest := by
  have hflat : flatToks (.punc '[' :: (wsToks w ++ [.punc ']'])) = '[' :: (w ++ [']']) := by
    rw [flatToks_cons, flatToks_append, flatToks_wsToks, flatToks_cons, flatToks_nil,
      List.append_nil]
    show JTok.chars (.punc '[') ++ (w ++ JTok.chars (.punc ']')) = _
    rw [JTok.chars, JTok.chars]
    rfl
  refine ⟨.punc '[' :: (wsToks w ++ [.punc ']']), ?_, ?_, ?_, ?_, ?_⟩
  · rw [hflat, hl]
    simp
  · refine tokListOK_cons _ _ (TokOK.punc '[' (by decide)) ?_
    refine tokListOK_append _ _ (tokListOK_wsToks w hw) ?_
    exact tokListOK_cons _ _ (TokOK.punc ']' (by decide)) tokListOK_nil
  · rw [hflat]
    simp
  · rw [hflat]
    refine neutral_of_inert _ ?_
    intro c hc
    rcases List.mem_cons.mp hc with h | h
    · rw [h]; exact ⟨by decide, by decide, by decide, by decide⟩
    rcases List.mem_append.mp h with h | h
    · exact jsonWsChar_inert c (hw c h)
    · rcases List.mem_singleton.mp h with rfl
      exact ⟨by decide, by decide, by decide, by decide⟩
  · intro hobj
    rw [hv] at hobj
    cases hobj

theorem valOK_arr (l w rest : Str) (ts' : List JTok) (v : Json)
    (hl : l = '[' :: (w ++ (flatToks ts' ++ rest))) (hw : ∀ c ∈ w, jsonWsChar c = true)
    (hts' : TokListOK ts') (hneu : Neutral (flatToks ts')) (hv : v.isObjJson = false) :
    ValOK l v rest := by
  have hflat : flatToks (.punc '[' :: (wsToks w ++ ts')) = '[' :: (w ++ flatToks ts') := by
    rw [flatToks_cons, flatToks_append, flatToks_wsToks]
    show JTok.chars (.punc '[') ++ (w ++ flatToks ts') = _
    rw [JTok.chars]
    rfl
  refine ⟨.punc '[' :: (wsToks w ++ ts'), ?_, ?_, ?_, ?_, ?_⟩
  · rw [hflat, hl]
    simp
  · refine tokListOK_cons _ _ (TokOK.punc '[' (by decide)) ?_
    exact tokListOK_append _ _ (tokListOK_wsToks w hw) hts'
  · rw [hflat]
    simp
  · rw [hflat]
    show Neutral (['['] ++ (w ++ flatToks ts'))
    refine neutral_append _ _ (neutral_single '[' ⟨by decide, by decide, by decide, by decide⟩) ?_
    exact neutral_append _ _ (neutral_ws w hw) hneu
  · intro hobj
    rw [hv] at hobj
    cases hobj

theorem membOK_close (l b w1 w2 w3 rest : Str) (tv : List JTok)
    (hl : l = dquote :: (b ++ dquote :: (w1 ++ ':' :: (w2 ++ (flatToks tv ++ (w3 ++ '}' :: rest))))))
    (hok : BodyOK b) (hw1 : ∀ c ∈ w1, jsonWsChar c = true) (hw2 : ∀ c ∈ w2, jsonWsChar c = true)
    (hw3 : ∀ c ∈ w3, jsonWsChar c = true) (htv : TokListOK tv)
    (hneu : Neutral (flatToks tv)) : MembOK l rest := by
  refine ⟨.strTok b :: (wsToks w1 ++ .punc ':' :: (wsToks w2 ++ (tv ++ (wsToks w3 ++ [.punc '}'])))),
    (dquote :: b ++ [dquote]) ++ (w1 ++ ([':'] ++ (w2 ++ (flatToks tv ++ w3)))), ?_, ?_, ?_, ?_⟩
  · rw [hl]
    simp only [flatToks_cons, flatToks_append, flatToks_wsToks, flatToks_nil, List.append_nil,
      JTok.chars]
    simp
  · refine tokListOK_cons _ _ (TokOK.strTok b hok) ?_
    refine tokListOK_append _ _ (tokListOK_wsToks w1 hw1) ?_
    refine tokListOK_cons _ _ (TokOK.punc ':' (by decide)) ?_
    refine tokListOK_append _ _ (tokListOK_wsToks w2 hw2) ?_
    refine tokListOK_append _ _ htv ?_
    refine tokListOK_append _ _ (tokListOK_wsToks w3 hw3) ?_
    exact tokListOK_cons _ _ (TokOK.punc '}' (by decide)) tokListOK_nil
  · simp only [flatToks_cons, flatToks_append, flatToks_wsToks, flatToks_nil, List.append_nil,
      JTok.chars]
    simp
  · refine neutral_append _ _ (neutral_strTok b hok) ?_
    refine neutral_append _ _ (neutral_ws w1 hw1) ?_
    refine neutral_append _ _ (neutral_single ':' ⟨by decide, by decide, by decide, by decide⟩) ?_
    refine neutral_append _ _ (neutral_ws w2 hw2) ?_
    exact neutral_append _ _ hneu (neutral_ws w3 hw3)

theorem membOK_cont (l b w1 w2 w3 w4 rest : Str) (tv ts2 : List JTok) (Q2 : Str)
    (hl : l = dquote :: (b ++ dquote :: (w1 ++ ':' ::
      (w2 ++ (flatToks tv ++ (w3 ++ ',' :: (w4 ++ (flatToks ts2 ++ rest))))))))
    (hok : BodyOK b) (hw1 : ∀ c ∈ w1, jsonWsChar c = true) (hw2 : ∀ c ∈ w2, jsonWsChar c = true)
    (hw3 : ∀ c ∈ w3, jsonWsChar c = true) (hw4 : ∀ c ∈ w4, jsonWsChar c = true)
    (htv : TokListOK tv) (hneu : Neutral (flatToks tv)) (hts2 : TokListOK ts2)
    (hQ2 : flatToks ts2 = Q2 ++ ['}']) (hQ2n : Neutral Q2) : MembOK l rest := by
  refine ⟨.strTok b :: (wsToks w1 ++ .punc ':' ::
      (wsToks w2 ++ (tv ++ (wsToks w3 ++ .punc ',' :: (wsToks w4 ++ ts2))))),
    (dquote :: b ++ [dquote]) ++ (w1 ++ ([':'] ++ (w2 ++ (flatToks tv ++
      (w3 ++ ([','] ++ (w4 ++ Q2))))))), ?_, ?_, ?_, ?_⟩
  · rw [hl]
    simp only [flatToks_cons, flatToks_append, flatToks_wsToks, JTok.chars]
    simp
  · refine tokListOK_cons _ _ (TokOK.strTok b hok) ?_
    refine tokListOK_append _ _ (tokListOK_wsToks w1 hw1) ?_
    refine tokListOK_cons _ _ (TokOK.punc ':' (by decide)) ?_
    refine tokListOK_append _ _ (tokListOK_wsToks w2 hw2) ?_
    refine tokListOK_append _ _ htv ?_
    refine tokListOK_append _ _ (tokListOK_wsToks w3 hw3) ?_
    refine tokListOK_cons _ _ (TokOK.punc ',' (by decide)) ?_
    exact tokListOK_append _ _ (tokListOK_wsToks w4 hw4) hts2
  · simp only [flatToks_cons, flatToks_append, flatToks_wsToks, JTok.chars]
    rw [hQ2]
    simp
  · refine neutral_append _ _ (neutral_strTok b hok) ?_
    refine neutral_append _ _ (neutral_ws w1 hw1) ?_
    refine neutral_append _ _ (neutral_single ':' ⟨by decide, by decide, by decide, by decide⟩) ?_
    refine neutral_append _ _ (neutral_ws w2 hw2) ?_
    refine neutral_append _ _ hneu ?_
    refine neutral_append _ _ (neutral_ws w3 hw3) ?_
    refine neutral_append _ _ (neutral_single ',' ⟨by decide, by decide, by decide, by decide⟩) ?_
    exact neutral_append _ _ (neutral_ws w4 hw4) hQ2n

theorem elemOK_close (l w rest : Str) (tv : List JTok)
    (hl : l = flatToks tv ++ (w ++ ']' :: rest)) (hw : ∀ c ∈ w, jsonWsChar c = true)
    (htv : TokListOK tv) (hneu : Neutral (flatToks tv)) : ElemOK l rest := by
  refine ⟨tv ++ (wsToks w ++ [.punc ']']), ?_, ?_, ?_⟩
  · rw [hl]
    simp only [flatToks_append, flatToks_wsToks, flatToks_cons, flatToks_nil, List.append_nil,
      JTok.chars]
    simp
  · refine tokListOK_append _ _ htv ?_
    refine tokListOK_append _ _ (tokListOK_wsToks w hw) ?_
    exact tokListOK_cons _ _ (TokOK.punc ']' (by decide)) tokListOK_nil
  · simp only [flatToks_append, flatToks_wsToks, flatToks_cons, flatToks_nil, List.append_nil,
      JTok.chars]
    refine neutral_append _ _ hneu ?_
    refine neutral_append _ _ (neutral_ws w hw) ?_
    exact neutral_single ']' ⟨by decide, by decide, by decide, by decide⟩

theorem elemOK_cont (l w w2 rest : Str) (tv ts2 : List JTok)
    (hl : l = flatToks tv ++ (w ++ ',' :: (w2 ++ (flatToks ts2 ++ rest))))
    (hw : ∀ c ∈ w, jsonWsChar c = true) (hw2 : ∀ c ∈ w2, jsonWsChar c = true)
    (htv : TokListOK tv) (hneu : Neutral (flatToks tv)) (hts2 : TokListOK ts2)
    (hneu2 : Neutral (flatToks ts2)) : ElemOK l rest := by
  refine ⟨tv ++ (wsToks w ++ .punc ',' :: (wsToks w2 ++ ts2)), ?_, ?_, ?_⟩
  · rw [hl]
    simp only [flatToks_append, flatToks_wsToks, flatToks_cons, JTok.chars]
    simp
  · refine tokListOK_append _ _ htv ?_
    refine tokListOK_append _ _ (tokListOK_wsToks w hw) ?_
    refine tokListOK_cons _ _ (TokOK.punc ',' (by decide)) ?_
    exact tokListOK_append _ _ (tokListOK_wsToks w2 hw2) hts2
  · simp only [flatToks_append, flatToks_wsToks, flatToks_cons, JTok.chars]
    refine neutral_append _ _ hneu ?_
    refine neutral_append _ _ (neutral_ws w hw) ?_
    refine neutral_append _ _ (neutral_single ',' ⟨by decide, by decide, by decide, by decide⟩) ?_
    exact neutral_append _ _ (neutral_ws w2 hw2) hneu2

/-! ## The master decomposition of successful parses -/

theorem parseKw_decomp (tail : Str) (v : Json) (r : Str) (v' : Json) (rest : Str)
    (h : parseKw tail v r = some (v', rest)) : v' = v ∧ r = tail ++ rest := by
  rw [parseKw] at h
  by_cases hp : tail.isPrefixOf r
  · rw [if_pos hp] at h
    simp only [Option.some.injEq, Prod.mk.injEq] at h
    obtain ⟨t, ht⟩ := List.isPrefixOf_iff_prefix.mp hp
    refine ⟨h.1.symm, ?_⟩
    rw [← h.2, ← ht, List.drop_left]
  · rw [if_neg hp] at h
    exact absurd h (by simp)

/-- Token decomposition of every successful parse: a parsed value
occupies a well-formed, depth-neutral token region (brace-delimited
when the value is an object); member and element runs likewise. -/
theorem parse_master (f : Nat) :
    (∀ depth l v rest, parseValue f depth l = some (v, rest) → ValOK l v rest) ∧
    (∀ depth l acc v rest, parseMembers f depth l acc = some (v, rest) →
      MembOK l rest ∧ ∃ kvs, v = Json.obj kvs) ∧
    (∀ depth l acc v rest, parseElements f depth l acc = some (v, rest) →
      ElemOK l rest ∧ ∃ els, v = Json.arr els) := by
  induction f with
  | zero =>
    refine ⟨?_, ?_, ?_⟩
    · intro depth l v rest h
      exact absurd (show (none : Option (Json × Str)) = some (v, rest) from h) (by simp)
    · intro depth l acc v rest h
      exact absurd (show (none : Option (Json × Str)) = some (v, rest) from h) (by simp)
    · intro depth l acc v rest h
      exact absurd (show (none : Option (Json × Str)) = some (v, rest) from h) (by simp)
  | succ f ih =>
    obtain ⟨ihV, ihM, ihE⟩ := ih
    refine ⟨?_, ?_, ?_⟩
    · intro depth l v rest h
      rcases l with _ | ⟨c, r⟩
      · exact absurd (show (none : Option (Json × Str)) = some (v, rest) from h) (by simp)
      have h' : (if c = dquote then (parseStringBody r).map (fun p => (Json.str p.1, p.2))
          else if c = '{' then objCase (fun d l2 => parseMembers f d l2 []) depth (skipWs r)
          else if c = '[' then arrCase (fun d l2 => parseElements f d l2 []) depth (skipWs r)
          else if c = 't' then parseKw ("rue".toList) (Json.bool true) r
          else if c = 'f' then parseKw ("alse".toList) (Json.bool false) r
          else if c = 'n' then parseKw ("ull".toList) Json.null r
          else if c.isDigit || c = '-' then
            (parseNumber (c :: r)).map (fun p => (Json.num p.1, p.2))
          else none) = some (v, rest) := h
      by_cases hq : c = dquote
      · rw [if_pos hq] at h'
        rw [Option.map_eq_some'] at h'
        obtain ⟨⟨s1, r1⟩, hp, hf⟩ := h'
        simp only [Prod.mk.injEq] at hf
        obtain ⟨b, hb, hok⟩ := parseStringBody_decomp r s1 r1 hp
        subst hq
        refine valOK_str _ b rest v ?_ hok ?_
        · rw [hb, hf.2]
        · rw [← hf.1]
          rfl
      · by_cases hbr : c = '{'
        · rw [if_neg hq, if_pos hbr] at h'
          rcases depth with _ | d
          · exact absurd (show (none : Option (Json × Str)) = some (v, rest) from h') (by simp)
          rcases hsw : skipWs r with _ | ⟨c2, r2⟩
          · rw [hsw] at h'
            exact absurd (show (none : Option (Json × Str)) = some (v, rest) from h') (by simp)
          rw [hsw] at h'
          have h2 : (if c2 = '}' then some (Json.obj [], r2)
              else parseMembers f d (c2 :: r2) []) = some (v, rest) := h'
          obtain ⟨w, hw, hwws⟩ := skipWs_decomp r
          rw [hsw] at hw
          subst hbr
          by_cases hc2 : c2 = '}'
          · rw [if_pos hc2] at h2
            simp only [Option.some.injEq, Prod.mk.injEq] at h2
            refine valOK_empty_obj _ w rest v ?_ hwws
            rw [hw, hc2, h2.2]
          · rw [if_neg hc2] at h2
            obtain ⟨hM, hkv⟩ := ihM d (c2 :: r2) [] v rest h2
            obtain ⟨ts2, Q, hl2, hts2, hQ, hQn⟩ := hM
            refine valOK_obj _ w Q rest ts2 v ?_ hwws hts2 hQ hQn
            rw [hw, hl2]
        · by_cases hbk : c = '['
          · rw [if_neg hq, if_neg hbr, if_pos hbk] at h'
            rcases depth with _ | d
            · exact absurd (show (none : Option (Json × Str)) = some (v, rest) from h')
                (by simp)
            rcases hsw : skipWs r with _ | ⟨c2, r2⟩
            · rw [hsw] at h'
              exact absurd (show (none : Option (Json × Str)) = some (v, rest) from h')
                (by simp)
            rw [hsw] at h'
            have h2 : (if c2 = ']' then some (Json.arr [], r2)
                else parseElements f d (c2 :: r2) []) = some (v, rest) := h'
            obtain ⟨w, hw, hwws⟩ := skipWs_decomp r
            rw [hsw] at hw
            subst hbk
            by_cases hc2 : c2 = ']'
            · rw [if_pos hc2] at h2
              simp only [Option.some.injEq, Prod.mk.injEq] at h2
              refine valOK_empty_arr _ w rest v ?_ hwws ?_
              · rw [hw, hc2, h2.2]
              · rw [← h2.1]
                rfl
            · rw [if_neg hc2] at h2
              obtain ⟨hE, hels⟩ := ihE d (c2 :: r2) [] v rest h2
              obtain ⟨ts2, hl2, hts2, hneu2⟩ := hE
              refine valOK_arr _ w rest ts2 v ?_ hwws hts2 hneu2 ?_
              · rw [hw, hl2]
              · obtain ⟨els, hv⟩ := hels
                rw [hv]
                rfl
          · by_cases ht : c = 't'
            · rw [if_neg hq, if_neg hbr, if_neg hbk, if_pos ht] at h'
              obtain ⟨hv, hr⟩ := parseKw_decomp _ _ _ _ _ h'
              subst ht
              refine valOK_lit _ ("true".toList) rest v ?_ (by simp) (by decide) ?_
              · rw [hr]
                rfl
              · rw [hv]
                rfl
            · by_cases hfa : c = 'f'
              · rw [if_neg hq, if_neg hbr, if_neg hbk, if_neg ht, if_pos hfa] at h'
                obtain ⟨hv, hr⟩ := parseKw_decomp _ _ _ _ _ h'
                subst hfa
                refine valOK_lit _ ("false".toList) rest v ?_ (by simp) (by decide) ?_
                · rw [hr]
                  rfl
                · rw [hv]
                  rfl
              · by_cases hn : c = 'n'
                · rw [if_neg hq, if_neg hbr, if_neg hbk, if_neg ht, if_neg hfa, if_pos hn] at h'
                  obtain ⟨hv, hr⟩ := parseKw_decomp _ _ _ _ _ h'
                  subst hn
                  refine valOK_lit _ ("null".toList) rest v ?_ (by simp) (by decide) ?_
                  · rw [hr]
                    rfl
                  · rw [hv]
                    rfl
                · by_cases hnum : (c.isDigit || c = '-') = true
                  · rw [if_neg hq, if_neg hbr, if_neg hbk, if_neg ht, if_neg hfa, if_neg hn,
                      if_pos hnum] at h'
                    rw [Option.map_eq_some'] at h'
                    obtain ⟨⟨tok, r1⟩, hp, hf⟩ := h'
                    simp only [Prod.mk.injEq] at hf
                    obtain ⟨hl, hne, hlc⟩ := parseNumber_decomp (c :: r) tok r1 hp
                    refine valOK_lit _ tok rest v ?_ hne hlc ?_
                    · rw [← hf.2, ← hl]
                    · rw [← hf.1]
                      rfl
                  · rw [if_neg hq, if_neg hbr, if_neg hbk, if_neg ht, if_neg hfa, if_neg hn,
                      if_neg hnum] at h'
                    exact absurd h' (by simp)
    · intro depth l acc v rest h
      rcases l with _ | ⟨c, r⟩
      · exact absurd (show (none : Option (Json × Str)) = some (v, rest) from h) (by simp)
      have h' : (if c = dquote then
          (parseStringBody r).bind (fun pk =>
            membColon (parseValue f depth)
              (membComma (fun l2 a2 => parseMembers f depth l2 a2) acc pk.1)
              (skipWs pk.2))
          else none) = some (v, rest) := h
      by_cases hq : c = dquote
      · rw [if_pos hq] at h'
        rw [Option.bind_eq_some] at h'
        obtain ⟨⟨key, r1⟩, hps, hmc⟩ := h'
        replace hmc : membColon (parseValue f depth)
            (membComma (fun l2 a2 => parseMembers f depth l2 a2) acc key)
            (skipWs r1) = some (v, rest) := hmc
        obtain ⟨b, hb, hokb⟩ := parseStringBody_decomp r key r1 hps
        obtain ⟨w1, hw1, hw1s⟩ := skipWs_decomp r1
        rcases hsw1 : skipWs r1 with _ | ⟨c2, r2⟩
        · rw [hsw1] at hmc
          exact absurd (show (none : Option (Json × Str)) = some (v, rest) from hmc) (by simp)
        rw [hsw1] at hmc hw1
        have hmc2 : (if c2 = ':' then
            (parseValue f depth (skipWs r2)).bind (fun pr =>
              membComma (fun l2 a2 => parseMembers f depth l2 a2) acc key pr.1 (skipWs pr.2))
            else none) = some (v, rest) := hmc
        by_cases hcolon : c2 = ':'
        · rw [if_pos hcolon] at hmc2
          rw [Option.bind_eq_some] at hmc2
          obtain ⟨⟨v1, r3⟩, hpv, hcm⟩ := hmc2
          replace hcm : membComma (fun l2 a2 => parseMembers f depth l2 a2) acc key v1
              (skipWs r3) = some (v, rest) := hcm
          obtain ⟨tv, hltv, htv, htvne, htvneu, _⟩ := ihV depth (skipWs r2) v1 r3 hpv
          obtain ⟨w2, hw2, hw2s⟩ := skipWs_decomp r2
          obtain ⟨w3, hw3, hw3s⟩ := skipWs_decomp r3
          rcases hsw3 : skipWs r3 with _ | ⟨c3, r4⟩
          · rw [hsw3] at hcm
            exact absurd (show (none : Option (Json × Str)) = some (v, rest) from hcm) (by simp)
          rw [hsw3] at hcm hw3
          have hcm2 : (if c3 = ',' then parseMembers f depth (skipWs r4) (insertKV acc key v1)
              else if c3 = '}' then some (Json.obj (insertKV acc key v1), r4)
              else none) = some (v, rest) := hcm
          by_cases hcomma : c3 = ','
          · rw [if_pos hcomma] at hcm2
            obtain ⟨hM2, hobj2⟩ := ihM depth (skipWs r4) (insertKV acc key v1) v rest hcm2
            obtain ⟨ts2, Q2, hl2, hts2, hQ2, hQ2n⟩ := hM2
            obtain ⟨w4, hw4, hw4s⟩ := skipWs_decomp r4
            refine ⟨?_, hobj2⟩
            subst hq
            refine membOK_cont _ b w1 w2 w3 w4 rest tv ts2 Q2 ?_ hokb hw1s hw2s hw3s hw4s htv
              htvneu hts2 hQ2 hQ2n
            rw [hb, hw1, hcolon, hw2, hltv, hw3, hcomma, hw4, hl2]
          · by_cases hbrc : c3 = '}'
            · rw [if_neg hcomma, if_pos hbrc] at hcm2
              simp only [Option.some.injEq, Prod.mk.injEq] at hcm2
              refine ⟨?_, ⟨insertKV acc key v1, hcm2.1.symm⟩⟩
              subst hq
              refine membOK_close _ b w1 w2 w3 rest tv ?_ hokb hw1s hw2s hw3s htv htvneu
              rw [hb, hw1, hcolon, hw2, hltv, hw3, hbrc, hcm2.2]
            · rw [if_neg hcomma, if_neg hbrc] at hcm2
              exact absurd hcm2 (by simp)
        · rw [if_neg hcolon] at hmc2
          exact absurd hmc2 (by simp)
      · rw [if_neg hq] at h'
        exact absurd h' (by simp)
    · intro depth l acc v rest h
      have h' : (parseValue f depth l).bind (fun pr =>
          elemComma (fun l2 a2 => parseElements f depth l2 a2) acc pr.1 (skipWs pr.2)) =
          some (v, rest) := h
      rw [Option.bind_eq_some] at h'
      obtain ⟨⟨v1, r1⟩, hpv, hec⟩ := h'
      replace hec : elemComma (fun l2 a2 => parseElements f depth l2 a2) acc v1
          (skipWs r1) = some (v, rest) := hec
      obtain ⟨tv, hltv, htv, htvne, htvneu, _⟩ := ihV depth l v1 r1 hpv
      obtain ⟨w, hw, hws⟩ := skipWs_decomp r1
      rcases hsw : skipWs r1 with _ | ⟨c3, r2⟩
      · rw [hsw] at hec
        exact absurd (show (none : Option (Json × Str)) = some (v, rest) from hec) (by simp)
      rw [hsw] at hec hw
      have hec2 : (if c3 = ',' then parseElements f depth (skipWs r2) (acc ++ [v1])
          else if c3 = ']' then some (Json.arr (acc ++ [v1]), r2)
          else none) = some (v, rest) := hec
      by_cases hcomma : c3 = ','
      · rw [if_pos hcomma] at hec2
        obtain ⟨hE2, harr⟩ := ihE depth (skipWs r2) (acc ++ [v1]) v rest hec2
        obtain ⟨ts2, hl2, hts2, hneu2⟩ := hE2
        obtain ⟨w2, hw2, hw2s⟩ := skipWs_decomp r2
        refine ⟨?_, harr⟩
        refine elemOK_cont _ w w2 rest tv ts2 ?_ hws hw2s htv htvneu hts2 hneu2
        rw [hltv, hw, hcomma, hw2, hl2]
      · by_cases hbk : c3 = ']'
        · rw [if_neg hcomma, if_pos hbk] at hec2
          simp only [Option.some.injEq, Prod.mk.injEq] at hec2
          refine ⟨?_, ⟨acc ++ [v1], hec2.1.symm⟩⟩
          refine elemOK_close _ w rest tv ?_ hws htv htvneu
          rw [hltv, hw, hbk, hec2.2]
        · rw [if_neg hcomma, if_neg hbk] at hec2
          exact absurd hec2 (by simp)

/-! ## Substring search characterization -/

theorem isPrefixOf_exists (p l : Str) (h : p.isPrefixOf l = true) : ∃ t, l = p ++ t := by
  obtain ⟨t, ht⟩ := List.isPrefixOf_iff_prefix.mp h
  exact ⟨t, ht.symm⟩

theorem isPrefixOf_of_append (p t : Str) : p.isPrefixOf (p ++ t) = true := by
  rw [List.isPrefixOf_iff_prefix]
  exact ⟨t, rfl⟩

theorem findSub_prefix (l pat t : Str) (hne : pat ≠ []) (h : l = pat ++ t) :
    findSub l pat = some 0 := by
  rcases pat with _ | ⟨p, ps⟩
  · exact absurd rfl hne
  · subst h
    show findSub (p :: (ps ++ t)) (p :: ps) = some 0
    have hp : (p :: ps).isPrefixOf (p :: (ps ++ t)) = true := isPrefixOf_of_append (p :: ps) t
    rw [findSub, if_pos hp]

theorem findSub_decomp (pat : Str) : ∀ (l : Str) (k : Nat), findSub l pat = some k →
    ∃ A B, l = A ++ (pat ++ B) ∧ A.length = k := by
  intro l
  induction l with
  | nil =>
    intro k h
    rw [findSub] at h
    by_cases he : pat.isEmpty = true
    · rw [if_pos he] at h
      simp only [Option.some.injEq] at h
      refine ⟨[], [], ?_, h⟩
      rw [List.isEmpty_iff.mp he]
      rfl
    · rw [if_neg he] at h
      exact absurd h (by simp)
  | cons c r ih =>
    intro k h
    rw [findSub] at h
    by_cases hp : pat.isPrefixOf (c :: r) = true
    · rw [if_pos hp] at h
      simp only [Option.some.injEq] at h
      obtain ⟨t, ht⟩ := isPrefixOf_exists pat (c :: r) hp
      exact ⟨[], t, by rw [ht]; rfl, by simp [← h]⟩
    · rw [if_neg hp] at h
      rw [Option.map_eq_some'] at h
      obtain ⟨k0, hk0, hk⟩ := h
      obtain ⟨A, B, hl, hA⟩ := ih k0 hk0
      refine ⟨c :: A, B, by rw [hl]; rfl, ?_⟩
      rw [List.length_cons, hA, hk]

theorem findSub_append_shift (pat : Str) (hne : pat ≠ []) :
    ∀ (P Q : Str), (∀ P2, P2 ≠ [] → P2 <:+ P → ¬ pat.isPrefixOf (P2 ++ Q) = true) →
      findSub (P ++ Q) pat = (findSub Q pat).map (· + P.length) := by
  intro P
  induction P with
  | nil =>
    intro Q hP
    show findSub Q pat = (findSub Q pat).map (· + 0)
    cases findSub Q pat with
    | none => rfl
    | some k => simp
  | cons c P2 ih =>
    intro Q hP
    show findSub (c :: (P2 ++ Q)) pat = _
    have hnp : ¬ pat.isPrefixOf (c :: (P2 ++ Q)) = true :=
      hP (c :: P2) (by simp) (List.suffix_refl _)
    rw [findSub]
    rw [if_neg hnp]
    rw [ih Q (fun X hX hsuf => hP X hX (hsuf.trans (List.suffix_cons c P2)))]
    cases findSub Q pat with
    | none => rfl
    | some k =>
      show some (k + P2.length + 1) = some (k + (P2.length + 1))
      rw [Nat.add_assoc]

theorem fence_prefix_exists (X : Str) (h : ("\n```".toList).isPrefixOf X = true) :
    ∃ t, X = '\n' :: btick :: btick :: btick :: t := by
  obtain ⟨t, ht⟩ := isPrefixOf_exists _ X h
  exact ⟨t, ht⟩

theorem rustWs_classes (c : Char) (h : rustWsChar c = true) :
    ¬ c = btick ∧ ¬ c = '{' ∧ ¬ c = '}' ∧ ¬ c = dquote ∧ ¬ c = bslash := by
  refine ⟨?_, ?_, ?_, ?_, ?_⟩ <;> intro hc <;> rw [hc] at h <;> exact absurd h (by decide)

theorem findSub_fence_loc (S wr : Str) (hS : noFence S)
    (hwr : ∀ c ∈ wr, rustWsChar c = true) :
    findSub (S ++ (wr ++ '\n' :: fence3)) ("\n```".toList) =
      some (S.length + wr.length) := by
  have hne : ("\n```".toList) ≠ [] := by decide
  have hwrstep : findSub (wr ++ '\n' :: fence3) ("\n```".toList) =
      (findSub ('\n' :: fence3) ("\n```".toList)).map (· + wr.length) := by
    refine findSub_append_shift _ hne wr ('\n' :: fence3) ?_
    intro P2 hP2 hsuf hpre
    obtain ⟨t, ht⟩ := fence_prefix_exists _ hpre
    rcases P2 with _ | ⟨c1, P3⟩
    · exact hP2 rfl
    have hc1 : c1 = '\n' := by
      have := congrArg List.head? ht
      simpa using this
    have hmem : ∀ x ∈ c1 :: P3, rustWsChar x = true := by
      intro x hx
      exact hwr x (hsuf.subset hx)
    rcases P3 with _ | ⟨c2, P4⟩
    · have hnb : ('\n' : Char) = btick := by
        have := congrArg (fun l => List.head? (l.drop 1)) ht
        simpa using this
      exact absurd hnb (by decide)
    · have hc2 : c2 = btick := by
        have := congrArg (fun l => List.head? (l.drop 1)) ht
        simpa using this
      have := (rustWs_classes c2 (hmem c2 (by simp))).1
      exact this hc2
  have hbase : findSub ('\n' :: fence3) ("\n```".toList) = some 0 := by
    refine findSub_prefix _ _ [] hne ?_
    rfl
  have hSstep : findSub (S ++ (wr ++ '\n' :: fence3)) ("\n```".toList) =
      (findSub (wr ++ '\n' :: fence3) ("\n```".toList)).map (· + S.length) := by
    refine findSub_append_shift _ hne S (wr ++ '\n' :: fence3) ?_
    intro P2 hP2 hsuf hpre
    obtain ⟨t, ht⟩ := fence_prefix_exists _ hpre
    rcases P2 with _ | ⟨c1, P3⟩
    · exact hP2 rfl
    have hc1 : c1 = '\n' := by
      have := congrArg List.head? ht
      simpa using this
    obtain ⟨pre, hpre2⟩ := hsuf
    rcases P3 with _ | ⟨c2, P4⟩
    · -- the newline is the last char of S; next char comes from wr or the closing fence
      have ht2 : wr ++ '\n' :: fence3 = btick :: btick :: btick :: t := by
        have := congrArg (fun l => l.drop 1) ht
        simpa using this
      rcases wr with _ | ⟨w1, wr2⟩
      · have hnb : ('\n' : Char) = btick := by
          have := congrArg List.head? ht2
          simpa using this
        exact absurd hnb (by decide)
      · have hw1 : w1 = btick := by
          have := congrArg List.head? ht2
          simpa using this
        have := (rustWs_classes w1 (hwr w1 (by simp))).1
        exact this hw1
    · have hc2 : c2 = btick := by
        have := congrArg (fun l => List.head? (l.drop 1)) ht
        simpa using this
      subst hc1 hc2
      exact hS pre (P4 ++ []) (by rw [← hpre2]; simp)
  rw [hSstep, hwrstep, hbase]
  show some (0 + wr.length + S.length) = some (S.length + wr.length)
  rw [Nat.zero_add, Nat.add_comm]

/-! ## Structure of successfully parsed trimmed text -/

theorem jsonFromStr_decomp (T : Str) (v : Json) (h : jsonFromStr T = some v) :
    ∃ wl ts wr, T = wl ++ (flatToks ts ++ wr) ∧ (∀ c ∈ wl, jsonWsChar c = true) ∧
      (∀ c ∈ wr, jsonWsChar c = true) ∧ TokListOK ts ∧ flatToks ts ≠ [] ∧
      Neutral (flatToks ts) ∧
      (v.isObjJson = true → ∃ I, flatToks ts = '{' :: I ++ ['}'] ∧ Neutral I) := by
  have h2 : (match parseValue (T.length + 1) 128 (skipWs T) with
      | some (v1, rest) => if (skipWs rest).isEmpty then some v1 else none
      | none => none) = some v := h
  rcases hpv : parseValue (T.length + 1) 128 (skipWs T) with _ | ⟨v1, rest⟩
  · rw [hpv] at h2
    exact absurd h2 (by simp)
  · rw [hpv] at h2
    have h3 : (if (skipWs rest).isEmpty then some v1 else none) = some v := h2
    by_cases hemp : (skipWs rest).isEmpty = true
    · rw [if_pos hemp] at h3
      simp only [Option.some.injEq] at h3
      subst h3
      have hrest : skipWs rest = [] := List.isEmpty_iff.mp hemp
      have hwr := skipWs_eq_nil_ws rest hrest
      obtain ⟨ts, hts, hok, hne, hneu, hobj⟩ := (parse_master (T.length + 1)).1 128 (skipWs T)
        v1 rest hpv
      obtain ⟨wl, hwl, hwls⟩ := skipWs_decomp T
      exact ⟨wl, ts, rest, by rw [hwl, hts], hwls, hwr, hok, hne, hneu, hobj⟩
    · rw [if_neg hemp] at h3
      exact absurd h3 (by simp)

theorem trimmed_structure (s : Str) (v : Json) (h : jsonFromStr (rustTrim s) = some v) :
    ∃ ts, rustTrim s = flatToks ts ∧ TokListOK ts ∧ flatToks ts ≠ [] ∧
      Neutral (flatToks ts) ∧
      (v.isObjJson = true → ∃ I, flatToks ts = '{' :: I ++ ['}'] ∧ Neutral I) := by
  obtain ⟨wl, ts, wr, hT, hwl, hwr, hok, hne, hneu, hobj⟩ := jsonFromStr_decomp (rustTrim s) v h
  have hwlnil : wl = [] := by
    rcases wl with _ | ⟨c, wl2⟩
    · rfl
    · exfalso
      have hhead : (rustTrim s).head? = some c := by
        rw [hT]
        rfl
      have h1 := rustTrim_head s c hhead
      have h2 := jsonWs_rustWs c (hwl c (by simp))
      rw [h1] at h2
      cases h2
  have hwrnil : wr = [] := by
    rcases List.eq_nil_or_concat wr with hnil | ⟨wr2, c, hcat⟩
    · exact hnil
    · exfalso
      have hcat2 : wr = wr2 ++ [c] := by rw [hcat, List.concat_eq_append]
      have hlast : (rustTrim s).getLast? = some c := by
        rw [hT, hcat2]
        rw [show wl ++ (flatToks ts ++ (wr2 ++ [c])) = (wl ++ (flatToks ts ++ wr2)) ++ [c] by
          simp]
        exact List.getLast?_concat _
      have h1 := rustTrim_last s c hlast
      have h2 := jsonWs_rustWs c (hwr c (by rw [hcat2]; simp))
      rw [h1] at h2
      cases h2
  subst hwlnil hwrnil
  refine ⟨ts, ?_, hok, hne, hneu, hobj⟩
  rw [hT]
  simp

/-! ## Stage 1 on fenced input fails at the opening backtick -/

theorem parseValue_btick (f depth : Nat) (r : Str) :
    parseValue (f + 1) depth (btick :: r) = none := rfl

theorem jsonFromStr_btick (r : Str) : jsonFromStr (btick :: r) = none := rfl

theorem head?_cons_decomp (l : Str) (c : Char) (h : l.head? = some c) : ∃ t, l = c :: t := by
  cases l with
  | nil => cases h
  | cons x r =>
    simp only [List.head?, Option.some.injEq] at h
    exact ⟨r, by rw [h]⟩

theorem casings_head (m : Str) (hm : m ∈ jsonMarkerCasings) : m.head? = some btick := by
  fin_cases hm <;> decide

theorem fence3_eq : fence3 = [btick, btick, btick] := by decide

theorem fenceWrap_getLast (m s : Str) : (fenceWrap m s).getLast? = some btick := by
  rw [show fenceWrap m s = (m ++ '\n' :: (s ++ ['\n', btick, btick])) ++ [btick] by
    rw [fenceWrap, fence3_eq]
    simp]
  exact List.getLast?_concat _

theorem rustTrim_fenceWrap (m m2 s : Str) (hm : m = btick :: m2) :
    rustTrim (fenceWrap m s) = fenceWrap m s := by
  rw [rustTrim]
  rw [rustTrimStart_of_head (fenceWrap m s) btick ?_ (by decide)]
  · exact rustTrimEnd_of_last _ btick (fenceWrap_getLast m s) (by decide)
  · rw [fenceWrap, hm]
    rfl

/-! ## Quote parity of parsed text and failure of mid-string slices -/

theorem oqFold_count_inert (l : Str) (h : ∀ c ∈ l, ¬ c = bslash ∧ ¬ c = dquote) :
    ∀ e, (oqFold e l).1 = 0 := by
  induction l with
  | nil => intro e; rfl
  | cons c r ih =>
    intro e
    obtain ⟨hb, hq⟩ := h c (List.mem_cons_self c r)
    rw [oqFold_cons_other e c r hb hq]
    exact ih (fun x hx => h x (List.mem_cons_of_mem c hx)) false

theorem oqFold_count_append (A B : Str) (e : Bool) :
    (oqFold e (A ++ B)).1 = (oqFold e A).1 + (oqFold (oqFold e A).2 B).1 := by
  rw [oqFold_append]

theorem jsonFromStr_even (Y : Str) (v : Json) (h : jsonFromStr Y = some v) :
    ∃ n, (oqFold false Y).1 = 2 * n := by
  obtain ⟨wl, ts, wr, hY, hwl, hwr, hok, _, _, _⟩ := jsonFromStr_decomp Y v h
  obtain ⟨n, hn⟩ := oqFold_flatToks ts hok
  refine ⟨n, ?_⟩
  rw [hY, oqFold_count_append]
  have hwl0 : oqFold false wl = (0, false) := by
    refine oqFold_inert wl ?_
    intro c hc
    have := ws_chars_class c (hwl c hc)
    exact ⟨this.2.1, this.2.2⟩
  rw [hwl0]
  rw [oqFold_count_append, hn]
  have hwr0 : (oqFold (2 * n, false).2 wr).1 = 0 := by
    refine oqFold_count_inert wr ?_ _
    intro c hc
    have := ws_chars_class c (hwr c hc)
    exact ⟨this.2.1, this.2.2⟩
  rw [hwr0]
  simp

/-- The stage-2 slice taken from inside a string body of valid JSON
text: locating the closing fence, slicing, trimming, and parsing — the
parse fails on the odd unescaped-quote count. -/
theorem embedded_after (b3 wr : Str) (ts2 : List JTok) (hok : BodyOK b3)
    (hts2 : TokListOK ts2) (hwr : ∀ c ∈ wr, rustWsChar c = true) :
    ∃ S, rustTrimStart (b3 ++ (dquote :: (flatToks ts2 ++ (wr ++ '\n' :: fence3)))) =
        S ++ (wr ++ '\n' :: fence3) ∧
      findSub (S ++ (wr ++ '\n' :: fence3)) ("\n```".toList) = some (S.length + wr.length) ∧
      (S ++ (wr ++ '\n' :: fence3)).take (S.length + wr.length) = S ++ wr ∧
      jsonFromStr (rustTrim (S ++ wr)) = none := by
  refine ⟨rustTrimStart b3 ++ ([dquote] ++ flatToks ts2), ?_, ?_, ?_, ?_⟩
  · rw [rustTrimStart_append_head b3 _ ?_]
    · simp
    · intro c hc
      simp only [List.head?, Option.some.injEq] at hc
      rw [← hc]
      decide
  · refine findSub_fence_loc _ wr ?_ hwr
    have hb3 : noFence (rustTrimStart b3) := by
      refine noFence_of_no_newline _ ?_
      intro c hc
      obtain ⟨w0, hw0, _⟩ := rustTrimStart_decomp b3
      have hcb : c ∈ b3 := by
        rw [hw0]
        exact List.mem_append.mpr (Or.inr hc)
      exact (bodyOK_chars b3 hok c hcb).1
    refine noFence_append _ _ hb3 ?_ ?_
    · refine noFence_append _ _ (noFence_short [dquote] (by simp)) (flatToks_noFence ts2 hts2).1 ?_
      exact (flatToks_noFence ts2 hts2).2
    · intro c hc
      simp only [List.cons_append, List.head?, Option.some.injEq] at hc
      rw [← hc]
      decide
  · rw [show (rustTrimStart b3 ++ ([dquote] ++ flatToks ts2)) ++ (wr ++ '\n' :: fence3) =
      ((rustTrimStart b3 ++ ([dquote] ++ flatToks ts2)) ++ wr) ++ '\n' :: fence3 by simp]
    rw [show (rustTrimStart b3 ++ ([dquote] ++ flatToks ts2)).length + wr.length =
      ((rustTrimStart b3 ++ ([dquote] ++ flatToks ts2)) ++ wr).length by simp; omega]
    exact List.take_left _ _
  · rcases hj : jsonFromStr (rustTrim ((rustTrimStart b3 ++ ([dquote] ++ flatToks ts2)) ++ wr))
      with _ | v
    · rfl
    · exfalso
      obtain ⟨n, hn⟩ := jsonFromStr_even _ v hj
      have hb3ok : BodyOK (rustTrimStart b3) := bodyOK_trimStart b3 hok
      obtain ⟨k, hk⟩ := oqFold_flatToks ts2 hts2
      have hcountS : (oqFold false (rustTrimStart b3 ++ ([dquote] ++ flatToks ts2))).1 =
          2 * k + 1 := by
        rw [oqFold_count_append, oqFold_body _ hb3ok]
        show 0 + (oqFold false (dquote :: flatToks ts2)).1 = 2 * k + 1
        rw [oqFold_cons_dquote, hk]
        simp
      have hcountSwr : (oqFold false ((rustTrimStart b3 ++ ([dquote] ++ flatToks ts2)) ++ wr)).1 =
          2 * k + 1 := by
        rw [oqFold_count_append, hcountS]
        have : (oqFold (oqFold false (rustTrimStart b3 ++ ([dquote] ++ flatToks ts2))).2 wr).1 =
            0 := by
          refine oqFold_count_inert wr ?_ _
          intro c hc
          have := rustWs_classes c (hwr c hc)
          exact ⟨this.2.2.2.2, this.2.2.2.1⟩
        rw [this]
      obtain ⟨wl2, wr2, hsplit, hwl2, hwr2⟩ :=
        rustTrim_decomp ((rustTrimStart b3 ++ ([dquote] ++ flatToks ts2)) ++ wr)
      have hwl2c : ∀ c ∈ wl2, ¬ c = bslash ∧ ¬ c = dquote := by
        intro c hc
        have := rustWs_classes c (hwl2 c hc)
        exact ⟨this.2.2.2.2, this.2.2.2.1⟩
      have hwr2c : ∀ c ∈ wr2, ¬ c = bslash ∧ ¬ c = dquote := by
        intro c hc
        have := rustWs_classes c (hwr2 c hc)
        exact ⟨this.2.2.2.2, this.2.2.2.1⟩
      have hsplit2 := congrArg (fun l => (oqFold false l).1) hsplit
      simp only at hsplit2
      rw [hcountSwr] at hsplit2
      rw [show wl2 ++ rustTrim ((rustTrimStart b3 ++ ([dquote] ++ flatToks ts2)) ++ wr) ++ wr2 =
        wl2 ++ (rustTrim ((rustTrimStart b3 ++ ([dquote] ++ flatToks ts2)) ++ wr) ++ wr2) by
          simp] at hsplit2
      rw [oqFold_count_append] at hsplit2
      rw [oqFold_inert wl2 hwl2c] at hsplit2
      rw [oqFold_count_append] at hsplit2
      rw [hn] at hsplit2
      rw [oqFold_count_inert wr2 hwr2c] at hsplit2
      omega

/-! ## Locating a backtick occurrence inside tokenized text -/

theorem mem_split (c : Char) : ∀ (U V A B : Str), U ++ V = A ++ c :: B →
    (∃ B1, U = A ++ c :: B1 ∧ B = B1 ++ V) ∨ (∃ A2, A = U ++ A2 ∧ V = A2 ++ c :: B) := by
  intro U
  induction U with
  | nil =>
    intro V A B h
    right
    exact ⟨A, (List.nil_append A).symm, by simpa using h⟩
  | cons u U2 ih =>
    intro V A B h
    cases A with
    | nil =>
      left
      simp only [List.nil_append, List.cons_append, List.cons.injEq] at h ⊢
      exact ⟨U2, ⟨h.1, rfl⟩, h.2.symm⟩
    | cons a A2 =>
      simp only [List.cons_append, List.cons.injEq] at h
      rcases ih V A2 B h.2 with ⟨B1, hU, hB⟩ | ⟨A3, hA, hV⟩
      · left
        refine ⟨B1, ?_, hB⟩
        rw [h.1, hU]
        rfl
      · right
        refine ⟨A3, ?_, hV⟩
        rw [h.1, hA]
        rfl

theorem tick_split (ts : List JTok) (h : TokListOK ts) : ∀ A B,
    flatToks ts = A ++ btick :: B →
    ∃ b2 ts2, B = b2 ++ (dquote :: flatToks ts2) ∧ BodyOK (btick :: b2) ∧ TokListOK ts2 := by
  induction ts with
  | nil =>
    intro A B heq
    rw [flatToks_nil] at heq
    exact absurd (congrArg List.length heq) (by simp; omega)
  | cons t ts1 ih =>
    intro A B heq
    rw [flatToks_cons] at heq
    have htok := h t (List.mem_cons_self t ts1)
    have hts1 : TokListOK ts1 := fun x hx => h x (List.mem_cons_of_mem t hx)
    rcases mem_split btick t.chars (flatToks ts1) A B heq with ⟨B1, hU, hB⟩ | ⟨A2, hA, hV⟩
    · cases htok with
      | ws cs hne hws =>
        exfalso
        have : btick ∈ cs := by
          have : btick ∈ JTok.chars (.ws cs) := by
            rw [hU]
            simp
          simpa [JTok.chars] using this
        exact (ws_chars_class btick (hws btick this)).1 rfl
      | punc c hp =>
        exfalso
        have : btick ∈ JTok.chars (.punc c) := by
          rw [hU]
          simp
        simp only [JTok.chars, List.mem_singleton] at this
        exact (punc_chars_class c hp).1 this.symm
      | lit cs hne hlit =>
        exfalso
        have : btick ∈ cs := by
          have : btick ∈ JTok.chars (.lit cs) := by
            rw [hU]
            simp
          simpa [JTok.chars] using this
        exact (lit_chars_class btick (hlit btick this)).1 rfl
      | strTok b hbody =>
        have hU2 : dquote :: (b ++ [dquote]) = A ++ btick :: B1 := by
          rw [← hU]
          rfl
        cases A with
        | nil =>
          exfalso
          simp only [List.nil_append, List.cons.injEq] at hU2
          exact absurd hU2.1.symm (by decide)
        | cons a A2 =>
          simp only [List.cons_append, List.cons.injEq] at hU2
          rcases mem_split btick b [dquote] A2 B1 hU2.2 with ⟨B2, hb, hB1⟩ | ⟨A3, hA2, hdq⟩
          · refine ⟨B2, ts1, ?_, bodyOK_suffix_tick b hbody A2 B2 hb, hts1⟩
            rw [hB, hB1]
            simp
          · exfalso
            have hlen := congrArg List.length hdq
            simp only [List.length_singleton, List.length_append, List.length_cons] at hlen
            have hA3 : A3 = [] := by
              cases A3 with
              | nil => rfl
              | cons x r => simp at hlen; omega
            subst hA3
            simp only [List.nil_append, List.cons.injEq] at hdq
            exact absurd hdq.1 (by decide)
    · obtain ⟨b2, ts2, hBx, hbody2, hts2⟩ := ih hts1 A2 B hV
      exact ⟨b2, ts2, hBx, hbody2, hts2⟩

theorem align_peel (mk6 : Str) (hmk : ∀ c ∈ mk6, ¬ c = dquote) :
    ∀ (Bf b2 Z : Str), mk6 ++ Bf = b2 ++ Z → Z.head? = some dquote →
    ∃ b3, b2 = mk6 ++ b3 ∧ Bf = b3 ++ Z := by
  induction mk6 with
  | nil =>
    intro Bf b2 Z h hZ
    exact ⟨b2, rfl, by simpa using h⟩
  | cons c mk2 ih =>
    intro Bf b2 Z h hZ
    cases b2 with
    | nil =>
      exfalso
      simp only [List.nil_append] at h
      have : Z.head? = some c := by
        rw [← h]
        rfl
      rw [hZ] at this
      exact hmk c (List.mem_cons_self c mk2) (Option.some_inj.mp this).symm
    | cons x b2x =>
      simp only [List.cons_append, List.cons.injEq] at h
      obtain ⟨b3, hb2, hBf⟩ := ih (fun y hy => hmk y (List.mem_cons_of_mem c hy)) Bf b2x Z h.2 hZ
      refine ⟨b3, ?_, hBf⟩
      rw [← h.1]
      show c :: b2x = c :: (mk2 ++ b3)
      rw [hb2]

/-! ## Shapes of the fence markers and their casings -/

theorem marker_shape (mk : Str) (h : mk = markerLower ∨ mk = markerUpper) :
    (∃ mk4, mk = btick :: btick :: btick :: mk4 ∧ mk4.length = 4 ∧
      (∀ c ∈ mk4, litChar c = true)) ∧
    (∀ c ∈ mk, ¬ c = dquote ∧ ¬ c = bslash ∧ ¬ c = '\n' ∧ ¬ c = '{') ∧ mk.length = 7 := by
  rcases h with h | h
  · subst h
    exact ⟨⟨"json".toList, by decide, by decide, by decide⟩, by decide, by decide⟩
  · subst h
    exact ⟨⟨"JSON".toList, by decide, by decide, by decide⟩, by decide, by decide⟩

theorem casing_shape (m : Str) (hm : m ∈ jsonMarkerCasings) :
    m = btick :: btick :: btick :: m.drop 3 ∧ (m.drop 3).length = 4 ∧
      (∀ c ∈ m.drop 3, litChar c = true) ∧ (∀ c ∈ m, ¬ c = '{' ∧ ¬ c = '\n') := by
  fin_cases hm <;> exact ⟨by decide, by decide, by decide, by decide⟩

/-- Any occurrence of a fence marker in fenced valid-JSON text is
either the leading marker itself or lies inside a string body of the
JSON. -/
theorem marker_occurrence (m mk wl0 wr0 : Str) (ts : List JTok) (s : Str)
    (hm : m ∈ jsonMarkerCasings) (hmk : mk = markerLower ∨ mk = markerUpper)
    (hwl0 : ∀ c ∈ wl0, rustWsChar c = true) (hwr0 : ∀ c ∈ wr0, rustWsChar c = true)
    (hts : TokListOK ts) (hs : s = wl0 ++ (flatToks ts ++ wr0)) :
    ∀ A B, fenceWrap m s = A ++ (mk ++ B) →
      (A = [] ∧ m = mk) ∨
      (∃ b3 ts2, BodyOK b3 ∧ TokListOK ts2 ∧
        B = b3 ++ (dquote :: (flatToks ts2 ++ (wr0 ++ '\n' :: fence3)))) := by
  intro A B hocc
  obtain ⟨⟨mk4, hmkshape, hmk4len, hmk4lit⟩, hmkcl, hmklen⟩ := marker_shape mk hmk
  obtain ⟨hm3, hmL4, hmlit, hmcl⟩ := casing_shape m hm
  have hW2 : m ++ ('\n' :: (s ++ '\n' :: fence3)) =
      A ++ btick :: (btick :: btick :: (mk4 ++ B)) := by
    have hW : m ++ ('\n' :: (s ++ '\n' :: fence3)) = A ++ (mk ++ B) := hocc
    rw [hW, hmkshape]
    rfl
  rcases mem_split btick m ('\n' :: (s ++ '\n' :: fence3)) A
      (btick :: btick :: (mk4 ++ B)) hW2 with ⟨B1, hmA, hB1⟩ | ⟨A2, hA, hV⟩
  · rcases A with _ | ⟨a1, A1⟩
    · left
      refine ⟨rfl, ?_⟩
      have hB1e : B1 = btick :: btick :: m.drop 3 := by
        have h2 : btick :: btick :: btick :: m.drop 3 = btick :: B1 := by
          rw [← hm3]
          simpa using hmA
        simp only [List.cons.injEq] at h2
        exact h2.2.symm
      rw [hB1e] at hB1
      have h3 : mk4 ++ B = m.drop 3 ++ ('\n' :: (s ++ '\n' :: fence3)) := by
        have := hB1
        simp only [List.cons_append, List.cons.injEq] at this
        exact this.2.2
      have h4 := List.append_inj h3 (hmk4len.trans hmL4.symm)
      rw [hm3, hmkshape, ← h4.1]
    · exfalso
      rcases A1 with _ | ⟨a2, A2⟩
      · have h2 : btick :: btick :: btick :: m.drop 3 = a1 :: btick :: B1 := by
          rw [← hm3]
          simpa using hmA
        simp only [List.cons.injEq] at h2
        have hB1e : B1 = btick :: m.drop 3 := h2.2.2.symm
        rw [hB1e] at hB1
        have h3 : btick :: (mk4 ++ B) = m.drop 3 ++ ('\n' :: (s ++ '\n' :: fence3)) := by
          have := hB1
          simp only [List.cons_append, List.cons.injEq] at this
          exact this.2
        rcases hdrop : m.drop 3 with _ | ⟨lh, Lt⟩
        · rw [hdrop] at hmL4
          simp at hmL4
        · rw [hdrop] at h3
          have hlh : lh = btick := by
            have := congrArg List.head? h3
            simpa using this.symm
          have hmem : lh ∈ m.drop 3 := by
            rw [hdrop]
            exact List.mem_cons_self lh Lt
          exact (lit_chars_class lh (hmlit lh hmem)).1 hlh
      · rcases A2 with _ | ⟨a3, A3⟩
        · have h2 : btick :: btick :: btick :: m.drop 3 = a1 :: a2 :: btick :: B1 := by
            rw [← hm3]
            simpa using hmA
          simp only [List.cons.injEq] at h2
          have hB1e : B1 = m.drop 3 := h2.2.2.2.symm
          rw [hB1e] at hB1
          rcases hdrop : m.drop 3 with _ | ⟨lh, Lt⟩
          · rw [hdrop] at hmL4
            simp at hmL4
          · rw [hdrop] at hB1
            have hlh : lh = btick := by
              have := congrArg List.head? hB1
              simpa using this.symm
            have hmem : lh ∈ m.drop 3 := by
              rw [hdrop]
              exact List.mem_cons_self lh Lt
            exact (lit_chars_class lh (hmlit lh hmem)).1 hlh
        · have h2 : btick :: btick :: btick :: m.drop 3 =
              a1 :: a2 :: a3 :: (A3 ++ btick :: B1) := by
            rw [← hm3]
            simpa using hmA
          simp only [List.cons.injEq] at h2
          have hmem : btick ∈ m.drop 3 := by
            rw [h2.2.2.2]
            simp
          exact (lit_chars_class btick (hmlit btick hmem)).1 rfl
  · rcases A2 with _ | ⟨x, A3⟩
    · exfalso
      simp only [List.nil_append, List.cons.injEq] at hV
      exact absurd hV.1 (by decide)
    · simp only [List.cons_append, List.cons.injEq] at hV
      have hV1 : s ++ '\n' :: fence3 = A3 ++ btick :: (btick :: btick :: (mk4 ++ B)) := hV.2
      rcases mem_split btick s ('\n' :: fence3) A3 (btick :: btick :: (mk4 ++ B)) hV1 with
        ⟨B4, hsA, hB4⟩ | ⟨A4, hA3, hV2⟩
      · have hs2 : wl0 ++ (flatToks ts ++ wr0) = A3 ++ btick :: B4 := by
          rw [← hs]
          exact hsA
        rcases mem_split btick wl0 (flatToks ts ++ wr0) A3 B4 hs2 with
          ⟨Bx, hwlx, _⟩ | ⟨A5, hA3b, hV3⟩
        · exfalso
          have : btick ∈ wl0 := by
            rw [hwlx]
            simp
          exact (rustWs_classes btick (hwl0 btick this)).1 rfl
        · rcases mem_split btick (flatToks ts) wr0 A5 B4 hV3 with
            ⟨B5, hTs, hB5⟩ | ⟨A6, _, hV4⟩
          · obtain ⟨b2, ts2, hB5x, hbody, hts2⟩ := tick_split ts hts A5 B5 hTs
            have hal : (btick :: btick :: mk4) ++ B =
                b2 ++ (dquote :: (flatToks ts2 ++ (wr0 ++ '\n' :: fence3))) := by
              have h6 : btick :: btick :: (mk4 ++ B) = B4 ++ '\n' :: fence3 := hB4
              rw [hB5, hB5x] at h6
              have h7 : (btick :: btick :: mk4) ++ B =
                  ((b2 ++ (dquote :: flatToks ts2)) ++ wr0) ++ '\n' :: fence3 := by
                rw [← h6]
                rfl
              rw [h7]
              simp
            have hnodq : ∀ c ∈ btick :: btick :: mk4, ¬ c = dquote := by
              intro c hc
              have hcm : c ∈ mk := by
                rw [hmkshape]
                rcases List.mem_cons.mp hc with h | h
                · rw [h]; simp
                rcases List.mem_cons.mp h with h | h
                · rw [h]; simp
                · simp [h]
              exact (hmkcl c hcm).1
            obtain ⟨b3, hb2, hBf⟩ := align_peel (btick :: btick :: mk4) hnodq B b2 _ hal rfl
            right
            refine ⟨b3, ts2, ?_, hts2, hBf⟩
            have hbody2 : BodyOK ((btick :: btick :: btick :: mk4) ++ b3) := by
              rw [hb2] at hbody
              exact hbody
            refine bodyOK_peelList (btick :: btick :: btick :: mk4) ?_ b3 hbody2
            intro c hc
            have hcm : c ∈ mk := by
              rw [hmkshape]
              exact hc
            exact (hmkcl c hcm).2.1
          · exfalso
            have : btick ∈ wr0 := by
              rw [hV4]
              simp
            exact (rustWs_classes btick (hwr0 btick this)).1 rfl
      · exfalso
        rw [fence3_eq] at hV2
        have hlen := congrArg List.length hV2
        simp only [List.length_cons, List.length_append, List.length_nil] at hlen
        omega

/-! ## Unfoldings of the extractor stages -/

theorem drop_two (A mkk B : Str) : (A ++ (mkk ++ B)).drop (A.length + mkk.length) = B := by
  rw [← List.append_assoc, ← List.length_append]
  exact List.drop_left _ _

theorem take_two (S wr X : Str) :
    (S ++ (wr ++ X)).take (S.length + wr.length) = S ++ wr := by
  rw [show S ++ (wr ++ X) = (S ++ wr) ++ X by simp]
  rw [show S.length + wr.length = (S ++ wr).length by simp]
  exact List.take_left _ _

theorem tryMarker_unfold (trimmed marker : Str) :
    tryMarker trimmed marker = (match findSub trimmed marker with
      | none => none
      | some start =>
        jsonFromStr (match findSub (rustTrimStart (trimmed.drop (start + marker.length)))
            ("\n```".toList) with
          | some e => rustTrim ((rustTrimStart (trimmed.drop (start + marker.length))).take e)
          | none =>
            match findSub (rustTrimStart (trimmed.drop (start + marker.length)))
                ("```".toList) with
            | some e => rustTrim ((rustTrimStart (trimmed.drop (start + marker.length))).take e)
            | none => rustTrim (rustTrimStart (trimmed.drop (start + marker.length))))) := by
  rw [tryMarker.eq_def]

theorem tryMarkers_some (trimmed : Str) (v : Json)
    (h : tryMarker trimmed markerLower = some v) : tryMarkers trimmed = some v := by
  rw [tryMarkers.eq_def, h]

theorem tryMarkers_fallthrough (trimmed : Str) (h : tryMarker trimmed markerLower = none) :
    tryMarkers trimmed = tryMarker trimmed markerUpper := by
  rw [tryMarkers.eq_def, h]

theorem extract_raw (s : Str) (v : Json) (h : jsonFromStr (rustTrim s) = some v) :
    extract_analysis_json s = some v := by
  rw [extract_analysis_json.eq_def]
  simp only [h]

theorem extract_stage2 (s : Str) (v : Json) (h1 : jsonFromStr (rustTrim s) = none)
    (h2 : tryMarkers (rustTrim s) = some v) : extract_analysis_json s = some v := by
  rw [extract_analysis_json.eq_def]
  simp only [h1, h2]

theorem extract_stage3 (s : Str) (h1 : jsonFromStr (rustTrim s) = none)
    (h2 : tryMarkers (rustTrim s) = none) :
    extract_analysis_json s = braceFallback (rustTrim s) := by
  rw [extract_analysis_json.eq_def]
  simp only [h1, h2]

theorem braceFallback_some (trimmed : Str) (k : Nat) (T : Str) (v : Json)
    (hfind : findSub trimmed ("\x7b".toList) = some k)
    (hscan : braceScanLoop initScan (charIndicesFrom 0 (trimmed.drop k)) = (0, byteLen T))
    (hpos : 0 < byteLen T)
    (htake : takeBytes (trimmed.drop k) (byteLen T) = some T)
    (hjson : jsonFromStr T = some v) :
    braceFallback trimmed = some v := by
  rw [braceFallback.eq_def, hfind]
  simp only [hscan, htake, hjson, hpos, and_true, true_and, if_true, eq_self_iff_true]

theorem tryMarker_fenced (m s mk wl0 wr0 : Str) (ts : List JTok) (v : Json)
    (hm : m ∈ jsonMarkerCasings) (hmk : mk = markerLower ∨ mk = markerUpper)
    (hwl0 : ∀ c ∈ wl0, rustWsChar c = true) (hwr0 : ∀ c ∈ wr0, rustWsChar c = true)
    (hts : TokListOK ts) (hs : s = wl0 ++ (flatToks ts ++ wr0))
    (hT : rustTrim s = flatToks ts) (hjson : jsonFromStr (rustTrim s) = some v) :
    (m = mk → tryMarker (fenceWrap m s) mk = some v) ∧
    (m ≠ mk → tryMarker (fenceWrap m s) mk = none) := by
  have hTne : flatToks ts ≠ [] := by
    intro hnil
    rw [← hT] at hnil
    rw [hnil] at hjson
    exact absurd (show (none : Option Json) = some v from hjson) (by simp)
  obtain ⟨c0, rest0, hc0⟩ : ∃ c0 rest0, flatToks ts = c0 :: rest0 := by
    rcases hft : flatToks ts with _ | ⟨c0, rest0⟩
    · exact absurd hft hTne
    · exact ⟨c0, rest0, rfl⟩
  have hc0ws : rustWsChar c0 = false := by
    refine rustTrim_head s c0 ?_
    rw [hT, hc0]
    rfl
  obtain ⟨Tpre, clast, hTcat⟩ : ∃ Tpre clast, flatToks ts = Tpre ++ [clast] := by
    rcases List.eq_nil_or_concat (flatToks ts) with hnil | ⟨T2, c2, hcat⟩
    · exact absurd hnil hTne
    · exact ⟨T2, c2, by rw [hcat, List.concat_eq_append]⟩
  have hclws : rustWsChar clast = false := by
    refine rustTrim_last s clast ?_
    rw [hT, hTcat]
    exact List.getLast?_concat _
  have hafter : rustTrimStart ('\n' :: (s ++ '\n' :: fence3)) =
      flatToks ts ++ (wr0 ++ '\n' :: fence3) := by
    rw [hs]
    rw [show ('\n' :: ((wl0 ++ (flatToks ts ++ wr0)) ++ '\n' :: fence3)) =
      ('\n' :: wl0) ++ (flatToks ts ++ (wr0 ++ '\n' :: fence3)) by simp]
    rw [rustTrimStart_append_ws ('\n' :: wl0) _ ?_]
    · refine rustTrimStart_of_head _ c0 ?_ hc0ws
      rw [hc0]
      rfl
    · intro c hc
      rcases List.mem_cons.mp hc with h | h
      · rw [h]; decide
      · exact hwl0 c h
  have htr : rustTrim (flatToks ts ++ wr0) = flatToks ts := by
    rw [rustTrim]
    rw [rustTrimStart_of_head _ c0 (by rw [hc0]; rfl) hc0ws]
    rw [rustTrimEnd_append_ws _ _ hwr0]
    refine rustTrimEnd_of_last _ clast ?_ hclws
    rw [hTcat]
    exact List.getLast?_concat _
  constructor
  · intro hEq
    have hmk7 : mk.length = 7 := (marker_shape mk hmk).2.2
    have hmkne : mk ≠ [] := by
      intro hx
      rw [hx] at hmk7
      cases hmk7
    have hfind : findSub (fenceWrap m s) mk = some 0 := by
      refine findSub_prefix _ _ ('\n' :: (s ++ '\n' :: fence3)) hmkne ?_
      rw [← hEq]
      rfl
    rw [tryMarker_unfold, hfind]
    have hdrop : (fenceWrap m s).drop (0 + mk.length) = '\n' :: (s ++ '\n' :: fence3) := by
      rw [Nat.zero_add, ← hEq]
      exact List.drop_left m _
    simp only [hdrop]
    rw [hafter]
    rw [findSub_fence_loc (flatToks ts) wr0 (flatToks_noFence ts hts).1 hwr0]
    simp only [take_two]
    rw [htr, ← hT]
    exact hjson
  · intro hne
    rcases hfind : findSub (fenceWrap m s) mk with _ | k
    · rw [tryMarker_unfold, hfind]
    · obtain ⟨A, B, hWsplit, hAlen⟩ := findSub_decomp mk _ k hfind
      rcases marker_occurrence m mk wl0 wr0 ts s hm hmk hwl0 hwr0 hts hs A B hWsplit with
        ⟨_, hmeq⟩ | ⟨b3, ts2, hb3, hts2, hB⟩
      · exact absurd hmeq hne
      · rw [tryMarker_unfold, hfind]
        have hdropB : (fenceWrap m s).drop (k + mk.length) = B := by
          rw [hWsplit, ← hAlen]
          exact drop_two A mk B
        simp only [hdropB]
        rw [hB]
        obtain ⟨S, hafter2, hfind2, htake2, hfail2⟩ := embedded_after b3 wr0 ts2 hb3 hts2 hwr0
        rw [hafter2, hfind2]
        simp only [htake2]
        exact hfail2

/-! ## Stage 3: the brace scan over fenced input -/

theorem byteLen_append (A B : Str) : byteLen (A ++ B) = byteLen A + byteLen B := by
  simp [byteLen]

theorem charIndicesFrom_append (A : Str) : ∀ (base : Nat) (B : Str),
    charIndicesFrom base (A ++ B) =
      charIndicesFrom base A ++ charIndicesFrom (base + byteLen A) B := by
  induction A with
  | nil =>
    intro base B
    simp [charIndicesFrom, byteLen]
  | cons c A2 ih =>
    intro base B
    show (base, c) :: charIndicesFrom (base + utf8Len c) (A2 ++ B) = _
    rw [ih (base + utf8Len c) B]
    show (base, c) :: (charIndicesFrom (base + utf8Len c) A2 ++
      charIndicesFrom (base + utf8Len c + byteLen A2) B) = _
    rw [byteLen_cons]
    rw [show base + (utf8Len c + byteLen A2) = base + utf8Len c + byteLen A2 by omega]
    rfl

theorem single_prefix (c : Char) (X : Str) (h : ([c] : Str).isPrefixOf X = true) :
    X.head? = some c := by
  obtain ⟨t, ht⟩ := isPrefixOf_exists [c] X h
  rw [ht]
  rfl

theorem braceScan_no_break (L : Str) : ∀ (st : ScanSt) (base : Nat) (tail : List (Nat × Char)),
    (∀ A c B, L = A ++ c :: B →
      ¬((!(scanAll st A).escape) = true ∧ (!(scanAll st A).inString) = true ∧ c = '}' ∧
        (scanAll st A).depth - 1 = 0)) →
    braceScanLoop st (charIndicesFrom base L ++ tail) =
      braceScanLoop (scanAll st L) tail := by
  induction L with
  | nil =>
    intro st base tail hnb
    rfl
  | cons c L2 ih =>
    intro st base tail hnb
    have hno : ¬((!st.escape) = true ∧ (!st.inString) = true ∧ c = '}' ∧ st.depth - 1 = 0) :=
      hnb [] c L2 rfl
    show (if (!st.escape) = true ∧ (!st.inString) = true ∧ c = '}' ∧ st.depth - 1 = 0
        then ((0 : Int), base + utf8Len c)
        else braceScanLoop (scanStep st c) (charIndicesFrom (base + utf8Len c) L2 ++ tail)) =
      braceScanLoop (scanAll st (c :: L2)) tail
    rw [if_neg hno]
    rw [scanAll_cons]
    refine ih (scanStep st c) (base + utf8Len c) tail ?_
    intro A x B hsplit
    exact hnb (c :: A) x B (by rw [hsplit]; rfl)

theorem no_break_open (I : Str) (hneu : Neutral I) :
    ∀ A c B, ('{' :: I) = A ++ c :: B →
      ¬((!(scanAll initScan A).escape) = true ∧ (!(scanAll initScan A).inString) = true ∧
        c = '}' ∧ (scanAll initScan A).depth - 1 = 0) := by
  intro A c B hsplit hcond
  obtain ⟨hesc, hins, hcc, hdep⟩ := hcond
  cases A with
  | nil =>
    simp only [List.nil_append, List.cons.injEq] at hsplit
    rw [hcc] at hsplit
    exact absurd hsplit.1 (by decide)
  | cons a A2 =>
    simp only [List.cons_append, List.cons.injEq] at hsplit
    obtain ⟨ha, hI⟩ := hsplit
    have hstep : scanAll initScan (a :: A2) = scanAll (cleanSt 1 (Char.ofNat 0)) A2 := by
      rw [scanAll_cons, ← ha]
      have h0 : scanStep initScan '{' = cleanSt 1 (Char.ofNat 0) := by
        have h1 : initScan = cleanSt 0 (Char.ofNat 0) := rfl
        rw [h1, scanStep_clean_open]
        norm_num
      rw [h0]
    rw [hstep] at hesc hins hdep
    rcases hv : scanAll (cleanSt 1 (Char.ofNat 0)) A2 with ⟨d, istr, esc, q⟩
    rw [hv] at hesc hins hdep
    simp only [Bool.not_eq_true'] at hesc hins
    have hd1 : d = 1 := by
      simp only at hdep
      omega
    obtain ⟨⟨q2, hq2⟩, hmin⟩ := hneu 1 (Char.ofNat 0)
    rw [hI, scanMin_append, hv] at hmin
    subst hesc hins hd1 hcc
    have h2 : scanMin (cleanSt 1 q) ('}' :: B) ≤ 0 := by
      show min (cleanSt 1 q).depth (scanMin (scanStep (cleanSt 1 q) '}') B) ≤ 0
      rw [scanStep_clean_close]
      have h3 := scanMin_le_depth (cleanSt (1 - 1) q) B
      simp only [cleanSt] at h3 ⊢
      omega
    have h4 : (1 : Int) ≤ scanMin (⟨1, false, false, q⟩ : ScanSt) ('}' :: B) :=
      le_trans hmin (min_le_right _ _)
    have h5 : scanMin (⟨1, false, false, q⟩ : ScanSt) ('}' :: B) =
        scanMin (cleanSt 1 q) ('}' :: B) := rfl
    rw [h5] at h4
    omega

theorem braceFallback_fenced (m s wl0 wr0 I : Str) (ts : List JTok) (v : Json)
    (hm : m ∈ jsonMarkerCasings)
    (hwl0 : ∀ c ∈ wl0, rustWsChar c = true) (hwr0 : ∀ c ∈ wr0, rustWsChar c = true)
    (hts : TokListOK ts) (hs : s = wl0 ++ (flatToks ts ++ wr0))
    (hTI : flatToks ts = '{' :: I ++ ['}']) (hIneu : Neutral I)
    (hT : rustTrim s = flatToks ts) (hjson : jsonFromStr (rustTrim s) = some v) :
    braceFallback (fenceWrap m s) = some v := by
  have hmcl := (casing_shape m hm).2.2.2
  have hW : fenceWrap m s =
      (m ++ '\n' :: wl0) ++ (flatToks ts ++ (wr0 ++ '\n' :: fence3)) := by
    rw [fenceWrap, hs]
    simp
  have hfindT : findSub (flatToks ts ++ (wr0 ++ '\n' :: fence3)) ("\x7b".toList) = some 0 := by
    refine findSub_prefix _ _ ((I ++ ['}']) ++ (wr0 ++ '\n' :: fence3)) (by decide) ?_
    rw [hTI]
    simp
  have hfind : findSub (fenceWrap m s) ("\x7b".toList) = some ((m ++ '\n' :: wl0).length) := by
    rw [hW]
    rw [findSub_append_shift _ (by decide) _ _ ?_]
    · rw [hfindT]
      simp
    · intro P2 hP2 hsuf hpre
      rcases P2 with _ | ⟨c1, P3⟩
      · exact hP2 rfl
      have hc1 : c1 = '{' := by
        have := single_prefix '{' _ hpre
        simpa using this
      have hmem : c1 ∈ m ++ '\n' :: wl0 := hsuf.subset (List.mem_cons_self c1 P3)
      rcases List.mem_append.mp hmem with h | h
      · exact (hmcl c1 h).1 hc1
      rcases List.mem_cons.mp h with h | h
      · rw [h] at hc1
        exact absurd hc1 (by decide)
      · exact (rustWs_classes c1 (hwl0 c1 h)).2.1 hc1
  have hdrop : (fenceWrap m s).drop ((m ++ '\n' :: wl0).length) =
      flatToks ts ++ (wr0 ++ '\n' :: fence3) := by
    rw [hW]
    exact List.drop_left _ _
  have hTsplit : flatToks ts ++ (wr0 ++ '\n' :: fence3) =
      ('{' :: I) ++ ('}' :: (wr0 ++ '\n' :: fence3)) := by
    rw [hTI]
    simp
  obtain ⟨⟨q2, hq2⟩, _⟩ := hIneu 1 (Char.ofNat 0)
  have hscanAll : scanAll initScan ('{' :: I) = cleanSt 1 q2 := by
    rw [scanAll_cons]
    have h0 : scanStep initScan '{' = cleanSt 1 (Char.ofNat 0) := by
      have h1 : initScan = cleanSt 0 (Char.ofNat 0) := rfl
      rw [h1, scanStep_clean_open]
      norm_num
    rw [h0, hq2]
  have hscan : braceScanLoop initScan
      (charIndicesFrom 0 (flatToks ts ++ (wr0 ++ '\n' :: fence3))) =
      (0, byteLen (flatToks ts)) := by
    rw [hTsplit, charIndicesFrom_append, braceScan_no_break ('{' :: I) initScan 0 _
      (no_break_open I hIneu), hscanAll]
    show braceScanLoop (cleanSt 1 q2)
      ((0 + byteLen ('{' :: I), '}') :: charIndicesFrom (0 + byteLen ('{' :: I) + utf8Len '}')
        (wr0 ++ '\n' :: fence3)) = _
    show (if (!(cleanSt 1 q2).escape) = true ∧ (!(cleanSt 1 q2).inString) = true ∧
        ('}' : Char) = '}' ∧ (cleanSt 1 q2).depth - 1 = 0
      then ((0 : Int), 0 + byteLen ('{' :: I) + utf8Len '}')
      else braceScanLoop (scanStep (cleanSt 1 q2) '}')
        (charIndicesFrom (0 + byteLen ('{' :: I) + utf8Len '}') (wr0 ++ '\n' :: fence3))) = _
    rw [if_pos ⟨rfl, rfl, rfl, by norm_num [cleanSt]⟩]
    have hbl : byteLen (flatToks ts) = byteLen ('{' :: I) + utf8Len '}' := by
      rw [hTI]
      rw [show ('{' :: I ++ ['}'] : Str) = ('{' :: I) ++ ['}'] by simp]
      rw [byteLen_append]
      simp [byteLen]
    rw [hbl]
    congr 1
    omega
  have hpos : 0 < byteLen (flatToks ts) := by
    rcases hft : flatToks ts with _ | ⟨c0, r0⟩
    · rw [hft] at hTI
      exact absurd (congrArg List.length hTI) (by simp)
    · rw [byteLen_cons]
      have := utf8Len_pos c0
      omega
  have htake : takeBytes (flatToks ts ++ (wr0 ++ '\n' :: fence3)) (byteLen (flatToks ts)) =
      some (flatToks ts) := by
    have hb := takeBytes_boundary (flatToks ts ++ (wr0 ++ '\n' :: fence3)) (flatToks ts).length
    rw [List.take_left] at hb
    exact hb
  refine braceFallback_some (fenceWrap m s) ((m ++ '\n' :: wl0).length) (flatToks ts) v
    hfind ?_ hpos ?_ ?_
  · rw [hdrop]
    exact hscan
  · rw [hdrop]
    exact htake
  · rw [← hT]
    exact hjson

/-! ## C6: fenced wrapping is transparent to the extractor -/

/-- Claim C6: for every text whose trimmed form parses as a JSON object,
`extract_analysis_json` yields that same JSON value on the raw text and on
the text wrapped in a fenced code block introduced by the marker
```` ```json ````, for every one of the 16 casings of that marker. -/
theorem c6_fenced_equals_raw (s : Str) (v : Json)
    (hjson : jsonFromStr (rustTrim s) = some v) (hobj : v.isObjJson = true) :
    extract_analysis_json s = some v ∧
      ∀ m ∈ jsonMarkerCasings, extract_analysis_json (fenceWrap m s) = some v := by
  refine ⟨extract_raw s v hjson, ?_⟩
  intro m hm
  obtain ⟨ts, hT, hts, hTne, hTneu, hobjI⟩ := trimmed_structure s v hjson
  obtain ⟨I, hTI, hIneu⟩ := hobjI hobj
  obtain ⟨wl0, wr0, hsdecomp, hwl0, hwr0⟩ := rustTrim_decomp s
  have hs : s = wl0 ++ (flatToks ts ++ wr0) := by
    rw [← hT, ← List.append_assoc]
    exact hsdecomp
  obtain ⟨m2, hm2⟩ := head?_cons_decomp m btick (casings_head m hm)
  have htrimW : rustTrim (fenceWrap m s) = fenceWrap m s := rustTrim_fenceWrap m m2 s hm2
  have hstage1 : jsonFromStr (rustTrim (fenceWrap m s)) = none := by
    rw [htrimW]
    rw [show fenceWrap m s = btick :: (m2 ++ ('\n' :: (s ++ '\n' :: fence3))) by
      rw [fenceWrap, hm2]
      rfl]
    exact jsonFromStr_btick _
  have hlow := tryMarker_fenced m s markerLower wl0 wr0 ts v hm (Or.inl rfl)
    hwl0 hwr0 hts hs hT hjson
  have hup := tryMarker_fenced m s markerUpper wl0 wr0 ts v hm (Or.inr rfl)
    hwl0 hwr0 hts hs hT hjson
  by_cases hmL : m = markerLower
  · refine extract_stage2 _ v hstage1 ?_
    rw [htrimW]
    exact tryMarkers_some _ v (hlow.1 hmL)
  · by_cases hmU : m = markerUpper
    · refine extract_stage2 _ v hstage1 ?_
      rw [htrimW]
      rw [tryMarkers_fallthrough _ (hlow.2 hmL)]
      exact hup.1 hmU
    · have hmk : tryMarkers (fenceWrap m s) = none := by
        rw [tryMarkers_fallthrough _ (hlow.2 hmL)]
        exact hup.2 hmU
      rw [extract_stage3 _ hstage1 (by rw [htrimW]; exact hmk), htrimW]
      exact braceFallback_fenced m s wl0 wr0 I ts v hm hwl0 hwr0 hts hs hTI hIneu hT hjson

/-- Witness for C6: the concrete object text `{"ok":true}` extracts to the
same value raw and wrapped under the mixed casing ```` ```jSoN ````. -/
theorem c6_fenced_equals_raw_witness :
    jsonFromStr (rustTrim ("\x7b\"ok\":true\x7d".toList)) =
        some (Json.obj [("ok".toList, Json.bool true)]) ∧
      (Json.obj [("ok".toList, Json.bool true)]).isObjJson = true ∧
      extract_analysis_json ("\x7b\"ok\":true\x7d".toList) =
        some (Json.obj [("ok".toList, Json.bool true)]) ∧
      extract_analysis_json (fenceWrap ("```jSoN".toList) ("\x7b\"ok\":true\x7d".toList)) =
        some (Json.obj [("ok".toList, Json.bool true)]) := by
  have h := c6_fenced_equals_raw ("\x7b\"ok\":true\x7d".toList)
    (Json.obj [("ok".toList, Json.bool true)]) (by rfl) (by rfl)
  exact ⟨by rfl, by rfl, h.1, h.2 ("```jSoN".toList) (by decide)⟩

end OrTrace
